import Mathlib

/-!
Verification of the `data-encryption` cipher collection (DES, IDEA, TwoFish,
ChaCha20) against its natural-language specification.

All definitions are shallow embeddings of the TypeScript sources:
arbitrary-precision `bigint` values become `Nat`, byte/block lists become
`List Nat`, and each source function is transcribed operation for operation
(`&` = `&&&`, `|` = `|||`, `^` = `^^^`, `<<`/`>>` = `<<<`/`>>>`).
Loops that the source drives by a data-dependent `while` condition are
modelled with an explicit fuel argument (structural recursion) so that every
definition evaluates inside the kernel; each such definition documents the
fuel convention and the (junk) value returned if fuel were to run out, which
never happens on the domains used by the theorems.
-/

set_option maxRecDepth 8000

namespace DataEncryption

/-! ### Generic bit-arithmetic lemmas -/

theorem two_pow_pos (n : Nat) : 0 < 2 ^ n := Nat.pos_pow_of_pos n (by norm_num)

/-- `testBit` of `a * 2^n + b` when `b` fits in `n` bits: low bits come from
`b`, high bits from `a`. -/
theorem testBit_mul_pow_add (a b n i : Nat) (hb : b < 2 ^ n) :
    (a * 2 ^ n + b).testBit i = if i < n then b.testBit i else a.testBit (i - n) := by
  rcases Nat.lt_or_ge i n with h | h
  · have hsplit : (2 : Nat) ^ n = 2 ^ i * (2 * 2 ^ (n - i - 1)) := by
      have h1 : n = i + (n - i - 1) + 1 := by omega
      calc (2 : Nat) ^ n = 2 ^ (i + (n - i - 1) + 1) := by rw [← h1]
        _ = 2 ^ i * 2 ^ (n - i - 1) * 2 := by rw [pow_succ, pow_add]
        _ = 2 ^ i * (2 * 2 ^ (n - i - 1)) := by ring
    have harith : (a * 2 ^ n + b) / 2 ^ i % 2 = b / 2 ^ i % 2 := by
      have hrep : a * 2 ^ n + b = b + 2 ^ i * (2 * (a * 2 ^ (n - i - 1))) := by
        rw [hsplit]; ring
      rw [hrep, Nat.add_mul_div_left _ _ (two_pow_pos i)]
      omega
    rw [if_pos h, Nat.testBit_to_div_mod, Nat.testBit_to_div_mod, harith]
  · have harith : (a * 2 ^ n + b) / 2 ^ i = a / 2 ^ (i - n) := by
      have hsplit : (2 : Nat) ^ i = 2 ^ n * 2 ^ (i - n) := by
        rw [← pow_add]; congr 1; omega
      have hrep : a * 2 ^ n + b = b + 2 ^ n * a := by ring
      rw [hsplit, ← Nat.div_div_eq_div_mul, hrep,
        Nat.add_mul_div_left _ _ (two_pow_pos n), Nat.div_eq_of_lt hb, Nat.zero_add]
    rw [if_neg (by omega), Nat.testBit_to_div_mod, Nat.testBit_to_div_mod, harith]

/-- A shifted value `or`-ed with a value that fits below the shift is plain
addition: `(a <<< n) ||| b = a * 2^n + b` when `b < 2^n`. -/
theorem shiftLeft_lor_eq_add (a b n : Nat) (hb : b < 2 ^ n) :
    (a <<< n) ||| b = a * 2 ^ n + b := by
  apply Nat.eq_of_testBit_eq
  intro i
  rw [Nat.testBit_lor, Nat.testBit_shiftLeft, testBit_mul_pow_add a b n i hb]
  rcases Nat.lt_or_ge i n with h | h
  · simp [Nat.not_le.mpr h, h]
  · rw [if_neg (by omega)]
    simp [ge_iff_le, h,
      Nat.testBit_lt_two_pow (lt_of_lt_of_le hb (Nat.pow_le_pow_right (by norm_num) h))]

theorem and_mask_ff (x : Nat) : x &&& 0xFF = x % 2 ^ 8 := by
  have h := Nat.and_pow_two_sub_one_eq_mod x 8
  norm_num at h ⊢
  exact h

theorem and_mask_ffff (x : Nat) : x &&& 0xFFFF = x % 2 ^ 16 := by
  have h := Nat.and_pow_two_sub_one_eq_mod x 16
  norm_num at h ⊢
  exact h

theorem and_mask_ffffffff (x : Nat) : x &&& 0xFFFFFFFF = x % 2 ^ 32 := by
  have h := Nat.and_pow_two_sub_one_eq_mod x 32
  norm_num at h ⊢
  exact h

theorem and_mask_shift_one (x n : Nat) : x &&& ((1 <<< n) - 1) = x % 2 ^ n := by
  have h := Nat.and_pow_two_sub_one_eq_mod x n
  rwa [Nat.shiftLeft_eq, Nat.one_mul]

/-- `(a ^^^ c) ^^^ (b ^^^ c) = a ^^^ b`. -/
theorem xor_xor_cancel (a b c : Nat) : (a ^^^ c) ^^^ (b ^^^ c) = a ^^^ b := by
  rw [Nat.xor_comm b c, ← Nat.xor_assoc, Nat.xor_assoc a c c, Nat.xor_self, Nat.xor_zero]

/-! ### BitBlob utilities

The sources repeat one pair of helpers in every engine:
`extractBitsIntoBlocks` / `extract64BitBytesFromBLOB` /
`extract128BitBytesFromBLOB` / `extractBytesFromBlob` (split a blob into
`n`-bit blocks by repeatedly taking the low `n` bits, keeping original order,
first block possibly short) and `extractBLOBFrom64BitBytes` /
`extractBLOBFrom128BitBytes` / `extractBlobFromBytes` (fold the blocks back
with shift-or).  `splitIntoBlocks` / `joinBlocks` are those helpers with the
block width as a parameter.

`splitIntoBlocks` uses fuel (`x` itself suffices: each step divides by
`2^n ≥ 2`); with `n = 0` the source loops forever and the model returns the
accumulated junk. -/

def splitAux : Nat → Nat → Nat → List Nat
  | 0, _, _ => []
  | fuel + 1, x, n => if x = 0 then [] else splitAux fuel (x / 2 ^ n) n ++ [x % 2 ^ n]

/-- `while (blob > 0) { blocks.unshift(blob & ((1n << n) - 1n)); blob >>= n; }` -/
def splitIntoBlocks (x n : Nat) : List Nat := splitAux x x n

/-- `for (block of blocks) { hex <<= n; hex |= block; }` -/
def joinBlocks (bs : List Nat) (n : Nat) : Nat :=
  bs.foldl (fun acc b => (acc <<< n) ||| b) 0

theorem splitAux_fuel (n : Nat) (hn : 0 < n) :
    ∀ f1 : Nat, ∀ x f2, x ≤ f1 → x ≤ f2 → splitAux f1 x n = splitAux f2 x n := by
  intro f1
  induction f1 using Nat.strong_induction_on with
  | _ f1 ih =>
    intro x f2 h1 h2
    cases f1 with
    | zero =>
      have hx : x = 0 := by omega
      cases f2 with
      | zero => rfl
      | succ f2 => simp [hx, splitAux]
    | succ f1 =>
      cases f2 with
      | zero =>
        have hx : x = 0 := by omega
        simp [hx, splitAux]
      | succ f2 =>
        simp only [splitAux]
        rcases Nat.eq_zero_or_pos x with hx | hx
        · simp [hx]
        · have hlt : x / 2 ^ n < x :=
            Nat.div_lt_self hx (Nat.one_lt_two_pow_iff.mpr (by omega))
          rw [if_neg (by omega), if_neg (by omega),
            ih f1 (by omega) (x / 2 ^ n) f2 (by omega) (by omega)]

/-- Recurrence for `splitIntoBlocks` (positive width). -/
theorem splitIntoBlocks_eq (x n : Nat) (hn : 0 < n) :
    splitIntoBlocks x n =
      if x = 0 then [] else splitIntoBlocks (x / 2 ^ n) n ++ [x % 2 ^ n] := by
  rcases Nat.eq_zero_or_pos x with hx | hx
  · simp [hx, splitIntoBlocks, splitAux]
  · obtain ⟨y, rfl⟩ : ∃ y, x = y + 1 := ⟨x - 1, by omega⟩
    have hle : (y + 1) / 2 ^ n ≤ y := Nat.lt_succ_iff.mp
      (Nat.div_lt_self (by omega) (Nat.one_lt_two_pow_iff.mpr (by omega)))
    simp only [splitIntoBlocks]
    rw [show splitAux (y + 1) (y + 1) n
        = if (y + 1) = 0 then [] else splitAux y ((y + 1) / 2 ^ n) n ++ [(y + 1) % 2 ^ n]
      from rfl]
    rw [if_neg (Nat.succ_ne_zero y), if_neg (Nat.succ_ne_zero y),
      splitAux_fuel n hn y ((y + 1) / 2 ^ n) ((y + 1) / 2 ^ n) hle le_rfl]

theorem joinBlocks_append (l : List Nat) (b n : Nat) :
    joinBlocks (l ++ [b]) n = (joinBlocks l n <<< n) ||| b := by
  simp [joinBlocks, List.foldl_append]

/-- Every produced block is below `2^n`. -/
theorem splitIntoBlocks_lt (x n : Nat) (hn : 0 < n) :
    ∀ b ∈ splitIntoBlocks x n, b < 2 ^ n := by
  induction x using Nat.strong_induction_on with
  | _ x ih =>
    intro b hb
    rw [splitIntoBlocks_eq x n hn] at hb
    rcases Nat.eq_zero_or_pos x with hx | hx
    · simp [hx] at hb
    · rw [if_neg (by omega)] at hb
      rcases List.mem_append.mp hb with h | h
      · exact ih (x / 2 ^ n)
          (Nat.div_lt_self hx (Nat.one_lt_two_pow_iff.mpr (by omega))) b h
      · simp at h
        subst h
        exact Nat.mod_lt _ (two_pow_pos n)

/-- The binding BitBlob contract: joining the split of `x` restores `x`. -/
theorem joinBlocks_splitIntoBlocks (x n : Nat) (hn : 0 < n) :
    joinBlocks (splitIntoBlocks x n) n = x := by
  induction x using Nat.strong_induction_on with
  | _ x ih =>
    rw [splitIntoBlocks_eq x n hn]
    rcases Nat.eq_zero_or_pos x with hx | hx
    · simp [hx, joinBlocks]
    · rw [if_neg (by omega), joinBlocks_append,
        ih (x / 2 ^ n) (Nat.div_lt_self hx (Nat.one_lt_two_pow_iff.mpr (by omega))),
        shiftLeft_lor_eq_add _ _ n (Nat.mod_lt _ (two_pow_pos n))]
      exact Nat.div_add_mod' x (2 ^ n)

/-- A nonzero head block keeps the whole join positive. -/
theorem joinBlocks_pos (l : List Nat) (n : Nat) (hn : 0 < n)
    (hl : ∀ b ∈ l, b < 2 ^ n) (h : l.headD 1 ≠ 0) (hne : l ≠ []) :
    0 < joinBlocks l n := by
  have key : ∀ l' : List Nat, ∀ acc, (∀ b ∈ l', b < 2 ^ n) → 0 < acc →
      0 < l'.foldl (fun acc b => (acc <<< n) ||| b) acc := by
    intro l'
    induction l' with
    | nil => intro acc _ hacc; simpa using hacc
    | cons c l'' ih =>
      intro acc hl' hacc
      simp only [List.foldl_cons]
      refine ih _ (fun b hb => hl' b (List.mem_cons_of_mem _ hb)) ?_
      rw [shiftLeft_lor_eq_add _ _ n (hl' c (List.mem_cons_self _ _))]
      have h2 : 2 ≤ 2 ^ n := Nat.one_lt_two_pow_iff.mpr (by omega)
      have h3 : acc * 2 ≤ acc * 2 ^ n := by nlinarith
      omega
  match l, hne with
  | b :: l, _ =>
    rw [List.headD_cons] at h
    have hb : b < 2 ^ n := hl b (List.mem_cons_self _ _)
    simp only [joinBlocks, List.foldl_cons]
    refine key l _ (fun x hx => hl x (List.mem_cons_of_mem _ hx)) ?_
    rw [shiftLeft_lor_eq_add _ _ n hb]
    simp only [Nat.zero_mul, Nat.zero_add]
    exact Nat.pos_of_ne_zero h

/-- Splitting an exact join restores the block list, provided blocks are
in-range and the head block is nonzero (a zero head block would be silently
dropped; this is the short-block quirk). -/
theorem splitIntoBlocks_joinBlocks (l : List Nat) (n : Nat) (hn : 0 < n)
    (hl : ∀ b ∈ l, b < 2 ^ n) (hhead : l.headD 1 ≠ 0) :
    splitIntoBlocks (joinBlocks l n) n = l := by
  induction l using List.reverseRecOn with
  | nil => simp [joinBlocks, splitIntoBlocks, splitAux]
  | append_singleton l b ih =>
    have hb : b < 2 ^ n := hl b (by simp)
    rw [joinBlocks_append, shiftLeft_lor_eq_add _ _ n hb]
    rcases List.eq_nil_or_concat l with hnil | ⟨l', a, rfl⟩
    · subst hnil
      simp only [joinBlocks, List.foldl_nil, Nat.zero_mul, Nat.zero_add]
      simp only [List.nil_append, List.headD_cons] at hhead
      rw [splitIntoBlocks_eq _ n hn, if_neg hhead, Nat.mod_eq_of_lt hb,
        Nat.div_eq_of_lt hb]
      simp [splitIntoBlocks, splitAux]
    · simp only [List.concat_eq_append] at hl hhead ih ⊢
      have hl' : ∀ x ∈ l' ++ [a], x < 2 ^ n := fun x hx => hl x (List.mem_append_left _ hx)
      have hhead' : (l' ++ [a]).headD 1 ≠ 0 := by
        cases l' with
        | nil => simpa using hhead
        | cons c l'' => simpa using hhead
      have hpos : 0 < joinBlocks (l' ++ [a]) n :=
        joinBlocks_pos _ n hn hl' hhead' (by simp)
      have hne : joinBlocks (l' ++ [a]) n * 2 ^ n + b ≠ 0 := by
        have h1 : joinBlocks (l' ++ [a]) n ≤ joinBlocks (l' ++ [a]) n * 2 ^ n :=
          Nat.le_mul_of_pos_right _ (two_pow_pos n)
        omega
      have harith1 : (joinBlocks (l' ++ [a]) n * 2 ^ n + b) % 2 ^ n = b := by
        rw [Nat.mul_comm, Nat.mul_add_mod, Nat.mod_eq_of_lt hb]
      have harith2 : (joinBlocks (l' ++ [a]) n * 2 ^ n + b) / 2 ^ n
          = joinBlocks (l' ++ [a]) n := by
        rw [Nat.mul_comm, Nat.mul_add_div (two_pow_pos n), Nat.div_eq_of_lt hb,
          Nat.add_zero]
      rw [splitIntoBlocks_eq _ n hn, if_neg hne, harith1, harith2, ih hl' hhead']

/-! ### ChaCha20 engine

Shallow embedding of the ChaCha20 implementation (the core variant and the
presentation variant share the block function verbatim).  State is a
`List Nat` of sixteen 32-bit words; `quarterRound` transcribes the sequence of
in-place updates one assignment at a time. -/

namespace ChaCha20

/-- `(a + b) & 0xffffffffn` -/
def sum32 (a b : Nat) : Nat := (a + b) &&& 0xffffffff

/-- `(0xffffffffn & (a << b)) | (a >> (32n - b))` -/
def ROTL (a b : Nat) : Nat := (0xffffffff &&& (a <<< b)) ||| (a >>> (32 - b))

def quarterRound (s : List Nat) (a b c d : Nat) : List Nat :=
  let s := s.set a (sum32 (s.getD a 0) (s.getD b 0))
  let s := s.set d ((s.getD d 0) ^^^ (s.getD a 0))
  let s := s.set d (ROTL (s.getD d 0) 16)
  let s := s.set c (sum32 (s.getD c 0) (s.getD d 0))
  let s := s.set b ((s.getD b 0) ^^^ (s.getD c 0))
  let s := s.set b (ROTL (s.getD b 0) 12)
  let s := s.set a (sum32 (s.getD a 0) (s.getD b 0))
  let s := s.set d ((s.getD d 0) ^^^ (s.getD a 0))
  let s := s.set d (ROTL (s.getD d 0) 8)
  let s := s.set c (sum32 (s.getD c 0) (s.getD d 0))
  let s := s.set b ((s.getD b 0) ^^^ (s.getD c 0))
  let s := s.set b (ROTL (s.getD b 0) 7)
  s

/-- `words(value, count)`: 32-bit chunks in most-significant-first order,
front-padded with zeros up to `count`, then popped from the back down to
`count`. -/
def words (value count : Nat) : List Nat :=
  let base := splitIntoBlocks value 32
  if base.length ≤ count then List.replicate (count - base.length) 0 ++ base
  else base.take count

/-- One iteration of the `for (i = 0; i < 20; i += 2)` loop: four column
quarter-rounds then four diagonal quarter-rounds. -/
def doubleRound (s : List Nat) : List Nat :=
  let s := quarterRound s 0 4 8 12
  let s := quarterRound s 1 5 9 13
  let s := quarterRound s 2 6 10 14
  let s := quarterRound s 3 7 11 15
  let s := quarterRound s 0 5 10 15
  let s := quarterRound s 1 6 11 12
  let s := quarterRound s 2 7 8 13
  let s := quarterRound s 3 4 9 14
  s

/-- `chaChaBlock(key, nonce, count)`: constants, 8 key words, counter,
3 nonce words; ten double rounds; word-wise sum with the initial state. -/
def chaChaBlock (key nonce count : Nat) : List Nat :=
  let state : List Nat :=
    [0x61707865, 0x3320646e, 0x79622d32, 0x6b206574]
      ++ words key 8 ++ [count] ++ words nonce 3
  let final := (List.range 10).foldl (fun s _ => doubleRound s) state
  List.zipWith sum32 state final

/-- The `while (byte > 0) { yield byte & 0xFFn; byte >>= 8n; }` loop of the
keystream generator: low-byte-first bytes of `b`, stopping as soon as the
remaining value is zero (so high-order zero bytes are never yielded).  Fuel
(`b` itself suffices) makes the recursion structural. -/
def emitAux : Nat → Nat → List Nat
  | 0, _ => []
  | fuel + 1, b => if b = 0 then [] else (b &&& 0xFF) :: emitAux fuel (b >>> 8)

def emitBytes (b : Nat) : List Nat := emitAux b b

/-- Bytes the generator yields for one block: for each word, iterate over
`words(word, 4)` (which is `[0, 0, 0, word]` for a 32-bit word) and emit the
minimal little-endian bytes of each entry. -/
def blockEmit (block : List Nat) : List Nat :=
  block.flatMap (fun word => (words word 4).flatMap emitBytes)

/-- Keystream bytes drawn from counters `1, 2, …, nBlocks` (the core
variant's generator starts at `i = 1n`; the presentation variant starts at
`0`).  The source generator is infinite and lazy; the model materialises
`nBlocks` blocks, one per consumed input byte in `xorKeyStream`, which covers
every prefix the theorems use. -/
def keyStreamBytes (key nonce nBlocks : Nat) : List Nat :=
  (List.range nBlocks).flatMap (fun i => blockEmit (chaChaBlock key nonce (i + 1)))

/-- `xorKeyStream`: XOR each input byte with the next generator byte. -/
def xorKeyStream (input : List Nat) (key nonce : Nat) : List Nat :=
  List.zipWith (· ^^^ ·) input (keyStreamBytes key nonce input.length)

/-- `encrypt`/`decrypt` of the core variant, parameterised by the already
hashed key bytes (`hashKeyBySHA256` is the external digest primitive). -/
def encrypt (input keyBytes nonce : Nat) : Nat :=
  joinBlocks (xorKeyStream (splitIntoBlocks input 8) keyBytes nonce) 8

def decrypt (input keyBytes nonce : Nat) : Nat :=
  joinBlocks (xorKeyStream (splitIntoBlocks input 8) keyBytes nonce) 8

/-- `const resolvedKey = key || random128BitKey()`: a missing passphrase is
replaced by the freshly generated random key (an external primitive, passed
in as `randomKey`). -/
def resolveKey (key : Option String) (randomKey : String) : String :=
  key.getD randomKey

/-- The keyed `encrypt` entry point: it computes `resolvedKey`, but the next
line `const keyBytes = await hashKeyBySHA256(key)` digests the ORIGINAL
`key` argument rather than `resolvedKey`.  The digest (`hashKeyBySHA256`)
is an external primitive, modelled as the parameter `hash`; the result pairs
the ciphertext with the resolved key handed back to the caller. -/
def encryptResolved (hash : Option String → Nat) (randomKey : String)
    (input : Nat) (key : Option String) (nonce : Nat) : Nat × String :=
  (encrypt input (hash key) nonce, resolveKey key randomKey)

/-- The keyed `decrypt` entry point, with the identical key-resolution and
hash-of-the-original-argument lines. -/
def decryptResolved (hash : Option String → Nat) (randomKey : String)
    (input : Nat) (key : Option String) (nonce : Nat) : Nat × String :=
  (decrypt input (hash key) nonce, resolveKey key randomKey)

/-- Serialization of one output word as the spec (and RFC 8439) describe it:
exactly four bytes, low byte first, zero bytes included.  This is the
spec-side definition compared against `blockEmit`. -/
def specWordBytes (w : Nat) : List Nat :=
  [w % 256, w / 256 % 256, w / 65536 % 256, w / 16777216 % 256]

/-- Spec-side serialization of a whole block (4 bytes per word). -/
def specSerialize (ws : List Nat) : List Nat := ws.flatMap specWordBytes

/-- Spec-side keystream for counters `1 … nBlocks`. -/
def specKeyStream (key nonce nBlocks : Nat) : List Nat :=
  (List.range nBlocks).flatMap (fun i => specSerialize (chaChaBlock key nonce (i + 1)))

theorem emitAux_lt (fuel b : Nat) : ∀ x ∈ emitAux fuel b, x < 256 := by
  induction fuel generalizing b with
  | zero => intro x hx; simp [emitAux] at hx
  | succ fuel ih =>
    intro x hx
    simp only [emitAux] at hx
    rcases Nat.eq_zero_or_pos b with hb | hb
    · simp [hb] at hx
    · rw [if_neg (by omega)] at hx
      rcases List.mem_cons.mp hx with h | h
      · subst h
        rw [and_mask_ff]
        exact Nat.mod_lt _ (by norm_num)
      · exact ih _ x h

theorem keyStreamBytes_lt (key nonce n : Nat) :
    ∀ x ∈ keyStreamBytes key nonce n, x < 256 := by
  intro x hx
  simp only [keyStreamBytes, List.mem_flatMap] at hx
  obtain ⟨i, _, hx⟩ := hx
  simp only [blockEmit, List.mem_flatMap] at hx
  obtain ⟨w, _, v, _, hx⟩ := hx
  exact emitAux_lt _ _ x hx

theorem zipWith_xor_lt (l1 l2 : List Nat) (h1 : ∀ a ∈ l1, a < 2 ^ 8)
    (h2 : ∀ a ∈ l2, a < 2 ^ 8) :
    ∀ x ∈ List.zipWith (· ^^^ ·) l1 l2, x < 2 ^ 8 := by
  induction l1 generalizing l2 with
  | nil => intro x hx; simp at hx
  | cons a l1 ih =>
    intro x hx
    cases l2 with
    | nil => simp at hx
    | cons b l2 =>
      simp only [List.zipWith_cons_cons, List.mem_cons] at hx
      rcases hx with h | h
      · subst h
        exact Nat.xor_lt_two_pow (h1 a (by simp)) (h2 b (by simp))
      · exact ih l2 (fun y hy => h1 y (List.mem_cons_of_mem _ hy))
          (fun y hy => h2 y (List.mem_cons_of_mem _ hy)) x h

theorem zipWith_xor_cancel (l1 l2 : List Nat) (h : l1.length ≤ l2.length) :
    List.zipWith (· ^^^ ·) (List.zipWith (· ^^^ ·) l1 l2) l2 = l1 := by
  induction l1 generalizing l2 with
  | nil => simp
  | cons a l1 ih =>
    cases l2 with
    | nil => simp at h
    | cons b l2 =>
      simp only [List.zipWith_cons_cons, Nat.xor_cancel_right, List.cons.injEq, true_and]
      exact ih l2 (by simpa using h)

/-- Conditional ChaCha20 round-trip: works whenever the generator supplies
enough bytes within one block per input byte and the leading ciphertext byte
is nonzero (a zero leading byte is dropped by the blob representation and
desynchronises the keystream on decryption). -/
theorem chacha_roundtrip (blob keyBytes nonce : Nat)
    (hlen : (splitIntoBlocks blob 8).length
      ≤ (keyStreamBytes keyBytes nonce (splitIntoBlocks blob 8).length).length)
    (hhead : (xorKeyStream (splitIntoBlocks blob 8) keyBytes nonce).headD 1 ≠ 0) :
    decrypt (encrypt blob keyBytes nonce) keyBytes nonce = blob := by
  set bs := splitIntoBlocks blob 8 with hbs
  set ks := keyStreamBytes keyBytes nonce bs.length with hks
  set out := List.zipWith (· ^^^ ·) bs ks with hout
  have hbs_lt : ∀ b ∈ bs, b < 2 ^ 8 := splitIntoBlocks_lt blob 8 (by norm_num)
  have hks_lt : ∀ b ∈ ks, b < 2 ^ 8 := by
    intro b hb
    have := keyStreamBytes_lt keyBytes nonce bs.length b hb
    norm_num
    omega
  have hout_lt : ∀ b ∈ out, b < 2 ^ 8 := zipWith_xor_lt bs ks hbs_lt hks_lt
  have hout_len : out.length = bs.length := by
    rw [hout, List.length_zipWith]
    omega
  have hsplit_out : splitIntoBlocks (joinBlocks out 8) 8 = out :=
    splitIntoBlocks_joinBlocks out 8 (by norm_num) hout_lt hhead
  show joinBlocks
      (xorKeyStream (splitIntoBlocks (joinBlocks out 8) 8) keyBytes nonce) 8 = blob
  rw [hsplit_out]
  show joinBlocks (List.zipWith (· ^^^ ·) out (keyStreamBytes keyBytes nonce out.length)) 8
    = blob
  rw [hout_len, ← hks, hout, zipWith_xor_cancel bs ks hlen, hbs,
    joinBlocks_splitIntoBlocks blob 8 (by norm_num)]

end ChaCha20

/-! ### DES engine

Shallow embedding of the DES implementation.  `permute` reads bit
`table[i] - 1` of the input counted from the least-significant end and
appends it as the next lower bit of the output (the source indexes bits from
the LSB, not FIPS 46-3's MSB-first numbering). -/

namespace DES

def IP : List Nat := [
  58, 50, 42, 34, 26, 18, 10, 2, 60, 52, 44, 36, 28, 20, 12, 4, 62, 54, 46, 38, 30, 22, 14, 6, 64,
  56, 48, 40, 32, 24, 16, 8, 57, 49, 41, 33, 25, 17, 9, 1, 59, 51, 43, 35, 27, 19, 11, 3, 61, 53,
  45, 37, 29, 21, 13, 5, 63, 55, 47, 39, 31, 23, 15, 7]

def IPInverse : List Nat := [
  40, 8, 48, 16, 56, 24, 64, 32, 39, 7, 47, 15, 55, 23, 63, 31, 38, 6, 46, 14, 54, 22, 62, 30, 37,
  5, 45, 13, 53, 21, 61, 29, 36, 4, 44, 12, 52, 20, 60, 28, 35, 3, 43, 11, 51, 19, 59, 27, 34, 2,
  42, 10, 50, 18, 58, 26, 33, 1, 41, 9, 49, 17, 57, 25]

def P : List Nat := [
  16, 7, 20, 21, 29, 12, 28, 17, 1, 15, 23, 26, 5, 18, 31, 10, 2, 8, 24, 14, 32, 27, 3, 9, 19, 13,
  30, 6, 22, 11, 4, 25]

def ESelection : List Nat := [
  32, 1, 2, 3, 4, 5, 4, 5, 6, 7, 8, 9, 8, 9, 10, 11, 12, 13, 12, 13, 14, 15, 16, 17, 16, 17, 18, 19,
  20, 21, 20, 21, 22, 23, 24, 25, 24, 25, 26, 27, 28, 29, 28, 29, 30, 31, 32, 1]

def s1 : List (List Nat) := [
  [14, 4, 13, 1, 2, 15, 11, 8, 3, 10, 6, 12, 5, 9, 0, 7],
  [0, 15, 7, 4, 14, 2, 13, 1, 10, 6, 12, 11, 9, 5, 3, 8],
  [4, 1, 14, 8, 13, 6, 2, 11, 15, 12, 9, 7, 3, 10, 5, 0],
  [15, 12, 8, 2, 4, 9, 1, 7, 5, 11, 3, 14, 10, 0, 6, 13]]

def s2 : List (List Nat) := [
  [15, 1, 8, 14, 6, 11, 3, 4, 9, 7, 2, 13, 12, 0, 5, 10],
  [3, 13, 4, 7, 15, 2, 8, 14, 12, 0, 1, 10, 6, 9, 11, 5],
  [0, 14, 7, 11, 10, 4, 13, 1, 5, 8, 12, 6, 9, 3, 2, 15],
  [13, 8, 10, 1, 3, 15, 4, 2, 11, 6, 7, 12, 0, 5, 14, 9]]

def s3 : List (List Nat) := [
  [10, 0, 9, 14, 6, 3, 15, 5, 1, 13, 12, 7, 11, 4, 2, 8],
  [13, 7, 0, 9, 3, 4, 6, 10, 2, 8, 5, 14, 12, 11, 15, 1],
  [13, 6, 4, 9, 8, 15, 3, 0, 11, 1, 2, 12, 5, 10, 14, 7],
  [1, 10, 13, 0, 6, 9, 8, 7, 4, 15, 14, 3, 11, 5, 2, 12]]

def s4 : List (List Nat) := [
  [7, 13, 14, 3, 0, 6, 9, 10, 1, 2, 8, 5, 11, 12, 4, 15],
  [13, 8, 11, 5, 6, 15, 0, 3, 4, 7, 2, 12, 1, 10, 14, 9],
  [10, 6, 9, 0, 12, 11, 7, 13, 15, 1, 3, 14, 5, 2, 8, 4],
  [3, 15, 0, 6, 10, 1, 13, 8, 9, 4, 5, 11, 12, 7, 2, 14]]

def s5 : List (List Nat) := [
  [2, 12, 4, 1, 7, 10, 11, 6, 8, 5, 3, 15, 13, 0, 14, 9],
  [14, 11, 2, 12, 4, 7, 13, 1, 5, 0, 15, 10, 3, 9, 8, 6],
  [4, 2, 1, 11, 10, 13, 7, 8, 15, 9, 12, 5, 6, 3, 0, 14],
  [11, 8, 12, 7, 1, 14, 2, 13, 6, 15, 0, 9, 10, 4, 5, 3]]

def s6 : List (List Nat) := [
  [12, 1, 10, 15, 9, 2, 6, 8, 0, 13, 3, 4, 14, 7, 5, 11],
  [10, 15, 4, 2, 7, 12, 9, 5, 6, 1, 13, 14, 0, 11, 3, 8],
  [9, 14, 15, 5, 2, 8, 12, 3, 7, 0, 4, 10, 1, 13, 11, 6],
  [4, 3, 2, 12, 9, 5, 15, 10, 11, 14, 1, 7, 6, 0, 8, 13]]

def s7 : List (List Nat) := [
  [4, 11, 2, 14, 15, 0, 8, 13, 3, 12, 9, 7, 5, 10, 6, 1],
  [13, 0, 11, 7, 4, 9, 1, 10, 14, 3, 5, 12, 2, 15, 8, 6],
  [1, 4, 11, 13, 12, 3, 7, 14, 10, 15, 6, 8, 0, 5, 9, 2],
  [6, 11, 13, 8, 1, 4, 10, 7, 9, 5, 0, 15, 14, 2, 3, 12]]

def s8 : List (List Nat) := [
  [13, 2, 8, 4, 6, 15, 11, 1, 10, 9, 3, 14, 5, 0, 12, 7],
  [1, 15, 13, 8, 10, 3, 7, 4, 12, 5, 6, 11, 0, 14, 9, 2],
  [7, 11, 4, 1, 9, 12, 14, 2, 0, 6, 10, 13, 15, 3, 5, 8],
  [2, 1, 14, 7, 4, 10, 8, 13, 15, 12, 9, 0, 3, 5, 6, 11]]

def sTables : List (List (List Nat)) := [s1, s2, s3, s4, s5, s6, s7, s8]

def pc1 : List Nat := [
  57, 49, 41, 33, 25, 17, 9, 1, 58, 50, 42, 34, 26, 18, 10, 2, 59, 51, 43, 35, 27, 19, 11, 3, 60,
  52, 44, 36, 63, 55, 47, 39, 31, 23, 15, 7, 62, 54, 46, 38, 30, 22, 14, 6, 61, 53, 45, 37, 29, 21,
  13, 5, 28, 20, 12, 4]

def pc2 : List Nat := [
  14, 17, 11, 24, 1, 5, 3, 28, 15, 6, 21, 10, 23, 19, 12, 4, 26, 8, 16, 7, 27, 20, 13, 2, 41, 52,
  31, 37, 47, 55, 30, 40, 51, 45, 33, 48, 44, 49, 39, 56, 34, 53, 46, 42, 50, 36, 29, 32]

def shiftAmounts : List Nat := [0, 1, 1, 2, 2, 2, 2, 2, 2, 1, 2, 2, 2, 2, 2, 2, 1]

def cyclicLeftShift (block size amt : Nat) : Nat :=
  ((block <<< amt) ||| (block >>> (size - amt))) &&& ((1 <<< size) - 1)

/-- One step of the `permute` fold: shift the accumulator and append bit
`t - 1` (counted from the LSB) of `block`. -/
def permStep (block acc t : Nat) : Nat := (acc <<< 1) ||| ((block >>> (t - 1)) &&& 1)

def permute (block : Nat) (table : List Nat) : Nat :=
  table.foldl (permStep block) 0

/-- `permuteSplit` always splits at bit 32, even for the 56-bit PC1 output
used by the key schedule. -/
def permuteSplit (block : Nat) (table : List Nat) : Nat × Nat :=
  let p := permute block table
  (p >>> 32, p &&& 0xFFFFFFFF)

def permuteJoin (l r : Nat) (table : List Nat) : Nat :=
  permute ((l <<< 32) ||| r) table

def selectE (block : Nat) : Nat :=
  ESelection.foldl (permStep block) 0

def selectS (block : Nat) (tableIndex : Nat) : Nat :=
  let firstBit := (block &&& 0b100000) >>> 5
  let lastBit := block &&& 0b1
  let i := (firstBit <<< 1) ||| lastBit
  let j := (block &&& 0b011110) >>> 1
  ((sTables.getD tableIndex []).getD i []).getD j 0

/-- The round function `f(R, K)`: E-selection, XOR with the round key, split
into 6-bit groups (leading zero groups are dropped by
`extractBitsIntoBlocks`, so the groups are paired with S-boxes starting from
`s1` whatever their count), S-box substitution, concatenation, P-permutation. -/
def cipher (block key : Nat) : Nat :=
  let selected := selectE block
  let xored := selected ^^^ key
  let sixBitBlocks := splitIntoBlocks xored 6
  let sSelected := sixBitBlocks.mapIdx (fun i b => selectS b i)
  let concatenated := sSelected.foldl (fun acc b => (acc <<< 4) ||| b) 0
  permute concatenated P

/-- `createKeySchedule`: PC1, split (at bit 32), sixteen 28-bit double
rotations, PC2 on each joined pair. -/
def createKeySchedule (key : Nat) : List Nat :=
  let cd0 := permuteSplit key pc1
  let cds := (List.range' 1 16).foldl
    (fun (cds : List (Nat × Nat)) i =>
      let prev := cds.getD (i - 1) (0, 0)
      let s := shiftAmounts.getD i 0
      cds ++ [(cyclicLeftShift prev.1 28 s, cyclicLeftShift prev.2 28 s)])
    [cd0]
  (cds.drop 1).map (fun cd => permuteJoin cd.1 cd.2 pc2)

/-- The sixteen `[l, r] = [r, l ^ cipher(r, k_i)]` rounds of `encryptBlock`. -/
def feistelEnc (ks : List Nat) (lr : Nat × Nat) : Nat × Nat :=
  ks.foldl (fun lr k => (lr.2, lr.1 ^^^ cipher lr.2 k)) lr

/-- The sixteen `[l, r] = [r ^ cipher(l, k_i), l]` rounds (`i = 15 … 0`) of
`decryptBlock`. -/
def feistelDec (ks : List Nat) (lr : Nat × Nat) : Nat × Nat :=
  ks.reverse.foldl (fun lr k => (lr.2 ^^^ cipher lr.1 k, lr.1)) lr

def encryptBlock (block : Nat) (keySchedule : List Nat) : Nat :=
  let lr := permuteSplit block IP
  let lr := feistelEnc keySchedule lr
  permuteJoin lr.1 lr.2 IPInverse

def decryptBlock (block : Nat) (keySchedule : List Nat) : Nat :=
  let lr := permuteSplit block IP
  let lr := feistelDec keySchedule lr
  permuteJoin lr.1 lr.2 IPInverse

/-! Permutation theory: `permute` builds a value whose bit `len - 1 - i` is
bit `table[i] - 1` of the input. -/

theorem lor_shiftLeft (x y n : Nat) : (x ||| y) <<< n = (x <<< n) ||| (y <<< n) := by
  apply Nat.eq_of_testBit_eq
  intro i
  simp [Nat.testBit_shiftLeft, Nat.testBit_lor, Bool.and_or_distrib_left]

theorem foldl_permStep_acc (x : Nat) (l : List Nat) :
    ∀ acc : Nat, l.foldl (permStep x) acc = (acc <<< l.length) ||| l.foldl (permStep x) 0 := by
  induction l with
  | nil => intro acc; simp
  | cons t ts ih =>
    intro acc
    simp only [List.foldl_cons, List.length_cons]
    rw [ih (permStep x acc t), ih (permStep x 0 t)]
    have h0 : permStep x 0 t = (x >>> (t - 1)) &&& 1 := by
      simp [permStep, Nat.zero_shiftLeft]
    have hstep : permStep x acc t = (acc <<< 1) ||| ((x >>> (t - 1)) &&& 1) := rfl
    have hsh : (acc <<< 1) <<< ts.length = acc <<< (ts.length + 1) := by
      rw [Nat.shiftLeft_eq, Nat.shiftLeft_eq, Nat.shiftLeft_eq]
      ring
    rw [h0, hstep, lor_shiftLeft, hsh, Nat.lor_assoc]

theorem bit_le_one (x k : Nat) : (x >>> k) &&& 1 ≤ 1 := by
  rw [Nat.and_one_is_mod]
  omega

theorem permute_cons (x t : Nat) (ts : List Nat) :
    permute x (t :: ts) = (((x >>> (t - 1)) &&& 1) <<< ts.length) ||| permute x ts := by
  simp only [permute, List.foldl_cons]
  rw [foldl_permStep_acc]
  congr 1
  simp [permStep, Nat.zero_shiftLeft]

theorem permute_lt (x : Nat) (t : List Nat) : permute x t < 2 ^ t.length := by
  induction t with
  | nil => simp [permute]
  | cons t ts ih =>
    rw [permute_cons, List.length_cons]
    apply Nat.or_lt_two_pow
    · rw [Nat.shiftLeft_eq]
      have hb := bit_le_one x (t - 1)
      have h1 : ((x >>> (t - 1)) &&& 1) * 2 ^ ts.length ≤ 1 * 2 ^ ts.length :=
        Nat.mul_le_mul_right _ hb
      have h2 : (2 : Nat) ^ (ts.length + 1) = 2 ^ ts.length * 2 := by ring
      omega
    · exact lt_trans ih (Nat.pow_lt_pow_right (by norm_num) (by omega))

theorem permute_testBit (x : Nat) (t : List Nat) (i : Nat) :
    (permute x t).testBit i =
      if i < t.length then x.testBit (t.getD (t.length - 1 - i) 0 - 1) else false := by
  induction t with
  | nil => simp [permute, Nat.zero_testBit]
  | cons a ts ih =>
    rw [permute_cons, Nat.testBit_lor, Nat.testBit_shiftLeft, ih, List.length_cons]
    rcases Nat.lt_trichotomy i ts.length with h | h | h
    · rw [if_pos h, if_pos (by omega)]
      have hd : decide (i ≥ ts.length) = false := decide_eq_false (by omega)
      rw [hd, Bool.false_and, Bool.false_or]
      have hidx : ts.length + 1 - 1 - i = (ts.length - 1 - i) + 1 := by omega
      rw [hidx, List.getD_cons_succ]
    · subst h
      rw [if_neg (by omega), if_pos (by omega)]
      have hidx : ts.length + 1 - 1 - ts.length = 0 := by omega
      rw [hidx, List.getD_cons_zero]
      have hd : decide (ts.length ≥ ts.length) = true := decide_eq_true (le_refl _)
      rw [hd, Bool.true_and, Nat.sub_self, Bool.or_false, Nat.testBit_zero,
        Nat.and_one_is_mod, Nat.testBit_to_div_mod, Nat.shiftRight_eq_div_pow]
      have harith : x / 2 ^ (a - 1) % 2 % 2 = x / 2 ^ (a - 1) % 2 :=
        Nat.mod_mod_of_dvd _ dvd_rfl
      rw [harith]
    · rw [if_neg (by omega), if_neg (by omega)]
      have h1 : ((x >>> (a - 1)) &&& 1).testBit (i - ts.length) = false := by
        apply Nat.testBit_lt_two_pow
        have hb := bit_le_one x (a - 1)
        have h2 : (1:Nat) < 2 ^ (i - ts.length) := Nat.one_lt_two_pow_iff.mpr (by omega)
        omega
      rw [h1, Bool.and_false, Bool.false_or]

/-- Composing two permutation tables gives the identity on `2^L`-bounded
values whenever the tables invert each other in the source's LSB-first
convention. -/
theorem permute_permute (t1 t2 : List Nat) (L : Nat) (h1 : t1.length = L)
    (h2 : t2.length = L)
    (htab : ∀ i, i < L → (t2.getD (L - 1 - i) 0 - 1) < L ∧
      t1.getD (L - 1 - (t2.getD (L - 1 - i) 0 - 1)) 0 - 1 = i)
    (x : Nat) (hx : x < 2 ^ L) : permute (permute x t1) t2 = x := by
  apply Nat.eq_of_testBit_eq
  intro i
  rw [permute_testBit, permute_testBit, h1, h2]
  rcases Nat.lt_or_ge i L with h | h
  · obtain ⟨hr, he⟩ := htab i h
    rw [if_pos h, if_pos hr, he]
  · rw [if_neg (by omega)]
    exact (Nat.testBit_lt_two_pow
      (lt_of_lt_of_le hx (Nat.pow_le_pow_right (by norm_num) h))).symm

theorem IP_IPInverse_tables : ∀ i, i < 64 → (IPInverse.getD (64 - 1 - i) 0 - 1) < 64 ∧
    IP.getD (64 - 1 - (IPInverse.getD (64 - 1 - i) 0 - 1)) 0 - 1 = i := by decide

theorem IPInverse_IP_tables : ∀ i, i < 64 → (IP.getD (64 - 1 - i) 0 - 1) < 64 ∧
    IPInverse.getD (64 - 1 - (IP.getD (64 - 1 - i) 0 - 1)) 0 - 1 = i := by decide

theorem feistel_inv (ks : List Nat) (lr : Nat × Nat) :
    feistelDec ks (feistelEnc ks lr) = lr := by
  induction ks using List.reverseRecOn generalizing lr with
  | nil => rfl
  | append_singleton ks k ih =>
    have henc : feistelEnc (ks ++ [k]) lr =
        ((feistelEnc ks lr).2, (feistelEnc ks lr).1 ^^^ cipher (feistelEnc ks lr).2 k) := by
      simp [feistelEnc, List.foldl_append]
    have hdec : ∀ x : Nat × Nat, feistelDec (ks ++ [k]) x
        = feistelDec ks (x.2 ^^^ cipher x.1 k, x.1) := by
      intro x
      simp [feistelDec, List.reverse_append]
    rw [henc, hdec]
    have hpair : (((feistelEnc ks lr).2, (feistelEnc ks lr).1 ^^^
          cipher (feistelEnc ks lr).2 k).2 ^^^
        cipher ((feistelEnc ks lr).2, (feistelEnc ks lr).1 ^^^
          cipher (feistelEnc ks lr).2 k).1 k,
        ((feistelEnc ks lr).2, (feistelEnc ks lr).1 ^^^
          cipher (feistelEnc ks lr).2 k).1) = feistelEnc ks lr := by
      simp [Nat.xor_cancel_right]
    rw [hpair]
    exact ih lr

theorem cipher_lt (b k : Nat) : cipher b k < 2 ^ 32 := by
  simp only [cipher]
  exact permute_lt _ P

theorem feistelEnc_bounds (ks : List Nat) :
    ∀ l r : Nat, l < 2 ^ 32 → r < 2 ^ 32 →
      (feistelEnc ks (l, r)).1 < 2 ^ 32 ∧ (feistelEnc ks (l, r)).2 < 2 ^ 32 := by
  induction ks with
  | nil => intro l r hl hr; exact ⟨hl, hr⟩
  | cons k ks ih =>
    intro l r hl hr
    show (feistelEnc ks (r, l ^^^ cipher r k)).1 < 2 ^ 32 ∧
      (feistelEnc ks (r, l ^^^ cipher r k)).2 < 2 ^ 32
    exact ih r (l ^^^ cipher r k) hr (Nat.xor_lt_two_pow hl (cipher_lt r k))

/-- Block-level DES round trip: `decryptBlock` inverts `encryptBlock` for
every 64-bit block and every key schedule. -/
theorem des_block_roundtrip (ks : List Nat) (block : Nat) (hb : block < 2 ^ 64) :
    decryptBlock (encryptBlock block ks) ks = block := by
  simp only [encryptBlock, decryptBlock, permuteJoin, permuteSplit]
  have hplt : permute block IP < 2 ^ 64 := permute_lt block IP
  set p := permute block IP with hp
  have hmask : p &&& 0xFFFFFFFF < 2 ^ 32 := by
    rw [and_mask_ffffffff]
    exact Nat.mod_lt _ (by norm_num)
  obtain ⟨hl1, hl2⟩ := feistelEnc_bounds ks (p >>> 32) (p &&& 0xFFFFFFFF)
    (by rw [Nat.shiftRight_eq_div_pow]; omega) hmask
  set lr := feistelEnc ks (p >>> 32, p &&& 0xFFFFFFFF) with hlr
  have hy : (lr.1 <<< 32) ||| lr.2 = lr.1 * 2 ^ 32 + lr.2 :=
    shiftLeft_lor_eq_add _ _ 32 hl2
  have hylt : lr.1 * 2 ^ 32 + lr.2 < 2 ^ 64 := by omega
  rw [hy]
  have hq : permute (permute (lr.1 * 2 ^ 32 + lr.2) IPInverse) IP
      = lr.1 * 2 ^ 32 + lr.2 :=
    permute_permute IPInverse IP 64 rfl rfl IPInverse_IP_tables _ hylt
  rw [hq]
  have hs1 : (lr.1 * 2 ^ 32 + lr.2) >>> 32 = lr.1 := by
    rw [Nat.shiftRight_eq_div_pow]
    omega
  have hs2 : (lr.1 * 2 ^ 32 + lr.2) &&& 0xFFFFFFFF = lr.2 := by
    rw [and_mask_ffffffff]
    omega
  rw [hs1, hs2, Prod.mk.eta, hlr, feistel_inv]
  have hrec : ((p >>> 32) <<< 32) ||| (p &&& 0xFFFFFFFF) = p := by
    rw [shiftLeft_lor_eq_add _ _ 32 hmask, Nat.shiftRight_eq_div_pow,
      and_mask_ffffffff]
    exact Nat.div_add_mod' p (2 ^ 32)
  rw [hrec, hp]
  exact permute_permute IP IPInverse 64 rfl rfl IP_IPInverse_tables block hb

/-! Blob-level DES pipeline.  The source's `encrypt`/`decrypt` work on
strings: `splitInto64BitBlocks` folds the char codes into one big integer and
splits it into 64-bit blocks; `extractStringFrom64BitBlocks` renders each
block as its minimal byte string (leading zero bytes of every block are
dropped) and concatenates.  Reading such a string back as a blob multiplies
the accumulator by `2^(8·byteLen block)` per block, which is what
`concatBlocksBlob` does. -/

theorem splitIntoBlocks_length_le (n k : Nat) (hn : 0 < n) :
    ∀ x, x < 2 ^ (n * k) → (splitIntoBlocks x n).length ≤ k := by
  induction k with
  | zero =>
    intro x hx
    rw [Nat.mul_zero, pow_zero] at hx
    have hx0 : x = 0 := by omega
    simp [hx0, splitIntoBlocks, splitAux]
  | succ k ih =>
    intro x hx
    rw [splitIntoBlocks_eq x n hn]
    rcases Nat.eq_zero_or_pos x with hx0 | hx0
    · simp [hx0]
    · rw [if_neg (by omega)]
      have hdiv : x / 2 ^ n < 2 ^ (n * k) := by
        rw [Nat.div_lt_iff_lt_mul (two_pow_pos n), ← pow_add]
        have : n * k + n = n * (k + 1) := by ring
        rw [this]
        exact hx
      have := ih (x / 2 ^ n) hdiv
      simp only [List.length_append, List.length_cons, List.length_nil]
      omega

theorem splitIntoBlocks_length_ge (n k : Nat) (hn : 0 < n) :
    ∀ x, 2 ^ (n * k) ≤ x → k + 1 ≤ (splitIntoBlocks x n).length := by
  induction k with
  | zero =>
    intro x hx
    rw [Nat.mul_zero, pow_zero] at hx
    rw [splitIntoBlocks_eq x n hn, if_neg (by omega)]
    simp
  | succ k ih =>
    intro x hx
    have hpos := two_pow_pos (n * (k + 1))
    rw [splitIntoBlocks_eq x n hn, if_neg (by omega)]
    have hdiv : 2 ^ (n * k) ≤ x / 2 ^ n := by
      rw [Nat.le_div_iff_mul_le (two_pow_pos n), ← pow_add]
      have heq : n * k + n = n * (k + 1) := by ring
      rw [heq]
      exact hx
    have := ih (x / 2 ^ n) hdiv
    simp only [List.length_append, List.length_cons, List.length_nil]
    omega

/-- Number of chars `extractStringFrom64BitBlocks` produces for one block:
the length of its minimal byte decomposition. -/
def byteLen (b : Nat) : Nat := (splitIntoBlocks b 8).length

theorem byteLen_eq_eight {b : Nat} (h1 : 2 ^ 56 ≤ b) (h2 : b < 2 ^ 64) :
    byteLen b = 8 := by
  have hle := splitIntoBlocks_length_le 8 8 (by norm_num) b (by norm_num; omega)
  have hge := splitIntoBlocks_length_ge 8 7 (by norm_num) b (by norm_num; omega)
  unfold byteLen
  omega

/-- Concatenation of the per-block minimal byte strings, read back as a blob
(this composes `extractStringFrom64BitBlocks` with the char-code fold of
`splitInto64BitBlocks`). -/
def concatBlocksBlob (bs : List Nat) : Nat :=
  bs.foldl (fun acc b => acc * 2 ^ (8 * byteLen b) + b) 0

theorem concat_eq_join (l : List Nat) (hdrop : ∀ b ∈ l.drop 1, 2 ^ 56 ≤ b)
    (hlt : ∀ b ∈ l, b < 2 ^ 64) : concatBlocksBlob l = joinBlocks l 64 := by
  cases l with
  | nil => rfl
  | cons b0 rest =>
    have key : ∀ l' : List Nat, (∀ b ∈ l', 2 ^ 56 ≤ b ∧ b < 2 ^ 64) → ∀ acc : Nat,
        l'.foldl (fun acc b => acc * 2 ^ (8 * byteLen b) + b) acc
          = l'.foldl (fun acc b => (acc <<< 64) ||| b) acc := by
      intro l'
      induction l' with
      | nil => intro _ _; rfl
      | cons c rest' ih =>
        intro hbnd acc
        obtain ⟨hc1, hc2⟩ := hbnd c (List.mem_cons_self _ _)
        simp only [List.foldl_cons]
        rw [byteLen_eq_eight hc1 hc2, shiftLeft_lor_eq_add acc c 64 hc2,
          show (8 : Nat) * 8 = 64 from rfl]
        exact ih (fun b hb' => hbnd b (List.mem_cons_of_mem _ hb')) _
    have hb0 : b0 < 2 ^ 64 := hlt b0 (List.mem_cons_self _ _)
    simp only [concatBlocksBlob, joinBlocks, List.foldl_cons]
    have h1 : (0 : Nat) * 2 ^ (8 * byteLen b0) + b0 = b0 := by omega
    have h2 : ((0 : Nat) <<< 64) ||| b0 = b0 := by
      rw [shiftLeft_lor_eq_add 0 b0 64 hb0]
      omega
    rw [h1, h2]
    exact key rest
      (fun b hbm => ⟨hdrop b (by simpa using hbm), hlt b (List.mem_cons_of_mem _ hbm)⟩) b0

theorem desEncryptBlock_lt (b : Nat) (ks : List Nat) : encryptBlock b ks < 2 ^ 64 := by
  simp only [encryptBlock, permuteJoin]
  exact permute_lt _ IPInverse

/-- Full blob-level `encrypt` with an already-hashed key (the digest step is
the external primitive). -/
def desEncryptBlob (text hashedKey : Nat) : Nat :=
  let keySchedule := createKeySchedule hashedKey
  concatBlocksBlob ((splitIntoBlocks text 64).map (fun b => encryptBlock b keySchedule))

def desDecryptBlob (text hashedKey : Nat) : Nat :=
  let keySchedule := createKeySchedule hashedKey
  concatBlocksBlob ((splitIntoBlocks text 64).map (fun b => decryptBlock b keySchedule))

/-- Conditional DES pipeline round trip: holds when no interior plaintext or
ciphertext block loses leading zero bytes in the string reassembly and the
leading ciphertext block is nonzero. -/
theorem des_pipeline_roundtrip (text hashedKey : Nat)
    (hb : ∀ b ∈ (splitIntoBlocks text 64).drop 1, 2 ^ 56 ≤ b)
    (hc : ∀ c ∈ ((splitIntoBlocks text 64).map
        (fun b => encryptBlock b (createKeySchedule hashedKey))).drop 1, 2 ^ 56 ≤ c)
    (hhead : ((splitIntoBlocks text 64).map
        (fun b => encryptBlock b (createKeySchedule hashedKey))).headD 1 ≠ 0) :
    desDecryptBlob (desEncryptBlob text hashedKey) hashedKey = text := by
  set ks := createKeySchedule hashedKey with hks
  set bs := splitIntoBlocks text 64 with hbs
  set cs := bs.map (fun b => encryptBlock b ks) with hcs
  have hbs_lt : ∀ b ∈ bs, b < 2 ^ 64 := splitIntoBlocks_lt text 64 (by norm_num)
  have hcs_lt : ∀ c ∈ cs, c < 2 ^ 64 := by
    intro c hcm
    rw [hcs] at hcm
    obtain ⟨b, _, rfl⟩ := List.mem_map.mp hcm
    exact desEncryptBlock_lt b ks
  show concatBlocksBlob ((splitIntoBlocks (concatBlocksBlob cs) 64).map
    (fun b => decryptBlock b ks)) = text
  rw [concat_eq_join cs hc hcs_lt,
    splitIntoBlocks_joinBlocks cs 64 (by norm_num) hcs_lt hhead, hcs, List.map_map]
  have hmap : bs.map ((fun b => decryptBlock b ks) ∘ fun b => encryptBlock b ks)
      = bs.map id :=
    List.map_congr_left (fun b hbm => des_block_roundtrip ks b (hbs_lt b hbm))
  rw [hmap, List.map_id, concat_eq_join bs hb hbs_lt, hbs,
    joinBlocks_splitIntoBlocks text 64 (by norm_num)]

end DES

/-! ### IDEA engine

Shallow embedding of the IDEA implementation (`processBlock`, used for both
encryption and decryption, with the `inverse` flag of `createKeySchedule`
selecting the inverted subkey groups). -/

namespace IDEA

def BIT128 : Nat := (1 <<< 128) - 1

def cyclicLeftShift (block size amt : Nat) : Nat :=
  ((block <<< amt) ||| (block >>> (size - amt))) &&& ((1 <<< size) - 1)

/-- `extractBitsIntoBlocks` with a block count: the `while` also runs while
fewer than `count` blocks were produced, so the front is zero-padded. -/
def extractBitsC (block size count : Nat) : List Nat :=
  let base := splitIntoBlocks block size
  if base.length < count then List.replicate (count - base.length) 0 ++ base else base

/-- Addition modulo `2^16` (operands are never negative here). -/
def add (l r : Nat) : Nat := (l + r) % (1 <<< 16)

/-- IDEA multiplication modulo `2^16 + 1` with the source's three branches:
plain product reduced and masked when it is nonzero, `(2^16+1-a-b)` when the
product is zero but not both operands are, and `1` for `0 * 0`. -/
def multiply (l r : Nat) : Nat :=
  if l * r ≠ 0 then ((l * r) % 0x10001) &&& 0xFFFF
  else if l ≠ 0 ∨ r ≠ 0 then ((0x10001 - l - r) % 0x10001) &&& 0xFFFF
  else 1

def additiveInverse (v : Nat) : Nat := ((0x10000 - v) % 0x10000) &&& 0xFFFF

/-- Extended Euclid loop on `(t, newT, r, newR)`.  Fuel (`newR + 1` suffices,
since the loop variable strictly decreases) makes the recursion structural;
with exhausted fuel the accumulated junk is returned, which never happens in
the theorems' scope. -/
def egcdAux : Nat → Int → Int → Nat → Nat → Int × Nat
  | 0, t, _, r, _ => (t, r)
  | fuel + 1, t, newT, r, newR =>
    if newR = 0 then (t, r)
    else egcdAux fuel newT (t - ((r / newR : Nat) : Int) * newT) newR (r % newR)

def egcd (t newT : Int) (r newR : Nat) : Int × Nat := egcdAux (newR + 1) t newT r newR

/-- `multiplicativeInverse` of the plain variant (no early return):
`none` models the `throw` on a non-invertible value. -/
def multiplicativeInversePlain (value : Nat) : Option Nat :=
  let p := egcd 0 1 0x10001 value
  if p.2 > 1 then none
  else some (if p.1 < 0 then (p.1 + 0x10001).toNat else p.1.toNat)

/-- `multiplicativeInverse` of the presentation variant: values `≤ 1` are
returned unchanged before the Euclid loop runs. -/
def multiplicativeInversePres (value : Nat) : Option Nat :=
  if value ≤ 1 then some value else multiplicativeInversePlain value

/-- Total wrapper used by the key schedule (the presentation variant never
throws on 16-bit inputs, proved below). -/
def mulInv (value : Nat) : Nat := (multiplicativeInversePres value).getD 0

/-- One pass of the subkey loop rotates the 128-bit register left by 25. -/
def rot25 (k : Nat) : Nat := cyclicLeftShift k 128 25

/-- `while (subkeys.length < 52)`: extract the 16-bit chunks of the minimal
representation of the register, append (capped at 52), rotate.  Fuel 52
suffices for every nonzero key; a zero key loops forever in the source and
exhausts the fuel here. -/
def collectSubkeys : Nat → Nat → List Nat → List Nat
  | 0, _, acc => acc
  | fuel + 1, keyBits, acc =>
    if 52 ≤ acc.length then acc
    else collectSubkeys fuel (rot25 keyBits)
      (acc ++ (splitIntoBlocks keyBits 16).take (52 - acc.length))

def subkeysOf (key : Nat) : List Nat := collectSubkeys 52 key []

/-- Encryption groups: `[S[6j], …, S[6j+5]]` for `j = 0 … 8`, JS `undefined`
entries (indices ≥ 52) filtered away, so the last group keeps 4 subkeys. -/
def encGroups (S : List Nat) : List (List Nat) :=
  (List.range 9).map (fun j =>
    ([S[6*j]?, S[6*j+1]?, S[6*j+2]?, S[6*j+3]?, S[6*j+4]?, S[6*j+5]?]).filterMap id)

/-- Decryption groups: for `i = 51, 45, …, 3` push
`[inv S[i-3], -S[i-2], -S[i-1], inv S[i], S[i-5], S[i-4]]` and filter
`undefined`.  For the last group (`i = 3`) the indices `i-5`, `i-4` are
negative in the source and yield `undefined`; the `j ≤ 7` guards encode
that. -/
def invGroups (S : List Nat) : List (List Nat) :=
  (List.range 9).map (fun j =>
    ([(S[51 - 6*j - 3]?).map mulInv, (S[51 - 6*j - 2]?).map additiveInverse,
      (S[51 - 6*j - 1]?).map additiveInverse, (S[51 - 6*j]?).map mulInv,
      if j ≤ 7 then S[51 - 6*j - 5]? else none,
      if j ≤ 7 then S[51 - 6*j - 4]? else none]).filterMap id)

abbrev State4 := Nat × Nat × Nat × Nat

/-- One full IDEA round (steps 1–14 of `processBlock`'s loop body), ending
with the `[x1, x2, x3, x4] = [y11, y13, y12, y14]` assignment. -/
def ideaRound (g : List Nat) (s : State4) : State4 :=
  let z1 := g.getD 0 0; let z2 := g.getD 1 0; let z3 := g.getD 2 0
  let z4 := g.getD 3 0; let z5 := g.getD 4 0; let z6 := g.getD 5 0
  let y1 := multiply s.1 z1
  let y2 := add s.2.1 z2
  let y3 := add s.2.2.1 z3
  let y4 := multiply s.2.2.2 z4
  let y5 := y1 ^^^ y3
  let y6 := y2 ^^^ y4
  let y7 := multiply y5 z5
  let y8 := add y6 y7
  let y9 := multiply y8 z6
  let y10 := add y7 y9
  (y1 ^^^ y9, y2 ^^^ y10, y3 ^^^ y9, y4 ^^^ y10)

/-- The final half round (multiply/add/add/multiply with group 8). -/
def ideaHalf (g : List Nat) (s : State4) : State4 :=
  let z1 := g.getD 0 0; let z2 := g.getD 1 0; let z3 := g.getD 2 0; let z4 := g.getD 3 0
  (multiply s.1 z1, add s.2.1 z2, add s.2.2.1 z3, multiply s.2.2.2 z4)

/-- `processBlock`: split into four 16-bit words, 8 full rounds, half round,
repack. -/
def processBlock (block : Nat) (ks : List (List Nat)) : Nat :=
  let xs := extractBitsC block 16 4
  let s0 : State4 := (xs.getD 0 0, xs.getD 1 0, xs.getD 2 0, xs.getD 3 0)
  let s8 := (List.range 8).foldl (fun s i => ideaRound (ks.getD i []) s) s0
  let y := ideaHalf (ks.getD 8 []) s8
  (y.1 <<< 48) ||| (y.2.1 <<< 32) ||| (y.2.2.1 <<< 16) ||| y.2.2.2

/-- `encrypt` with an already-hashed key (`hashKeyBySHA256 … & BIT_128` is
applied to the digest; the digest itself is the external primitive). -/
def ideaEncrypt (blob hk : Nat) : Nat :=
  let ks := encGroups (subkeysOf (hk &&& BIT128))
  joinBlocks ((splitIntoBlocks blob 64).map (fun b => processBlock b ks)) 64

def ideaDecrypt (blob hk : Nat) : Nat :=
  let ks := invGroups (subkeysOf (hk &&& BIT128))
  joinBlocks ((splitIntoBlocks blob 64).map (fun b => processBlock b ks)) 64

/-! Correctness of the extended-Euclid loop over the prime modulus
`2^16 + 1 = 65537`.  The invariants carried through the loop are the Bézout
congruence for both coefficient/remainder pairs, the determinant identity
`r * newT - newR * t = ± 65537`, the alternating signs of the coefficients,
and the monotone growth of their magnitudes; together they pin the final
coefficient strictly inside `(-65537, 65537)` and congruent to the inverse. -/

instance fact_prime_65537 : Fact (Nat.Prime 65537) := ⟨by norm_num⟩

theorem egcdAux_spec (v : Nat) :
    ∀ (fuel : Nat) (newR : Nat) (t newT : Int) (r : Nat), newR < fuel → newR < r →
      (((t : Int) : ZMod 65537) * ((v : Nat) : ZMod 65537) = ((r : Nat) : ZMod 65537)) →
      (((newT : Int) : ZMod 65537) * ((v : Nat) : ZMod 65537) = ((newR : Nat) : ZMod 65537)) →
      ((r : Int) * newT - (newR : Int) * t = 65537 ∨
        (r : Int) * newT - (newR : Int) * t = -65537) →
      (t = 0 ∨ t * newT < 0) →
      t.natAbs ≤ newT.natAbs →
      ((((egcdAux fuel t newT r newR).1 : Int) : ZMod 65537) * ((v : Nat) : ZMod 65537)
          = (((egcdAux fuel t newT r newR).2 : Nat) : ZMod 65537)) ∧
      (egcdAux fuel t newT r newR).2 = Nat.gcd r newR ∧
      (egcdAux fuel t newT r newR).1.natAbs ≤ 65537 := by
  intro fuel
  induction fuel with
  | zero =>
    intro newR t newT r hfuel
    exact absurd hfuel (by omega)
  | succ fuel ih =>
    intro newR t newT r hfuel hord hc1 hc2 hdet hsign hmag
    by_cases h0 : newR = 0
    · subst h0
      have hstep : egcdAux (fuel + 1) t newT r 0 = (t, r) := by simp [egcdAux]
      rw [hstep]
      simp only [Nat.cast_zero, zero_mul, sub_zero] at hdet
      have habs : r * newT.natAbs = 65537 := by
        rcases hdet with h | h
        · have h2 := congrArg Int.natAbs h
          simp [Int.natAbs_mul] at h2
          exact h2
        · have h2 := congrArg Int.natAbs h
          simp [Int.natAbs_mul] at h2
          exact h2
      have hr1 : 1 ≤ r := by omega
      have hle : newT.natAbs ≤ r * newT.natAbs := Nat.le_mul_of_pos_left _ (by omega)
      refine ⟨hc1, (Nat.gcd_zero_right r).symm, ?_⟩
      show t.natAbs ≤ 65537
      omega
    · have hstep : egcdAux (fuel + 1) t newT r newR
          = egcdAux fuel newT (t - ((r / newR : Nat) : Int) * newT) newR (r % newR) := by
        simp [egcdAux, h0]
      rw [hstep]
      generalize hq : ((r / newR : Nat) : Int) = q
      have hstep_lt : r % newR < newR := Nat.mod_lt _ (by omega)
      have hdivmod : (newR : Int) * q + ((r % newR : Nat) : Int) = (r : Int) := by
        rw [← hq]
        exact_mod_cast congrArg (fun n : Nat => (n : Int)) (Nat.div_add_mod r newR)
      have hZdivmod : ((newR : Nat) : ZMod 65537) * ((r / newR : Nat) : ZMod 65537)
          + ((r % newR : Nat) : ZMod 65537) = ((r : Nat) : ZMod 65537) := by
        have h := congrArg (fun n : Nat => (n : ZMod 65537)) (Nat.div_add_mod r newR)
        push_cast at h
        exact h
      have hqz : ((q : Int) : ZMod 65537) = ((r / newR : Nat) : ZMod 65537) := by
        rw [← hq]
        norm_cast
      have hc2' : (((t - q * newT : Int)) : ZMod 65537) * ((v : Nat) : ZMod 65537)
          = ((r % newR : Nat) : ZMod 65537) := by
        push_cast
        rw [hqz]
        linear_combination hc1 - ((r / newR : Nat) : ZMod 65537) * hc2 - hZdivmod
      have hdet' : ((newR : Int) * (t - q * newT)
            - ((r % newR : Nat) : Int) * newT = 65537) ∨
          ((newR : Int) * (t - q * newT) - ((r % newR : Nat) : Int) * newT = -65537) := by
        have hmod : ((r % newR : Nat) : Int) = (r : Int) - (newR : Int) * q := by
          linarith [hdivmod]
        rcases hdet with h | h
        · right
          rw [hmod]
          linear_combination -h
        · left
          rw [hmod]
          linear_combination -h
      have hnewT : newT ≠ 0 := by
        intro hz
        rw [hz] at hdet hmag
        have ht0 : t = 0 := by
          have h1 : t.natAbs ≤ (0 : Int).natAbs := hmag
          simp at h1
          exact h1
        rw [ht0] at hdet
        omega
      have hq1 : 1 ≤ q := by
        rw [← hq]
        have h1 : 1 ≤ r / newR := (Nat.one_le_div_iff (by omega)).mpr (by omega)
        exact_mod_cast h1
      have hTT : newT * t ≤ 0 := by
        rcases hsign with h | h
        · rw [h]; simp
        · rw [mul_comm] at h; linarith
      have hsq : (0 : Int) < newT * newT := mul_self_pos.mpr hnewT
      have hsign' : newT * (t - q * newT) < 0 := by
        have hmul : newT * newT ≤ q * (newT * newT) :=
          le_mul_of_one_le_left (le_of_lt hsq) hq1
        nlinarith
      have hmag' : newT.natAbs ≤ (t - q * newT).natAbs := by
        rcases lt_trichotomy newT 0 with hneg | hz | hpos
        · have ht : 0 ≤ t := by
            rcases hsign with h | h
            · omega
            · rcases mul_neg_iff.mp h with ⟨h1, _⟩ | ⟨_, h2⟩
              · omega
              · omega
          have hqT : q * newT ≤ newT := by
            have h := mul_le_mul_of_nonpos_right hq1 (le_of_lt hneg)
            simpa using h
          omega
        · exact absurd hz hnewT
        · have ht : t ≤ 0 := by
            rcases hsign with h | h
            · omega
            · rcases mul_neg_iff.mp h with ⟨_, h2⟩ | ⟨h1, _⟩
              · omega
              · omega
          have hqT : newT ≤ q * newT := by
            have h := mul_le_mul_of_nonneg_right hq1 (le_of_lt hpos)
            simpa using h
          omega
      obtain ⟨ih1, ih2, ih3⟩ := ih (r % newR) newT (t - q * newT) newR (by omega)
        hstep_lt hc2 hc2' hdet' (Or.inr hsign') hmag'
      refine ⟨ih1, ?_, ih3⟩
      rw [ih2]
      calc Nat.gcd newR (r % newR) = Nat.gcd (r % newR) newR := Nat.gcd_comm _ _
        _ = Nat.gcd newR r := (Nat.gcd_rec newR r).symm
        _ = Nat.gcd r newR := Nat.gcd_comm _ _

/-- For every `1 ≤ v ≤ 2^16` the plain-variant extended Euclid succeeds and
returns the exact inverse modulo `2^16 + 1`. -/
theorem multiplicativeInversePlain_spec (v : Nat) (h1 : 1 ≤ v) (h2 : v ≤ 65536) :
    ∃ n0 : Nat, multiplicativeInversePlain v = some n0 ∧ 1 ≤ n0 ∧ n0 ≤ 65536 ∧
      (n0 * v) % 65537 = 1 := by
  have hnum : (65537 : ZMod 65537) = 0 := by
    have h := ZMod.natCast_self 65537
    push_cast at h
    exact h
  have hmain := egcdAux_spec v (v + 1) v 0 1 65537 (by omega) (by omega)
    (by
      have h0 : ((65537 : Nat) : ZMod 65537) = 0 := ZMod.natCast_self 65537
      rw [h0]
      simp)
    (by simp)
    (by left; push_cast; ring) (Or.inl rfl) (by simp)
  obtain ⟨hc, hg, hb⟩ := hmain
  have hres : egcd 0 1 65537 v = egcdAux (v + 1) 0 1 65537 v := rfl
  have hcop : Nat.gcd 65537 v = 1 := by
    have hp : Nat.Prime 65537 := fact_prime_65537.out
    have hnd : ¬ (65537 ∣ v) := by
      intro hdvd
      have := Nat.le_of_dvd (by omega) hdvd
      omega
    exact (Nat.Prime.coprime_iff_not_dvd hp).mpr hnd
  rw [← hres] at hc hg hb
  have hr2 : (egcd 0 1 65537 v).2 = 1 := by rw [hg, hcop]
  set T : Int := (egcd 0 1 65537 v).1 with hT
  have hcong : ((T : Int) : ZMod 65537) * ((v : Nat) : ZMod 65537) = 1 := by
    rw [hc, hr2]
    norm_num
  have hndvd : ¬ ((65537 : Int) ∣ T) := by
    intro hdvd
    have hz : ((T : Int) : ZMod 65537) = 0 :=
      (ZMod.intCast_zmod_eq_zero_iff_dvd T 65537).mpr (by exact_mod_cast hdvd)
    rw [hz, zero_mul] at hcong
    exact one_ne_zero hcong.symm
  have hT0 : T ≠ 0 := by
    intro h
    exact hndvd (h ▸ dvd_zero _)
  have hTne1 : T ≠ 65537 := by
    intro h
    exact hndvd (h ▸ dvd_refl _)
  have hTne2 : T ≠ -65537 := by
    intro h
    exact hndvd (h ▸ (dvd_neg).mpr (dvd_refl _))
  have hrange : -65537 < T ∧ T < 65537 := by
    constructor <;> omega
  set n0 : Nat := if T < 0 then (T + 65537).toNat else T.toNat with hn0
  have hn0int : ((n0 : Nat) : Int) = if T < 0 then T + 65537 else T := by
    by_cases h : T < 0
    · rw [hn0, if_pos h, if_pos h, Int.toNat_of_nonneg (by omega)]
    · rw [hn0, if_neg h, if_neg h, Int.toNat_of_nonneg (by omega)]
  have hn0b : 1 ≤ n0 ∧ n0 ≤ 65536 := by
    by_cases h : T < 0
    · rw [hn0, if_pos h]
      omega
    · rw [hn0, if_neg h]
      omega
  have hn0cast : ((n0 : Nat) : ZMod 65537) = ((T : Int) : ZMod 65537) := by
    have h2 : (((n0 : Nat) : Int) : ZMod 65537) = ((n0 : Nat) : ZMod 65537) := by
      push_cast
      ring
    rw [← h2, hn0int]
    by_cases h : T < 0
    · rw [if_pos h]
      push_cast
      rw [hnum]
      ring
    · rw [if_neg h]
  refine ⟨n0, ?_, hn0b.1, hn0b.2, ?_⟩
  · have hcond : ¬ ((egcd 0 1 65537 v).2 > 1) := by
      rw [hr2]
      omega
    simp only [multiplicativeInversePlain]
    rw [if_neg hcond, hn0, hT]
  · have hfinal : (((n0 * v : Nat)) : ZMod 65537) = ((1 : Nat) : ZMod 65537) := by
      push_cast
      rw [hn0cast]
      exact hcong
    have hmodeq := (ZMod.natCast_eq_natCast_iff (n0 * v) 1 65537).mp hfinal
    have hmm : (n0 * v) % 65537 = 1 % 65537 := hmodeq
    omega

/-! ### The 16-bit IDEA group

Encode the operand set `{0, …, 2^16 - 1}` into the units of `ZMod 65537` by
letting `0` stand for `2^16`; `multiply` is exactly the group operation under
this encoding, which is what makes the three-branch definition invertible. -/

def toZ (a : Nat) : ZMod 65537 := if a = 0 then 65536 else (a : ZMod 65537)

theorem multiply_lt (l r : Nat) : multiply l r < 2 ^ 16 := by
  unfold multiply
  split
  · rw [and_mask_ffff]
    exact Nat.mod_lt _ (two_pow_pos 16)
  · split
    · rw [and_mask_ffff]
      exact Nat.mod_lt _ (two_pow_pos 16)
    · norm_num

theorem add_lt (l r : Nat) : add l r < 2 ^ 16 := by
  unfold add
  have hs : (1 : Nat) <<< 16 = 2 ^ 16 := rfl
  rw [hs]
  exact Nat.mod_lt _ (two_pow_pos 16)

theorem additiveInverse_lt (v : Nat) : additiveInverse v < 2 ^ 16 := by
  unfold additiveInverse
  rw [and_mask_ffff]
  exact Nat.mod_lt _ (two_pow_pos 16)

theorem natCast_mod_65537 (a : Nat) :
    ((a % 65537 : Nat) : ZMod 65537) = ((a : Nat) : ZMod 65537) :=
  (ZMod.natCast_eq_natCast_iff _ _ _).mpr (Nat.mod_modEq a 65537)
theorem toZ_zero : toZ 0 = (65536 : ZMod 65537) := rfl

theorem toZ_pos (a : Nat) (ha : a ≠ 0) : toZ a = ((a : Nat) : ZMod 65537) := by
  simp only [toZ]
  rw [if_neg ha]

theorem toZ_multiply (l r : Nat) (hl : l < 2 ^ 16) (hr : r < 2 ^ 16) :
    toZ (multiply l r) = toZ l * toZ r := by
  have hm1 : (65536 : ZMod 65537) = -1 := by decide
  have h655370 : ((65537 : Nat) : ZMod 65537) = 0 := ZMod.natCast_self 65537
  rcases Nat.eq_zero_or_pos l with hl0 | hl1
  · rcases Nat.eq_zero_or_pos r with hr0 | hr1
    · subst hl0
      subst hr0
      decide
    · subst hl0
      have hcalc : multiply 0 r = (65537 - r) % 2 ^ 16 := by
        unfold multiply
        rw [if_neg (by simp), if_pos (Or.inr (by omega)), and_mask_ffff,
          Nat.mod_eq_of_lt (by omega : 65537 - 0 - r < 65537)]
      rcases Nat.eq_or_lt_of_le hr1 with hr1' | hr2
      · rw [← hr1']
        decide
      · have hsub : 65537 - r < 2 ^ 16 := by omega
        rw [hcalc, Nat.mod_eq_of_lt hsub, toZ_zero,
          toZ_pos _ (by omega : ¬ (65537 - r) = 0), toZ_pos r (by omega),
          Nat.cast_sub (by omega : r ≤ 65537), h655370, hm1]
        ring
  · rcases Nat.eq_zero_or_pos r with hr0 | hr1
    · subst hr0
      have hcalc : multiply l 0 = (65537 - l) % 2 ^ 16 := by
        unfold multiply
        rw [if_neg (by simp), if_pos (Or.inl (by omega)), and_mask_ffff,
          Nat.mod_eq_of_lt (by omega : 65537 - l - 0 < 65537)]
        congr 1
      rcases Nat.eq_or_lt_of_le hl1 with hl1' | hl2
      · rw [← hl1']
        decide
      · have hsub : 65537 - l < 2 ^ 16 := by omega
        rw [hcalc, Nat.mod_eq_of_lt hsub, toZ_zero,
          toZ_pos _ (by omega : ¬ (65537 - l) = 0), toZ_pos l (by omega),
          Nat.cast_sub (by omega : l ≤ 65537), h655370, hm1]
        ring
    · have hne : l * r ≠ 0 := Nat.mul_ne_zero (by omega) (by omega)
      have hcalc : multiply l r = ((l * r) % 65537) % 2 ^ 16 := by
        unfold multiply
        rw [if_pos hne, and_mask_ffff]
      have hp : Nat.Prime 65537 := fact_prime_65537.out
      have hm_ne : (l * r) % 65537 ≠ 0 := by
        intro h0
        have hdvd : 65537 ∣ l * r := Nat.dvd_of_mod_eq_zero h0
        rcases (Nat.Prime.dvd_mul hp).mp hdvd with h | h
        · exact absurd (Nat.le_of_dvd (by omega) h) (by omega)
        · exact absurd (Nat.le_of_dvd (by omega) h) (by omega)
      have hm_lt : (l * r) % 65537 < 65537 := Nat.mod_lt _ (by norm_num)
      have hcast : (((l * r) % 65537 : Nat) : ZMod 65537) = toZ l * toZ r := by
        rw [natCast_mod_65537, toZ_pos l (by omega), toZ_pos r (by omega)]
        push_cast
        ring
      rcases Nat.eq_or_lt_of_le (by omega : (l * r) % 65537 ≤ 65536) with he | hlt
      · rw [hcalc, he]
        have h65536 : (65536 : Nat) % 2 ^ 16 = 0 := by norm_num
        rw [h65536, toZ_zero, ← hcast, he]
        push_cast
        ring
      · rw [hcalc, Nat.mod_eq_of_lt (by omega : (l * r) % 65537 < 2 ^ 16),
          toZ_pos _ hm_ne]
        exact hcast

theorem toZ_inj (a b : Nat) (ha : a < 2 ^ 16) (hb : b < 2 ^ 16)
    (h : toZ a = toZ b) : a = b := by
  have hv : (65536 : ZMod 65537).val = 65536 := by decide
  by_cases h0a : a = 0 <;> by_cases h0b : b = 0
  · omega
  · exfalso
    rw [h0a, toZ_zero, toZ_pos b h0b] at h
    have hval := congrArg ZMod.val h
    rw [ZMod.val_cast_of_lt (by omega : b < 65537), hv] at hval
    omega
  · exfalso
    rw [h0b, toZ_zero, toZ_pos a h0a] at h
    have hval := congrArg ZMod.val h
    rw [ZMod.val_cast_of_lt (by omega : a < 65537), hv] at hval
    omega
  · rw [toZ_pos a h0a, toZ_pos b h0b] at h
    have hval := congrArg ZMod.val h
    rw [ZMod.val_cast_of_lt (by omega : a < 65537),
      ZMod.val_cast_of_lt (by omega : b < 65537)] at hval
    exact hval

theorem mulInv_spec (z : Nat) (hz : z < 2 ^ 16) :
    mulInv z < 2 ^ 16 ∧ toZ (mulInv z) * toZ z = 1 := by
  by_cases hz0 : z = 0
  · subst hz0
    exact ⟨by norm_num [mulInv, multiplicativeInversePres], by decide⟩
  · by_cases hz1 : z = 1
    · subst hz1
      exact ⟨by norm_num [mulInv, multiplicativeInversePres], by decide⟩
    · obtain ⟨n0, hsome, hn1, hn2, hmod⟩ :=
        multiplicativeInversePlain_spec z (by omega) (by omega)
      have hmulInv : mulInv z = n0 := by
        unfold mulInv multiplicativeInversePres
        rw [if_neg (by omega), hsome]
        rfl
      have hmodeq : n0 * z ≡ 1 [MOD 65537] := by
        unfold Nat.ModEq
        omega
      have hcast := (ZMod.natCast_eq_natCast_iff (n0 * z) 1 65537).mpr hmodeq
      push_cast at hcast
      have hne : n0 ≠ 65536 := by
        intro h
        subst h
        have hm1 : (65536 : ZMod 65537) = -1 := by decide
        have hc2 : ((65536 : Nat) : ZMod 65537) = -1 := by
          rw [← hm1]
          push_cast
          ring
        rw [hc2] at hcast
        have hz' : ((z : Nat) : ZMod 65537) = 65536 := by
          rw [hm1]
          linear_combination -hcast
        have hval := congrArg ZMod.val hz'
        have hv : (65536 : ZMod 65537).val = 65536 := by decide
        rw [ZMod.val_cast_of_lt (by omega : z < 65537), hv] at hval
        omega
      constructor
      · rw [hmulInv]
        omega
      · rw [hmulInv, toZ_pos n0 (by omega), toZ_pos z hz0]
        exact_mod_cast hcast

theorem multiply_cancel (x z : Nat) (hx : x < 2 ^ 16) (hz : z < 2 ^ 16) :
    multiply (multiply x z) (mulInv z) = x := by
  obtain ⟨hinv_lt, hinv⟩ := mulInv_spec z hz
  have h1 : toZ (multiply (multiply x z) (mulInv z)) = toZ x := by
    rw [toZ_multiply _ _ (multiply_lt x z) hinv_lt, toZ_multiply x z hx hz,
      mul_assoc, mul_comm (toZ z) (toZ (mulInv z)), hinv, mul_one]
  exact toZ_inj _ _ (multiply_lt _ _) hx h1

theorem add_cancel (x z : Nat) (hx : x < 2 ^ 16) (hz : z < 2 ^ 16) :
    add (add x z) (additiveInverse z) = x := by
  unfold add additiveInverse
  have hs : (1 : Nat) <<< 16 = 65536 := rfl
  rw [and_mask_ffff, hs]
  have hp : (2 : Nat) ^ 16 = 65536 := by norm_num
  rw [hp]
  omega

/-! ### Round structure

`ideaRound` factors as the keyed layer (multiply/add/add/multiply) followed
by the MA xor layer; the MA layer is an involution for fixed `z5, z6`, and
the keyed layer is undone by the keyed layer with inverted subkeys. -/

theorem xor_cancel_right (x y : Nat) : (x ^^^ y) ^^^ y = x := by
  rw [Nat.xor_assoc, Nat.xor_self, Nat.xor_zero]

def keyed4 (z1 z2 z3 z4 : Nat) (s : State4) : State4 :=
  (multiply s.1 z1, add s.2.1 z2, add s.2.2.1 z3, multiply s.2.2.2 z4)

def maY9 (z5 z6 p q : Nat) : Nat := multiply (add q (multiply p z5)) z6

def maPart (z5 z6 : Nat) (s : State4) : State4 :=
  let y9 := maY9 z5 z6 (s.1 ^^^ s.2.2.1) (s.2.1 ^^^ s.2.2.2)
  let y10 := add (multiply (s.1 ^^^ s.2.2.1) z5) y9
  (s.1 ^^^ y9, s.2.1 ^^^ y10, s.2.2.1 ^^^ y9, s.2.2.2 ^^^ y10)

theorem ideaRound_decomp (g : List Nat) (a b c d : Nat) :
    ideaRound g (a, b, c, d) =
      maPart (g.getD 4 0) (g.getD 5 0)
        (keyed4 (g.getD 0 0) (g.getD 1 0) (g.getD 2 0) (g.getD 3 0) (a, b, c, d)) := rfl

theorem ideaHalf_decomp (g : List Nat) (a b c d : Nat) :
    ideaHalf g (a, b, c, d) =
      keyed4 (g.getD 0 0) (g.getD 1 0) (g.getD 2 0) (g.getD 3 0) (a, b, c, d) := rfl

theorem keyed4_apply (z1 z2 z3 z4 a b c d : Nat) :
    keyed4 z1 z2 z3 z4 (a, b, c, d) =
      (multiply a z1, add b z2, add c z3, multiply d z4) := rfl

theorem maPart_apply (z5 z6 a b c d : Nat) :
    maPart z5 z6 (a, b, c, d) =
      (a ^^^ maY9 z5 z6 (a ^^^ c) (b ^^^ d),
       b ^^^ add (multiply (a ^^^ c) z5) (maY9 z5 z6 (a ^^^ c) (b ^^^ d)),
       c ^^^ maY9 z5 z6 (a ^^^ c) (b ^^^ d),
       d ^^^ add (multiply (a ^^^ c) z5) (maY9 z5 z6 (a ^^^ c) (b ^^^ d))) := rfl

theorem maPart_invol (z5 z6 a b c d : Nat) :
    maPart z5 z6 (maPart z5 z6 (a, b, c, d)) = (a, b, c, d) := by
  rw [maPart_apply, maPart_apply, xor_xor_cancel a c, xor_xor_cancel b d]
  simp only [xor_cancel_right]

theorem keyed4_cancel (z1 z2 z3 z4 a b c d : Nat)
    (hz1 : z1 < 2 ^ 16) (hz2 : z2 < 2 ^ 16) (hz3 : z3 < 2 ^ 16) (hz4 : z4 < 2 ^ 16)
    (ha : a < 2 ^ 16) (hb : b < 2 ^ 16) (hc : c < 2 ^ 16) (hd : d < 2 ^ 16) :
    keyed4 (mulInv z1) (additiveInverse z2) (additiveInverse z3) (mulInv z4)
      (keyed4 z1 z2 z3 z4 (a, b, c, d)) = (a, b, c, d) := by
  rw [keyed4_apply, keyed4_apply, multiply_cancel a z1 ha hz1, add_cancel b z2 hb hz2,
    add_cancel c z3 hc hz3, multiply_cancel d z4 hd hz4]

def B4 (s : State4) : Prop :=
  s.1 < 2 ^ 16 ∧ s.2.1 < 2 ^ 16 ∧ s.2.2.1 < 2 ^ 16 ∧ s.2.2.2 < 2 ^ 16

theorem keyed4_B4 (z1 z2 z3 z4 : Nat) (s : State4) : B4 (keyed4 z1 z2 z3 z4 s) :=
  ⟨multiply_lt _ _, add_lt _ _, add_lt _ _, multiply_lt _ _⟩

theorem maPart_B4 (z5 z6 : Nat) (s : State4) (hs : B4 s) : B4 (maPart z5 z6 s) :=
  ⟨Nat.xor_lt_two_pow hs.1 (multiply_lt _ _),
   Nat.xor_lt_two_pow hs.2.1 (add_lt _ _),
   Nat.xor_lt_two_pow hs.2.2.1 (multiply_lt _ _),
   Nat.xor_lt_two_pow hs.2.2.2 (add_lt _ _)⟩

theorem ideaRound_B4 (g : List Nat) (s : State4) (hs : B4 s) : B4 (ideaRound g s) :=
  maPart_B4 _ _ _ (keyed4_B4 _ _ _ _ s)

/-! ### Schedule slot lemmas -/

theorem getElem?_eq_some_getD (S : List Nat) (i : Nat) (h : i < S.length) :
    S[i]? = some (S.getD i 0) := by
  rw [List.getElem?_eq_getElem h, List.getD_eq_getElem S 0 h]

theorem groups_getD (f : Nat → List Nat) (j : Nat) (h : j < 9) :
    ((List.range 9).map f).getD j [] = f j := by
  have hlen : ((List.range 9).map f).length = 9 := by simp
  rw [List.getD_eq_getElem _ _ (by omega)]
  simp [List.getElem_map, List.getElem_range]

theorem encGroup_slots (S : List Nat) (h : S.length = 52) (j : Nat) (hj : j < 8) :
    (encGroups S).getD j [] =
      [S.getD (6*j) 0, S.getD (6*j+1) 0, S.getD (6*j+2) 0,
       S.getD (6*j+3) 0, S.getD (6*j+4) 0, S.getD (6*j+5) 0] := by
  rw [encGroups, groups_getD _ j (by omega),
    getElem?_eq_some_getD S (6*j) (by omega),
    getElem?_eq_some_getD S (6*j+1) (by omega),
    getElem?_eq_some_getD S (6*j+2) (by omega),
    getElem?_eq_some_getD S (6*j+3) (by omega),
    getElem?_eq_some_getD S (6*j+4) (by omega),
    getElem?_eq_some_getD S (6*j+5) (by omega)]
  rfl

theorem encGroup8 (S : List Nat) (h : S.length = 52) :
    (encGroups S).getD 8 [] =
      [S.getD 48 0, S.getD 49 0, S.getD 50 0, S.getD 51 0] := by
  rw [encGroups, groups_getD _ 8 (by omega)]
  norm_num
  rw [getElem?_eq_some_getD S 48 (by omega),
    getElem?_eq_some_getD S 49 (by omega),
    getElem?_eq_some_getD S 50 (by omega),
    getElem?_eq_some_getD S 51 (by omega),
    List.getElem?_eq_none (by omega : S.length ≤ 52),
    List.getElem?_eq_none (by omega : S.length ≤ 53)]
  rfl

theorem invGroup_slots (S : List Nat) (h : S.length = 52) (j : Nat) (hj : j ≤ 7) :
    (invGroups S).getD j [] =
      [mulInv (S.getD (48 - 6*j) 0), additiveInverse (S.getD (49 - 6*j) 0),
       additiveInverse (S.getD (50 - 6*j) 0), mulInv (S.getD (51 - 6*j) 0),
       S.getD (46 - 6*j) 0, S.getD (47 - 6*j) 0] := by
  rw [invGroups, groups_getD _ j (by omega), if_pos hj, if_pos hj,
    show 51 - 6*j - 3 = 48 - 6*j by omega,
    show 51 - 6*j - 2 = 49 - 6*j by omega,
    show 51 - 6*j - 1 = 50 - 6*j by omega,
    show 51 - 6*j - 5 = 46 - 6*j by omega,
    show 51 - 6*j - 4 = 47 - 6*j by omega,
    getElem?_eq_some_getD S (48 - 6*j) (by omega),
    getElem?_eq_some_getD S (49 - 6*j) (by omega),
    getElem?_eq_some_getD S (50 - 6*j) (by omega),
    getElem?_eq_some_getD S (51 - 6*j) (by omega),
    getElem?_eq_some_getD S (46 - 6*j) (by omega),
    getElem?_eq_some_getD S (47 - 6*j) (by omega)]
  rfl

theorem invGroup8 (S : List Nat) (h : S.length = 52) :
    (invGroups S).getD 8 [] =
      [mulInv (S.getD 0 0), additiveInverse (S.getD 1 0),
       additiveInverse (S.getD 2 0), mulInv (S.getD 3 0)] := by
  rw [invGroups, groups_getD _ 8 (by omega)]
  norm_num
  rw [getElem?_eq_some_getD S 0 (by omega),
    getElem?_eq_some_getD S 1 (by omega),
    getElem?_eq_some_getD S 2 (by omega),
    getElem?_eq_some_getD S 3 (by omega)]
  rfl

/-! ### Subkey generation: 52 subkeys, all 16-bit -/

theorem rot25_lt (k : Nat) : rot25 k < 2 ^ 128 := by
  unfold rot25 cyclicLeftShift
  rw [and_mask_shift_one]
  exact Nat.mod_lt _ (two_pow_pos 128)

theorem rot25_ne_zero (k : Nat) (hk : k ≠ 0) (hk' : k < 2 ^ 128) : rot25 k ≠ 0 := by
  have h103 : (128 : Nat) - 25 = 103 := by norm_num
  unfold rot25 cyclicLeftShift
  rw [h103, and_mask_shift_one, Nat.shiftRight_eq_div_pow,
    shiftLeft_lor_eq_add k (k / 2 ^ 103) 25 (by omega)]
  have h1 : k * 2 ^ 25 + k / 2 ^ 103
      = (k / 2 ^ 103) * 2 ^ 128 + ((k % 2 ^ 103) * 2 ^ 25 + k / 2 ^ 103) := by
    omega
  have hkey : (k * 2 ^ 25 + k / 2 ^ 103) % 2 ^ 128
      = (k % 2 ^ 103) * 2 ^ 25 + k / 2 ^ 103 := by
    rw [h1, Nat.mul_comm (k / 2 ^ 103) (2 ^ 128), Nat.mul_add_mod]
    exact Nat.mod_eq_of_lt (by omega)
  rw [hkey]
  omega

theorem collectSubkeys_spec : ∀ (fuel : Nat) (keyBits : Nat) (acc : List Nat),
    keyBits ≠ 0 → keyBits < 2 ^ 128 → acc.length ≤ 52 → 52 ≤ acc.length + fuel →
    (∀ x ∈ acc, x < 2 ^ 16) →
    (collectSubkeys fuel keyBits acc).length = 52 ∧
      ∀ x ∈ collectSubkeys fuel keyBits acc, x < 2 ^ 16 := by
  intro fuel
  induction fuel with
  | zero =>
    intro keyBits acc _ _ h1 h2 h3
    exact ⟨by show acc.length = 52; omega, h3⟩
  | succ fuel ih =>
    intro keyBits acc hk hk' hle hge hbnd
    by_cases hfull : 52 ≤ acc.length
    · rw [show collectSubkeys (fuel + 1) keyBits acc = acc from by
        simp [collectSubkeys, hfull]]
      exact ⟨by omega, hbnd⟩
    · rw [show collectSubkeys (fuel + 1) keyBits acc
          = collectSubkeys fuel (rot25 keyBits)
              (acc ++ (splitIntoBlocks keyBits 16).take (52 - acc.length)) from by
        simp [collectSubkeys, hfull]]
      have hsplit_ne : splitIntoBlocks keyBits 16 ≠ [] := by
        rw [splitIntoBlocks_eq _ 16 (by norm_num), if_neg hk]
        simp
      have htk_len1 : 1 ≤ ((splitIntoBlocks keyBits 16).take (52 - acc.length)).length := by
        rw [List.length_take]
        have h0 : 0 < (splitIntoBlocks keyBits 16).length := List.length_pos.mpr hsplit_ne
        omega
      have htk_len2 : ((splitIntoBlocks keyBits 16).take (52 - acc.length)).length
          ≤ 52 - acc.length := by
        rw [List.length_take]
        omega
      refine ih (rot25 keyBits) _ (rot25_ne_zero keyBits hk hk') (rot25_lt keyBits)
        ?_ ?_ ?_
      · rw [List.length_append]
        omega
      · rw [List.length_append]
        omega
      · intro x hx
        rcases List.mem_append.mp hx with h | h
        · exact hbnd x h
        · exact splitIntoBlocks_lt keyBits 16 (by norm_num) x (List.mem_of_mem_take h)

theorem subkeysOf_spec (key : Nat) (hk : key ≠ 0) (hk' : key < 2 ^ 128) :
    (subkeysOf key).length = 52 ∧ ∀ x ∈ subkeysOf key, x < 2 ^ 16 :=
  collectSubkeys_spec 52 key [] hk hk' (by simp) (by simp) (by simp)

/-! ### Word extraction and repacking of a 64-bit block -/

def digits16 : Nat → Nat → List Nat
  | 0, _ => []
  | k + 1, v => digits16 k (v / 2 ^ 16) ++ [v % 2 ^ 16]

theorem digits16_zero (k : Nat) : digits16 k 0 = List.replicate k 0 := by
  induction k with
  | zero => rfl
  | succ k ih =>
    show digits16 k (0 / 2 ^ 16) ++ [0 % 2 ^ 16] = _
    rw [Nat.zero_div, Nat.zero_mod, ih, List.replicate_succ']

theorem padSplit_eq_digits16 (k : Nat) : ∀ v, v < 2 ^ (16 * k) →
    List.replicate (k - (splitIntoBlocks v 16).length) 0 ++ splitIntoBlocks v 16
      = digits16 k v := by
  induction k with
  | zero =>
    intro v hv
    rw [Nat.mul_zero, pow_zero] at hv
    have hv0 : v = 0 := by omega
    subst hv0
    rfl
  | succ k ih =>
    intro v hv
    rcases Nat.eq_zero_or_pos v with hv0 | hv1
    · subst hv0
      rw [show splitIntoBlocks 0 16 = [] from rfl, digits16_zero]
      simp
    · rw [splitIntoBlocks_eq v 16 (by norm_num), if_neg (by omega)]
      have hdivlt : v / 2 ^ 16 < 2 ^ (16 * k) := by
        rw [Nat.div_lt_iff_lt_mul (two_pow_pos 16), ← pow_add]
        have he : 16 * k + 16 = 16 * (k + 1) := by ring
        rw [he]
        exact hv
      have ihv := ih (v / 2 ^ 16) hdivlt
      show _ = digits16 k (v / 2 ^ 16) ++ [v % 2 ^ 16]
      rw [← ihv, List.length_append]
      simp only [List.length_cons, List.length_nil]
      rw [show (k + 1) - ((splitIntoBlocks (v / 2 ^ 16) 16).length + 1)
          = k - (splitIntoBlocks (v / 2 ^ 16) 16).length from by omega,
        List.append_assoc]

theorem extractBitsC_eq_digits16 (v : Nat) (hv : v < 2 ^ 64) :
    extractBitsC v 16 4 = digits16 4 v := by
  have hlen : (splitIntoBlocks v 16).length ≤ 4 :=
    DES.splitIntoBlocks_length_le 16 4 (by norm_num) v
      (by rw [show 16 * 4 = 64 from by norm_num]; exact hv)
  have hps := padSplit_eq_digits16 4 v
    (by rw [show 16 * 4 = 64 from by norm_num]; exact hv)
  simp only [extractBitsC]
  by_cases hc : (splitIntoBlocks v 16).length < 4
  · rw [if_pos hc]
    exact hps
  · rw [if_neg hc]
    have h4 : (splitIntoBlocks v 16).length = 4 := by omega
    rw [← hps, h4]
    norm_num

theorem digits16_four (v : Nat) :
    digits16 4 v = [v / 2 ^ 16 / 2 ^ 16 / 2 ^ 16 % 2 ^ 16, v / 2 ^ 16 / 2 ^ 16 % 2 ^ 16,
      v / 2 ^ 16 % 2 ^ 16, v % 2 ^ 16] := by
  show digits16 3 (v / 2 ^ 16) ++ [v % 2 ^ 16] = _
  show (digits16 2 (v / 2 ^ 16 / 2 ^ 16) ++ [v / 2 ^ 16 % 2 ^ 16]) ++ [v % 2 ^ 16] = _
  rfl

def pack4 (s : State4) : Nat :=
  (s.1 <<< 48) ||| (s.2.1 <<< 32) ||| (s.2.2.1 <<< 16) ||| s.2.2.2

def unpack4 (v : Nat) : State4 :=
  ((extractBitsC v 16 4).getD 0 0, (extractBitsC v 16 4).getD 1 0,
   (extractBitsC v 16 4).getD 2 0, (extractBitsC v 16 4).getD 3 0)

theorem pack4_eq (a b c d : Nat) (hb : b < 2 ^ 16) (hc : c < 2 ^ 16) (hd : d < 2 ^ 16) :
    pack4 (a, b, c, d) = ((a * 2 ^ 16 + b) * 2 ^ 16 + c) * 2 ^ 16 + d := by
  show (a <<< 48) ||| (b <<< 32) ||| (c <<< 16) ||| d = _
  rw [Nat.lor_assoc, Nat.lor_assoc, shiftLeft_lor_eq_add c d 16 hd,
    shiftLeft_lor_eq_add b (c * 2 ^ 16 + d) 32 (by omega),
    shiftLeft_lor_eq_add a (b * 2 ^ 32 + (c * 2 ^ 16 + d)) 48 (by omega)]
  ring

theorem unpack4_pack4 (s : State4) (hs : B4 s) : unpack4 (pack4 s) = s := by
  obtain ⟨a, b, c, d⟩ := s
  obtain ⟨ha, hb, hc, hd⟩ :
      a < 2 ^ 16 ∧ b < 2 ^ 16 ∧ c < 2 ^ 16 ∧ d < 2 ^ 16 := hs
  have hX : pack4 (a, b, c, d) = ((a * 2 ^ 16 + b) * 2 ^ 16 + c) * 2 ^ 16 + d :=
    pack4_eq a b c d hb hc hd
  have hlt : ((a * 2 ^ 16 + b) * 2 ^ 16 + c) * 2 ^ 16 + d < 2 ^ 64 := by omega
  have e1 : (((a * 2 ^ 16 + b) * 2 ^ 16 + c) * 2 ^ 16 + d) / 2 ^ 16 / 2 ^ 16 / 2 ^ 16
      % 2 ^ 16 = a := by omega
  have e2 : (((a * 2 ^ 16 + b) * 2 ^ 16 + c) * 2 ^ 16 + d) / 2 ^ 16 / 2 ^ 16 % 2 ^ 16
      = b := by omega
  have e3 : (((a * 2 ^ 16 + b) * 2 ^ 16 + c) * 2 ^ 16 + d) / 2 ^ 16 % 2 ^ 16 = c := by
    omega
  have e4 : (((a * 2 ^ 16 + b) * 2 ^ 16 + c) * 2 ^ 16 + d) % 2 ^ 16 = d := by omega
  unfold unpack4
  rw [hX, extractBitsC_eq_digits16 _ hlt, digits16_four, e1, e2, e3, e4]
  rfl

theorem extractBitsC_mem_lt (v : Nat) : ∀ x ∈ extractBitsC v 16 4, x < 2 ^ 16 := by
  intro x hx
  simp only [extractBitsC] at hx
  by_cases hc : (splitIntoBlocks v 16).length < 4
  · rw [if_pos hc] at hx
    rcases List.mem_append.mp hx with h | h
    · rw [List.eq_of_mem_replicate h]
      exact two_pow_pos 16
    · exact splitIntoBlocks_lt v 16 (by norm_num) _ h
  · rw [if_neg hc] at hx
    exact splitIntoBlocks_lt v 16 (by norm_num) _ hx

theorem unpack4_B4 (v : Nat) : B4 (unpack4 v) := by
  have hmem : ∀ i : Nat, (extractBitsC v 16 4).getD i 0 < 2 ^ 16 := by
    intro i
    by_cases hi : i < (extractBitsC v 16 4).length
    · rw [List.getD_eq_getElem _ 0 hi]
      exact extractBitsC_mem_lt v _ (List.getElem_mem hi)
    · rw [List.getD_eq_default _ 0 (by omega)]
      exact two_pow_pos 16
  exact ⟨hmem 0, hmem 1, hmem 2, hmem 3⟩

theorem pack4_unpack4 (v : Nat) (hv : v < 2 ^ 64) : pack4 (unpack4 v) = v := by
  have h2 : v / 2 ^ 16 / 2 ^ 16 % 2 ^ 16 < 2 ^ 16 := Nat.mod_lt _ (two_pow_pos 16)
  have h3 : v / 2 ^ 16 % 2 ^ 16 < 2 ^ 16 := Nat.mod_lt _ (two_pow_pos 16)
  have h4 : v % 2 ^ 16 < 2 ^ 16 := Nat.mod_lt _ (two_pow_pos 16)
  unfold unpack4
  rw [extractBitsC_eq_digits16 v hv, digits16_four]
  show pack4 (v / 2 ^ 16 / 2 ^ 16 / 2 ^ 16 % 2 ^ 16, v / 2 ^ 16 / 2 ^ 16 % 2 ^ 16,
    v / 2 ^ 16 % 2 ^ 16, v % 2 ^ 16) = v
  rw [pack4_eq _ _ _ _ h2 h3 h4]
  omega

/-! ### The full 8.5-round chain and its inverse -/

def chainApply (ks : List (List Nat)) (s : State4) : State4 :=
  ideaHalf (ks.getD 8 []) ((List.range 8).foldl (fun s i => ideaRound (ks.getD i []) s) s)

theorem range8_fold (ks : List (List Nat)) (s : State4) :
    (List.range 8).foldl (fun s i => ideaRound (ks.getD i []) s) s
      = ideaRound (ks.getD 7 []) (ideaRound (ks.getD 6 []) (ideaRound (ks.getD 5 [])
          (ideaRound (ks.getD 4 []) (ideaRound (ks.getD 3 []) (ideaRound (ks.getD 2 [])
            (ideaRound (ks.getD 1 []) (ideaRound (ks.getD 0 []) s))))))) := rfl

theorem processBlock_chain (v : Nat) (ks : List (List Nat)) :
    processBlock v ks = pack4 (chainApply ks (unpack4 v)) := rfl

theorem chainApply_B4 (ks : List (List Nat)) (s : State4) : B4 (chainApply ks s) :=
  keyed4_B4 ((ks.getD 8 []).getD 0 0) ((ks.getD 8 []).getD 1 0)
    ((ks.getD 8 []).getD 2 0) ((ks.getD 8 []).getD 3 0)
    ((List.range 8).foldl (fun s i => ideaRound (ks.getD i []) s) s)

theorem keyed4_cancel' (z1 z2 z3 z4 : Nat) (hz1 : z1 < 2 ^ 16) (hz2 : z2 < 2 ^ 16)
    (hz3 : z3 < 2 ^ 16) (hz4 : z4 < 2 ^ 16) (s : State4) (hs : B4 s) :
    keyed4 (mulInv z1) (additiveInverse z2) (additiveInverse z3) (mulInv z4)
      (keyed4 z1 z2 z3 z4 s) = s := by
  obtain ⟨a, b, c, d⟩ := s
  obtain ⟨ha, hb, hc, hd⟩ : a < 2 ^ 16 ∧ b < 2 ^ 16 ∧ c < 2 ^ 16 ∧ d < 2 ^ 16 := hs
  exact keyed4_cancel z1 z2 z3 z4 a b c d hz1 hz2 hz3 hz4 ha hb hc hd

theorem maPart_invol' (z5 z6 : Nat) (s : State4) : maPart z5 z6 (maPart z5 z6 s) = s := by
  obtain ⟨a, b, c, d⟩ := s
  exact maPart_invol z5 z6 a b c d

theorem ideaRound_list' (z1 z2 z3 z4 z5 z6 : Nat) (s : State4) :
    ideaRound [z1, z2, z3, z4, z5, z6] s = maPart z5 z6 (keyed4 z1 z2 z3 z4 s) := rfl

theorem ideaHalf_list' (z1 z2 z3 z4 : Nat) (s : State4) :
    ideaHalf [z1, z2, z3, z4] s = keyed4 z1 z2 z3 z4 s := rfl

theorem getD_lt (S : List Nat) (hbnd : ∀ x ∈ S, x < 2 ^ 16) (i : Nat) :
    S.getD i 0 < 2 ^ 16 := by
  by_cases hi : i < S.length
  · rw [List.getD_eq_getElem _ 0 hi]
    exact hbnd _ (List.getElem_mem hi)
  · rw [List.getD_eq_default _ 0 (by omega)]
    exact two_pow_pos 16

theorem chain_cancel (S : List Nat) (hlen : S.length = 52)
    (hbnd : ∀ x ∈ S, x < 2 ^ 16) (s : State4) (hs : B4 s) :
    chainApply (invGroups S) (chainApply (encGroups S) s) = s := by
  have hsk : ∀ i, S.getD i 0 < 2 ^ 16 := getD_lt S hbnd
  unfold chainApply
  rw [range8_fold, range8_fold,
    encGroup_slots S hlen 0 (by norm_num),
    encGroup_slots S hlen 1 (by norm_num),
    encGroup_slots S hlen 2 (by norm_num),
    encGroup_slots S hlen 3 (by norm_num),
    encGroup_slots S hlen 4 (by norm_num),
    encGroup_slots S hlen 5 (by norm_num),
    encGroup_slots S hlen 6 (by norm_num),
    encGroup_slots S hlen 7 (by norm_num),
    encGroup8 S hlen,
    invGroup_slots S hlen 0 (by norm_num),
    invGroup_slots S hlen 1 (by norm_num),
    invGroup_slots S hlen 2 (by norm_num),
    invGroup_slots S hlen 3 (by norm_num),
    invGroup_slots S hlen 4 (by norm_num),
    invGroup_slots S hlen 5 (by norm_num),
    invGroup_slots S hlen 6 (by norm_num),
    invGroup_slots S hlen 7 (by norm_num),
    invGroup8 S hlen]
  norm_num
  simp only [← List.getD_eq_getElem?_getD]
  simp only [ideaRound_list', ideaHalf_list']
  set e1 := maPart (S.getD 4 0) (S.getD 5 0) (keyed4 (S.getD 0 0) (S.getD 1 0) (S.getD 2 0) (S.getD 3 0) s) with he1
  set e2 := maPart (S.getD 10 0) (S.getD 11 0) (keyed4 (S.getD 6 0) (S.getD 7 0) (S.getD 8 0) (S.getD 9 0) e1) with he2
  set e3 := maPart (S.getD 16 0) (S.getD 17 0) (keyed4 (S.getD 12 0) (S.getD 13 0) (S.getD 14 0) (S.getD 15 0) e2) with he3
  set e4 := maPart (S.getD 22 0) (S.getD 23 0) (keyed4 (S.getD 18 0) (S.getD 19 0) (S.getD 20 0) (S.getD 21 0) e3) with he4
  set e5 := maPart (S.getD 28 0) (S.getD 29 0) (keyed4 (S.getD 24 0) (S.getD 25 0) (S.getD 26 0) (S.getD 27 0) e4) with he5
  set e6 := maPart (S.getD 34 0) (S.getD 35 0) (keyed4 (S.getD 30 0) (S.getD 31 0) (S.getD 32 0) (S.getD 33 0) e5) with he6
  set e7 := maPart (S.getD 40 0) (S.getD 41 0) (keyed4 (S.getD 36 0) (S.getD 37 0) (S.getD 38 0) (S.getD 39 0) e6) with he7
  set e8 := maPart (S.getD 46 0) (S.getD 47 0) (keyed4 (S.getD 42 0) (S.getD 43 0) (S.getD 44 0) (S.getD 45 0) e7) with he8
  have hB1 : B4 e1 := by
    rw [he1]
    exact maPart_B4 _ _ _ (keyed4_B4 _ _ _ _ _)
  have hB2 : B4 e2 := by
    rw [he2]
    exact maPart_B4 _ _ _ (keyed4_B4 _ _ _ _ _)
  have hB3 : B4 e3 := by
    rw [he3]
    exact maPart_B4 _ _ _ (keyed4_B4 _ _ _ _ _)
  have hB4 : B4 e4 := by
    rw [he4]
    exact maPart_B4 _ _ _ (keyed4_B4 _ _ _ _ _)
  have hB5 : B4 e5 := by
    rw [he5]
    exact maPart_B4 _ _ _ (keyed4_B4 _ _ _ _ _)
  have hB6 : B4 e6 := by
    rw [he6]
    exact maPart_B4 _ _ _ (keyed4_B4 _ _ _ _ _)
  have hB7 : B4 e7 := by
    rw [he7]
    exact maPart_B4 _ _ _ (keyed4_B4 _ _ _ _ _)
  have hB8 : B4 e8 := by
    rw [he8]
    exact maPart_B4 _ _ _ (keyed4_B4 _ _ _ _ _)
  rw [keyed4_cancel' (S.getD 48 0) (S.getD 49 0) (S.getD 50 0) (S.getD 51 0) (hsk 48) (hsk 49) (hsk 50) (hsk 51) e8 hB8]
  rw [he8]
  rw [maPart_invol' (S.getD 46 0) (S.getD 47 0) (keyed4 (S.getD 42 0) (S.getD 43 0) (S.getD 44 0) (S.getD 45 0) e7)]
  rw [keyed4_cancel' (S.getD 42 0) (S.getD 43 0) (S.getD 44 0) (S.getD 45 0) (hsk 42) (hsk 43) (hsk 44) (hsk 45) e7 hB7]
  rw [he7]
  rw [maPart_invol' (S.getD 40 0) (S.getD 41 0) (keyed4 (S.getD 36 0) (S.getD 37 0) (S.getD 38 0) (S.getD 39 0) e6)]
  rw [keyed4_cancel' (S.getD 36 0) (S.getD 37 0) (S.getD 38 0) (S.getD 39 0) (hsk 36) (hsk 37) (hsk 38) (hsk 39) e6 hB6]
  rw [he6]
  rw [maPart_invol' (S.getD 34 0) (S.getD 35 0) (keyed4 (S.getD 30 0) (S.getD 31 0) (S.getD 32 0) (S.getD 33 0) e5)]
  rw [keyed4_cancel' (S.getD 30 0) (S.getD 31 0) (S.getD 32 0) (S.getD 33 0) (hsk 30) (hsk 31) (hsk 32) (hsk 33) e5 hB5]
  rw [he5]
  rw [maPart_invol' (S.getD 28 0) (S.getD 29 0) (keyed4 (S.getD 24 0) (S.getD 25 0) (S.getD 26 0) (S.getD 27 0) e4)]
  rw [keyed4_cancel' (S.getD 24 0) (S.getD 25 0) (S.getD 26 0) (S.getD 27 0) (hsk 24) (hsk 25) (hsk 26) (hsk 27) e4 hB4]
  rw [he4]
  rw [maPart_invol' (S.getD 22 0) (S.getD 23 0) (keyed4 (S.getD 18 0) (S.getD 19 0) (S.getD 20 0) (S.getD 21 0) e3)]
  rw [keyed4_cancel' (S.getD 18 0) (S.getD 19 0) (S.getD 20 0) (S.getD 21 0) (hsk 18) (hsk 19) (hsk 20) (hsk 21) e3 hB3]
  rw [he3]
  rw [maPart_invol' (S.getD 16 0) (S.getD 17 0) (keyed4 (S.getD 12 0) (S.getD 13 0) (S.getD 14 0) (S.getD 15 0) e2)]
  rw [keyed4_cancel' (S.getD 12 0) (S.getD 13 0) (S.getD 14 0) (S.getD 15 0) (hsk 12) (hsk 13) (hsk 14) (hsk 15) e2 hB2]
  rw [he2]
  rw [maPart_invol' (S.getD 10 0) (S.getD 11 0) (keyed4 (S.getD 6 0) (S.getD 7 0) (S.getD 8 0) (S.getD 9 0) e1)]
  rw [keyed4_cancel' (S.getD 6 0) (S.getD 7 0) (S.getD 8 0) (S.getD 9 0) (hsk 6) (hsk 7) (hsk 8) (hsk 9) e1 hB1]
  rw [he1]
  rw [maPart_invol' (S.getD 4 0) (S.getD 5 0) (keyed4 (S.getD 0 0) (S.getD 1 0) (S.getD 2 0) (S.getD 3 0) s)]
  rw [keyed4_cancel' (S.getD 0 0) (S.getD 1 0) (S.getD 2 0) (S.getD 3 0) (hsk 0) (hsk 1) (hsk 2) (hsk 3) s hs]

theorem pack4_lt (s : State4) (hs : B4 s) : pack4 s < 2 ^ 64 := by
  obtain ⟨a, b, c, d⟩ := s
  obtain ⟨ha, hb, hc, hd⟩ : a < 2 ^ 16 ∧ b < 2 ^ 16 ∧ c < 2 ^ 16 ∧ d < 2 ^ 16 := hs
  rw [pack4_eq a b c d hb hc hd]
  omega

theorem processBlock_lt (v : Nat) (ks : List (List Nat)) : processBlock v ks < 2 ^ 64 := by
  rw [processBlock_chain]
  exact pack4_lt _ (chainApply_B4 ks (unpack4 v))

/-- Block-level IDEA inverse: decrypting with the inverse schedule undoes
encrypting with the forward schedule, for every 52-entry 16-bit subkey
list. -/
theorem processBlock_roundtrip (S : List Nat) (hlen : S.length = 52)
    (hbnd : ∀ x ∈ S, x < 2 ^ 16) (v : Nat) (hv : v < 2 ^ 64) :
    processBlock (processBlock v (encGroups S)) (invGroups S) = v := by
  rw [processBlock_chain v (encGroups S), processBlock_chain _ (invGroups S),
    unpack4_pack4 _ (chainApply_B4 (encGroups S) (unpack4 v)),
    chain_cancel S hlen hbnd _ (unpack4_B4 v), pack4_unpack4 v hv]

theorem BIT128_mask_lt (hk : Nat) : hk &&& BIT128 < 2 ^ 128 := by
  unfold BIT128
  rw [and_mask_shift_one]
  exact Nat.mod_lt _ (two_pow_pos 128)

/-- Conditional IDEA pipeline round trip: holds whenever the hashed key is
nonzero after masking (a zero register would loop the subkey generator
forever) and the leading ciphertext block is nonzero (the short-block
quirk of the splitter). -/
theorem idea_pipeline_roundtrip (blob hk : Nat)
    (hkey : hk &&& BIT128 ≠ 0)
    (hhead : (((splitIntoBlocks blob 64).map
        (fun b => processBlock b (encGroups (subkeysOf (hk &&& BIT128))))).headD 1) ≠ 0) :
    ideaDecrypt (ideaEncrypt blob hk) hk = blob := by
  obtain ⟨hlen, hbnd⟩ := subkeysOf_spec (hk &&& BIT128) hkey (BIT128_mask_lt hk)
  set S := subkeysOf (hk &&& BIT128) with hS
  set bs := splitIntoBlocks blob 64 with hbs
  set cs := bs.map (fun b => processBlock b (encGroups S)) with hcs
  have hbs_lt : ∀ b ∈ bs, b < 2 ^ 64 := splitIntoBlocks_lt blob 64 (by norm_num)
  have hcs_lt : ∀ c ∈ cs, c < 2 ^ 64 := by
    intro c hcm
    rw [hcs] at hcm
    obtain ⟨b, _, rfl⟩ := List.mem_map.mp hcm
    exact processBlock_lt b (encGroups S)
  show joinBlocks ((splitIntoBlocks (joinBlocks cs 64) 64).map
    (fun b => processBlock b (invGroups S))) 64 = blob
  rw [splitIntoBlocks_joinBlocks cs 64 (by norm_num) hcs_lt hhead, hcs, List.map_map]
  have hmap : bs.map ((fun b => processBlock b (invGroups S)) ∘
      (fun b => processBlock b (encGroups S))) = bs.map id :=
    List.map_congr_left (fun b hbm =>
      processBlock_roundtrip S hlen hbnd b (hbs_lt b hbm))
  rw [hmap, List.map_id, hbs, joinBlocks_splitIntoBlocks blob 64 (by norm_num)]

end IDEA

/-! ### TwoFish engine

Shallow embedding of the TwoFish implementation.  The byte/word plumbing
(`extractBytesFromBlob`, `littleEndianConversion`,
`inverseLittleEndianConversion`, the output packing loop) is modelled on
`List Nat`; the two data-dependent loops (`multiplyGF2_8`'s shift-and-add and
`extractBytesFromBlob`'s byte peeling) use fuel to stay structural. -/

namespace TwoFish

def BIT128 : Nat := (1 <<< 128) - 1

def BIT32 : Nat := (1 <<< 32) - 1

def mdsMatrix : List (List Nat) := [
  [0x01, 0xEF, 0x5B, 0x5B],
  [0x5B, 0xEF, 0xEF, 0x01],
  [0xEF, 0x5B, 0x01, 0xEF],
  [0xEF, 0x01, 0xEF, 0x5B]]

def rsMatrix : List (List Nat) := [
  [0x01, 0xA4, 0x55, 0x87, 0x5A, 0x58, 0xDB, 0x9E],
  [0xA4, 0x56, 0x82, 0xF3, 0x1E, 0xC6, 0x68, 0xE5],
  [0x02, 0xA1, 0xFC, 0xC1, 0x47, 0xAE, 0x3D, 0x19],
  [0xA4, 0x55, 0x87, 0x5A, 0x58, 0xDB, 0x9E, 0x03]]

def q0t : List (List Nat) := [
  [0x8, 0x1, 0x7, 0xD, 0x6, 0xF, 0x3, 0x2, 0x0, 0xB, 0x5, 0x9, 0xE, 0xC, 0xA, 0x4],
  [0xE, 0xC, 0xB, 0x8, 0x1, 0x2, 0x3, 0x5, 0xF, 0x4, 0xA, 0x6, 0x7, 0x0, 0x9, 0xD],
  [0xB, 0xA, 0x5, 0xE, 0x6, 0xD, 0x9, 0x0, 0xC, 0x8, 0xF, 0x3, 0x2, 0x4, 0x7, 0x1],
  [0xD, 0x7, 0xF, 0x4, 0x1, 0x2, 0x6, 0xE, 0x9, 0xB, 0x3, 0x0, 0x8, 0x5, 0xC, 0xA]]

def q1t : List (List Nat) := [
  [0x2, 0x8, 0xB, 0xD, 0xF, 0x7, 0x6, 0xE, 0x3, 0x1, 0x9, 0x4, 0x0, 0xA, 0xC, 0x5],
  [0x1, 0xE, 0x2, 0xB, 0x4, 0xC, 0x3, 0x7, 0x6, 0xD, 0xA, 0x5, 0xF, 0x9, 0x0, 0x8],
  [0x4, 0xC, 0x7, 0x5, 0x1, 0x6, 0x9, 0xA, 0x0, 0xE, 0xD, 0x8, 0x2, 0xB, 0x3, 0xF],
  [0xB, 0x9, 0x5, 0x1, 0xC, 0x3, 0xD, 0xE, 0x6, 0x4, 0x7, 0xF, 0x2, 0x0, 0x8, 0xA]]

/-- One shift-and-reduce pass of the GF(2^8) multiplication loop. -/
def gfStep (a poly : Nat) : Nat :=
  let a2 := a <<< 1
  if a2 &&& (1 <<< 8) ≠ 0 then a2 ^^^ poly else a2

def gfMulAux : Nat → Nat → Nat → Nat → Nat
  | 0, _, _, _ => 0
  | fuel + 1, a, b, poly =>
    if b = 0 then 0
    else (if b &&& 1 ≠ 0 then a else 0) ^^^ gfMulAux fuel (gfStep a poly) (b >>> 1) poly

def multiplyGF2_8 (a b poly : Nat) : Nat := gfMulAux b a b poly

def multiplyMatrixToVector (matrix : List (List Nat)) (vector : List Nat)
    (poly : Nat) : List Nat :=
  matrix.map (fun row =>
    (row.zip vector).foldl (fun acc p => acc ^^^ multiplyGF2_8 p.1 p.2 poly) 0)

def rs (v : List Nat) : List Nat := multiplyMatrixToVector rsMatrix v 0b101001101

def mds (v : List Nat) : List Nat := multiplyMatrixToVector mdsMatrix v 0b101101001

def cyclicallyLeftShift (block size amt : Nat) : Nat :=
  ((block <<< amt) ||| (block >>> (size - amt))) &&& ((1 <<< size) - 1)

def cyclicallyRightShift (block size amt : Nat) : Nat :=
  ((block >>> amt) ||| ((block &&& ((1 <<< amt) - 1)) <<< (size - amt)))
    &&& ((1 <<< size) - 1)

def ROTL (b amt : Nat) : Nat := cyclicallyLeftShift b 32 amt

def ROTR (b amt : Nat) : Nat := cyclicallyRightShift b 32 amt

def ROTR4 (b amt : Nat) : Nat := cyclicallyRightShift b 4 amt

def qSubstitute (block : Nat) (tables : List (List Nat)) : Nat :=
  let t := fun (i : Nat) (x : Nat) => (tables.getD i []).getD x 0
  let a := block / 16
  let b := block % 16
  let a1 := a ^^^ b
  let b1 := (a ^^^ ROTR4 b 1 ^^^ (8 * a)) % 16
  let a2 := t 0 a1
  let b2 := t 1 b1
  let a3 := a2 ^^^ b2
  let b3 := (a2 ^^^ ROTR4 b2 1 ^^^ (8 * a2)) % 16
  let a4 := t 2 a3
  let b4 := t 3 b3
  16 * b4 + a4

def q0 (x : Nat) : Nat := qSubstitute x q0t

def q1 (x : Nat) : Nat := qSubstitute x q1t

/-- `bytesOfSingle`: little-endian bytes, padded at the back to `count`. -/
def bytesLEAux : Nat → Nat → List Nat
  | 0, _ => []
  | fuel + 1, v => if v = 0 then [] else (v &&& 0xFF) :: bytesLEAux fuel (v >>> 8)

def bytesLEloop (v : Nat) : List Nat := bytesLEAux v v

def bytesOfSingle (v count : Nat) : List Nat :=
  let base := bytesLEloop v
  if base.length < count then base ++ List.replicate (count - base.length) 0 else base

def H (X : Nat) (L : List Nat) : Nat :=
  let x := bytesOfSingle X 4
  let l0 := bytesOfSingle (L.getD 0 0) 4
  let l1 := bytesOfSingle (L.getD 1 0) 4
  let y0 := q0 (x.getD 0 0)
  let y1 := q1 (x.getD 1 0)
  let y2 := q0 (x.getD 2 0)
  let y3 := q1 (x.getD 3 0)
  let y0b := q0 (y0 ^^^ l1.getD 0 0)
  let y1b := q0 (y1 ^^^ l1.getD 1 0)
  let y2b := q1 (y2 ^^^ l1.getD 2 0)
  let y3b := q1 (y3 ^^^ l1.getD 3 0)
  let y0c := q1 (y0b ^^^ l0.getD 0 0)
  let y1c := q0 (y1b ^^^ l0.getD 1 0)
  let y2c := q1 (y2b ^^^ l0.getD 2 0)
  let y3c := q0 (y3b ^^^ l0.getD 3 0)
  let z := mds [y0c, y1c, y2c, y3c]
  (z.getD 0 0) ||| ((z.getD 1 0) <<< 8) ||| ((z.getD 2 0) <<< 16) ||| ((z.getD 3 0) <<< 24)

/-- `extractBytesFromBlob` with a count: big-endian bytes, zero-padded at the
front up to `count` (the `while` also runs while fewer than `count` bytes were
produced and `blob` is already zero). -/
def extractBytesC (blob count : Nat) : List Nat :=
  let base := splitIntoBlocks blob 8
  if base.length < count then List.replicate (count - base.length) 0 ++ base else base

abbrev KeySchedule := List Nat × List Nat

def generateKeySchedule (key : Nat) : KeySchedule :=
  let m := extractBytesC key 16
  let M := (List.range 4).map (fun i =>
    (m.getD (4*i) 0) + ((m.getD (4*i+1) 0) <<< 8) + ((m.getD (4*i+2) 0) <<< 16)
      + ((m.getD (4*i+3) 0) <<< 24))
  let mEven := [M.getD 0 0, M.getD 2 0]
  let mOdd := [M.getD 1 0, M.getD 3 0]
  let v0 := m.take 8
  let v1 := (m.drop 8).take 8
  let s0 := rs v0
  let s1 := rs v1
  let pack := fun (si : List Nat) =>
    (si.getD 0 0) ||| ((si.getD 1 0) <<< 8) ||| ((si.getD 2 0) <<< 16)
      ||| ((si.getD 3 0) <<< 24)
  let S := [pack s1, pack s0]
  let rho := 0x1010101
  let keys := (List.range 20).flatMap (fun i =>
    let A := H (2 * i * rho) mEven
    let B := ROTL (H ((2 * i + 1) * rho) mOdd) 8
    let K2i := (A + B) &&& BIT32
    let K2i1 := ROTL ((A + 2 * B) &&& BIT32) 9
    [K2i, K2i1])
  (keys, S)

def F (r0 r1 round : Nat) (ks : KeySchedule) : Nat × Nat :=
  let t0 := H r0 ks.2
  let t1 := H (ROTL r1 8) ks.2
  let f0 := (t0 + t1 + ks.1.getD (2 * round + 8) 0) &&& 0xFF
  let f1 := (t0 + 2 * t1 + ks.1.getD (2 * round + 9) 0) &&& 0xFF
  (f0, f1)

def littleEndianConversion (p : List Nat) : List Nat :=
  (List.range 4).map (fun i =>
    (p.getD (4*i) 0) ||| ((p.getD (4*i+1) 0) <<< 8) ||| ((p.getD (4*i+2) 0) <<< 16)
      ||| ((p.getD (4*i+3) 0) <<< 24))

def inverseLittleEndianConversion (C : List Nat) : List Nat :=
  (List.range 16).map (fun i => ((C.getD (i / 4) 0) >>> (8 * (i % 4))) &&& 0xFF)

def inputWhiten (blocks : List Nat) (ks : KeySchedule) : List Nat :=
  (List.range 4).map (fun i => (blocks.getD i 0) ^^^ (ks.1.getD i 0))

def outputWhiten (blocks : List Nat) (ks : KeySchedule) : List Nat :=
  (List.range 4).map (fun i => (blocks.getD i 0) ^^^ (ks.1.getD (i + 4) 0))

abbrev State4 := Nat × Nat × Nat × Nat

def packOutput (ws : List Nat) : Nat :=
  let ob := inverseLittleEndianConversion ws
  (List.range 16).foldl (fun acc i => acc ||| ((ob.getD (15 - i) 0) <<< (8 * i))) 0

/-- One encryption round: `[r0,r1,r2,r3] = [ROTR(r2^f0,1), ROTL(r3,1)^f1, r0, r1]`. -/
def encRoundStep (ks : KeySchedule) (s : State4) (r : Nat) : State4 :=
  let f := F s.1 s.2.1 r ks
  (ROTR (s.2.2.1 ^^^ f.1) 1, ROTL s.2.2.2 1 ^^^ f.2, s.1, s.2.1)

/-- One decryption round: `[r0,r1,r2,r3] = [ROTL(r2,1)^f0, ROTR(r3^f1,1), r0, r1]`. -/
def decRoundStep (ks : KeySchedule) (s : State4) (r : Nat) : State4 :=
  let f := F s.1 s.2.1 r ks
  (ROTL s.2.2.1 1 ^^^ f.1, ROTR (s.2.2.2 ^^^ f.2) 1, s.1, s.2.1)

def encryptBlock (block : Nat) (ks : KeySchedule) : Nat :=
  let bytes := extractBytesC block 16
  let P := littleEndianConversion bytes
  let w := inputWhiten P ks
  let s0 : State4 := (w.getD 0 0, w.getD 1 0, w.getD 2 0, w.getD 3 0)
  let t := (List.range 16).foldl (encRoundStep ks) s0
  let w2 := outputWhiten [t.2.2.1, t.2.2.2, t.1, t.2.1] ks
  packOutput w2

def decryptBlock (block : Nat) (ks : KeySchedule) : Nat :=
  let bytes := extractBytesC block 16
  let P := littleEndianConversion bytes
  let w := outputWhiten P ks
  let s0 : State4 := (w.getD 0 0, w.getD 1 0, w.getD 2 0, w.getD 3 0)
  let t := (List.range 16).foldl (fun s rr => decRoundStep ks s (15 - rr)) s0
  let w2 := inputWhiten [t.2.2.1, t.2.2.2, t.1, t.2.1] ks
  packOutput w2

def twofishEncrypt (blob hk : Nat) : Nat :=
  let ks := generateKeySchedule (hk &&& BIT128)
  joinBlocks ((splitIntoBlocks blob 128).map (fun b => encryptBlock b ks)) 128

def twofishDecrypt (blob hk : Nat) : Nat :=
  let ks := generateKeySchedule (hk &&& BIT128)
  joinBlocks ((splitIntoBlocks blob 128).map (fun b => decryptBlock b ks)) 128

/-! ### Byte plumbing lemmas -/

def digits8 : Nat → Nat → List Nat
  | 0, _ => []
  | k + 1, v => digits8 k (v / 2 ^ 8) ++ [v % 2 ^ 8]

theorem digits8_zero (k : Nat) : digits8 k 0 = List.replicate k 0 := by
  induction k with
  | zero => rfl
  | succ k ih =>
    show digits8 k (0 / 2 ^ 8) ++ [0 % 2 ^ 8] = _
    rw [Nat.zero_div, Nat.zero_mod, ih, List.replicate_succ']

theorem padSplit8_eq_digits8 (k : Nat) : ∀ v, v < 2 ^ (8 * k) →
    List.replicate (k - (splitIntoBlocks v 8).length) 0 ++ splitIntoBlocks v 8
      = digits8 k v := by
  induction k with
  | zero =>
    intro v hv
    rw [Nat.mul_zero, pow_zero] at hv
    have hv0 : v = 0 := by omega
    subst hv0
    rfl
  | succ k ih =>
    intro v hv
    rcases Nat.eq_zero_or_pos v with hv0 | hv1
    · subst hv0
      rw [show splitIntoBlocks 0 8 = [] from rfl, digits8_zero]
      simp
    · rw [splitIntoBlocks_eq v 8 (by norm_num), if_neg (by omega)]
      have hdivlt : v / 2 ^ 8 < 2 ^ (8 * k) := by
        rw [Nat.div_lt_iff_lt_mul (two_pow_pos 8), ← pow_add]
        have he : 8 * k + 8 = 8 * (k + 1) := by ring
        rw [he]
        exact hv
      have ihv := ih (v / 2 ^ 8) hdivlt
      show _ = digits8 k (v / 2 ^ 8) ++ [v % 2 ^ 8]
      rw [← ihv, List.length_append]
      simp only [List.length_cons, List.length_nil]
      rw [show (k + 1) - ((splitIntoBlocks (v / 2 ^ 8) 8).length + 1)
          = k - (splitIntoBlocks (v / 2 ^ 8) 8).length from by omega,
        List.append_assoc]

theorem extractBytesC_eq_digits8 (v : Nat) (hv : v < 2 ^ 128) :
    extractBytesC v 16 = digits8 16 v := by
  have hlen : (splitIntoBlocks v 8).length ≤ 16 :=
    DES.splitIntoBlocks_length_le 8 16 (by norm_num) v
      (by rw [show 8 * 16 = 128 from by norm_num]; exact hv)
  have hps := padSplit8_eq_digits8 16 v
    (by rw [show 8 * 16 = 128 from by norm_num]; exact hv)
  simp only [extractBytesC]
  by_cases hc : (splitIntoBlocks v 8).length < 16
  · rw [if_pos hc]
    exact hps
  · rw [if_neg hc]
    have h16 : (splitIntoBlocks v 8).length = 16 := by omega
    rw [← hps, h16]
    norm_num

theorem extractBytesC_mem_lt (v : Nat) : ∀ x ∈ extractBytesC v 16, x < 2 ^ 8 := by
  intro x hx
  simp only [extractBytesC] at hx
  by_cases hc : (splitIntoBlocks v 8).length < 16
  · rw [if_pos hc] at hx
    rcases List.mem_append.mp hx with h | h
    · rw [List.eq_of_mem_replicate h]
      exact two_pow_pos 8
    · exact splitIntoBlocks_lt v 8 (by norm_num) _ h
  · rw [if_neg hc] at hx
    exact splitIntoBlocks_lt v 8 (by norm_num) _ hx

theorem extractBytesC_length (v : Nat) (hv : v < 2 ^ 128) :
    (extractBytesC v 16).length = 16 := by
  have hlen : (splitIntoBlocks v 8).length ≤ 16 :=
    DES.splitIntoBlocks_length_le 8 16 (by norm_num) v
      (by rw [show 8 * 16 = 128 from by norm_num]; exact hv)
  simp only [extractBytesC]
  by_cases hc : (splitIntoBlocks v 8).length < 16
  · rw [if_pos hc, List.length_append, List.length_replicate]
    omega
  · rw [if_neg hc]
    omega

theorem joinBlocks_replicate_zero (k : Nat) (l : List Nat) (n : Nat) :
    joinBlocks (List.replicate k 0 ++ l) n = joinBlocks l n := by
  induction k with
  | zero => rfl
  | succ k ih =>
    rw [List.replicate_succ, List.cons_append]
    show List.foldl _ ((0 <<< n) ||| 0) _ = _
    rw [Nat.zero_shiftLeft]
    show List.foldl _ 0 _ = _
    exact ih

theorem joinBlocks_extractBytesC (v : Nat) :
    joinBlocks (extractBytesC v 16) 8 = v := by
  simp only [extractBytesC]
  by_cases hc : (splitIntoBlocks v 8).length < 16
  · rw [if_pos hc, joinBlocks_replicate_zero,
      joinBlocks_splitIntoBlocks v 8 (by norm_num)]
  · rw [if_neg hc, joinBlocks_splitIntoBlocks v 8 (by norm_num)]

theorem joinBlocks_lt (n : Nat) (hn : 0 < n) :
    ∀ l : List Nat, (∀ x ∈ l, x < 2 ^ n) → joinBlocks l n < 2 ^ (n * l.length) := by
  intro l
  induction l using List.reverseRecOn with
  | nil =>
    intro _
    simp [joinBlocks]
  | append_singleton l b ih =>
    intro hbnd
    have hb : b < 2 ^ n := hbnd b (by simp)
    rw [joinBlocks_append, shiftLeft_lor_eq_add _ _ n hb, List.length_append]
    have hJ : joinBlocks l n < 2 ^ (n * l.length) :=
      ih (fun x hx => hbnd x (List.mem_append_left _ hx))
    have hpow : 2 ^ (n * (l.length + 1)) = 2 ^ (n * l.length) * 2 ^ n := by
      rw [← pow_add]
      ring_nf
    simp only [List.length_cons, List.length_nil]
    rw [hpow]
    have h1 : 1 ≤ 2 ^ (n * l.length) := Nat.one_le_two_pow
    have h2 : (2 ^ (n * l.length) - 1) * 2 ^ n = 2 ^ (n * l.length) * 2 ^ n - 2 ^ n := by
      rw [Nat.sub_mul, Nat.one_mul]
    have h3 : 2 ^ n ≤ 2 ^ (n * l.length) * 2 ^ n :=
      Nat.le_mul_of_pos_left _ (two_pow_pos _)
    have h4 : joinBlocks l n * 2 ^ n ≤ (2 ^ (n * l.length) - 1) * 2 ^ n :=
      Nat.mul_le_mul_right _ (by omega)
    omega

theorem digits8_joinBlocks : ∀ l : List Nat, (∀ x ∈ l, x < 2 ^ 8) →
    digits8 l.length (joinBlocks l 8) = l := by
  intro l
  induction l using List.reverseRecOn with
  | nil =>
    intro _
    rfl
  | append_singleton l b ih =>
    intro hbnd
    have hb : b < 2 ^ 8 := hbnd b (by simp)
    rw [joinBlocks_append, shiftLeft_lor_eq_add _ _ 8 hb, List.length_append]
    simp only [List.length_cons, List.length_nil]
    show digits8 (l.length + 1) _ = _
    rw [show digits8 (l.length + 1) (joinBlocks l 8 * 2 ^ 8 + b)
        = digits8 l.length ((joinBlocks l 8 * 2 ^ 8 + b) / 2 ^ 8)
            ++ [(joinBlocks l 8 * 2 ^ 8 + b) % 2 ^ 8] from rfl]
    have hd : (joinBlocks l 8 * 2 ^ 8 + b) / 2 ^ 8 = joinBlocks l 8 := by
      rw [Nat.mul_comm, Nat.mul_add_div (two_pow_pos 8), Nat.div_eq_of_lt hb,
        Nat.add_zero]
    have hm : (joinBlocks l 8 * 2 ^ 8 + b) % 2 ^ 8 = b := by
      rw [Nat.mul_comm, Nat.mul_add_mod, Nat.mod_eq_of_lt hb]
    rw [hd, hm, ih (fun x hx => hbnd x (List.mem_append_left _ hx))]

/-! ### Rotation and key-schedule bounds -/

theorem ROTL_lt (b amt : Nat) : ROTL b amt < 2 ^ 32 := by
  unfold ROTL cyclicallyLeftShift
  rw [and_mask_shift_one]
  exact Nat.mod_lt _ (two_pow_pos 32)

theorem ROTR_lt (b amt : Nat) : ROTR b amt < 2 ^ 32 := by
  unfold ROTR cyclicallyRightShift
  rw [and_mask_shift_one]
  exact Nat.mod_lt _ (two_pow_pos 32)

theorem ROTL_one_eq (x : Nat) (hx : x < 2 ^ 32) :
    ROTL x 1 = (x * 2 + x / 2 ^ 31) % 2 ^ 32 := by
  unfold ROTL cyclicallyLeftShift
  rw [and_mask_shift_one, show (32 : Nat) - 1 = 31 from rfl,
    Nat.shiftRight_eq_div_pow,
    shiftLeft_lor_eq_add x (x / 2 ^ 31) 1 (by omega)]
  omega

theorem ROTR_one_eq (y : Nat) (hy : y < 2 ^ 32) :
    ROTR y 1 = (y % 2 * 2 ^ 31 + y / 2) % 2 ^ 32 := by
  unfold ROTR cyclicallyRightShift
  rw [and_mask_shift_one, and_mask_shift_one,
    show (32 : Nat) - 1 = 31 from rfl, Nat.shiftRight_eq_div_pow,
    Nat.lor_comm,
    shiftLeft_lor_eq_add (y % 2 ^ 1) (y / 2 ^ 1) 31 (by omega)]
  omega

theorem ROTR_ROTL (x : Nat) (hx : x < 2 ^ 32) : ROTR (ROTL x 1) 1 = x := by
  rw [ROTL_one_eq x hx, ROTR_one_eq _ (Nat.mod_lt _ (two_pow_pos 32))]
  rcases Nat.lt_or_ge x (2 ^ 31) with hlt | hge
  · have hd : x / 2 ^ 31 = 0 := Nat.div_eq_of_lt hlt
    rw [hd]
    have h1 : (x * 2 + 0) % 2 ^ 32 = x * 2 := by omega
    rw [h1]
    omega
  · have hd : x / 2 ^ 31 = 1 := by omega
    rw [hd]
    have h1 : (x * 2 + 1) % 2 ^ 32 = x * 2 + 1 - 2 ^ 32 := by omega
    rw [h1]
    omega

theorem ROTL_ROTR (x : Nat) (hx : x < 2 ^ 32) : ROTL (ROTR x 1) 1 = x := by
  rw [ROTR_one_eq x hx, ROTL_one_eq _ (Nat.mod_lt _ (two_pow_pos 32))]
  have h1 : (x % 2 * 2 ^ 31 + x / 2) % 2 ^ 32 = x % 2 * 2 ^ 31 + x / 2 := by omega
  rw [h1]
  have h2 : (x % 2 * 2 ^ 31 + x / 2) / 2 ^ 31 = x % 2 := by omega
  rw [h2]
  omega

theorem F_fst_lt (r0 r1 r : Nat) (ks : KeySchedule) : (F r0 r1 r ks).1 < 2 ^ 8 := by
  show (_ &&& 0xFF) < 2 ^ 8
  rw [and_mask_ff]
  exact Nat.mod_lt _ (two_pow_pos 8)

theorem F_snd_lt (r0 r1 r : Nat) (ks : KeySchedule) : (F r0 r1 r ks).2 < 2 ^ 8 := by
  show (_ &&& 0xFF) < 2 ^ 8
  rw [and_mask_ff]
  exact Nat.mod_lt _ (two_pow_pos 8)

theorem K_mem_lt (key : Nat) : ∀ x ∈ (generateKeySchedule key).1, x < 2 ^ 32 := by
  intro x hx
  simp only [generateKeySchedule, List.mem_flatMap, List.mem_cons,
    List.not_mem_nil, or_false] at hx
  obtain ⟨i, _, hx⟩ := hx
  rcases hx with h | h
  · subst h
    unfold BIT32
    rw [and_mask_shift_one]
    exact Nat.mod_lt _ (two_pow_pos 32)
  · subst h
    exact ROTL_lt _ _

theorem K_getD_lt (key i : Nat) : (generateKeySchedule key).1.getD i 0 < 2 ^ 32 := by
  by_cases hi : i < (generateKeySchedule key).1.length
  · rw [List.getD_eq_getElem _ 0 hi]
    exact K_mem_lt key _ (List.getElem_mem hi)
  · rw [List.getD_eq_default _ 0 (by omega)]
    exact two_pow_pos 32

theorem fold16_or (b0 b1 b2 b3 b4 b5 b6 b7 b8 b9 b10 b11 b12 b13 b14 b15 : Nat)
    (h0 : b0 < 2 ^ 8)
    (h1 : b1 < 2 ^ 8)
    (h2 : b2 < 2 ^ 8)
    (h3 : b3 < 2 ^ 8)
    (h4 : b4 < 2 ^ 8)
    (h5 : b5 < 2 ^ 8)
    (h6 : b6 < 2 ^ 8)
    (h7 : b7 < 2 ^ 8)
    (h8 : b8 < 2 ^ 8)
    (h9 : b9 < 2 ^ 8)
    (h10 : b10 < 2 ^ 8)
    (h11 : b11 < 2 ^ 8)
    (h12 : b12 < 2 ^ 8)
    (h13 : b13 < 2 ^ 8)
    (h14 : b14 < 2 ^ 8)
    (h15 : b15 < 2 ^ 8) :
    (List.range 16).foldl
      (fun acc i => acc ||| (([b0, b1, b2, b3, b4, b5, b6, b7, b8, b9, b10, b11, b12, b13, b14, b15].getD (15 - i) 0) <<< (8 * i))) 0
      = b0 * 2 ^ 120 + (b1 * 2 ^ 112 + (b2 * 2 ^ 104 + (b3 * 2 ^ 96 + (b4 * 2 ^ 88 + (b5 * 2 ^ 80 + (b6 * 2 ^ 72 + (b7 * 2 ^ 64 + (b8 * 2 ^ 56 + (b9 * 2 ^ 48 + (b10 * 2 ^ 40 + (b11 * 2 ^ 32 + (b12 * 2 ^ 24 + (b13 * 2 ^ 16 + (b14 * 2 ^ 8 + (b15))))))))))))))) := by
  show (((((((((((((((0 ||| b15 <<< 0) ||| b14 <<< 8) ||| b13 <<< 16) ||| b12 <<< 24) ||| b11 <<< 32) ||| b10 <<< 40) ||| b9 <<< 48) ||| b8 <<< 56) ||| b7 <<< 64) ||| b6 <<< 72) ||| b5 <<< 80) ||| b4 <<< 88) ||| b3 <<< 96) ||| b2 <<< 104) ||| b1 <<< 112) ||| b0 <<< 120 = b0 * 2 ^ 120 + (b1 * 2 ^ 112 + (b2 * 2 ^ 104 + (b3 * 2 ^ 96 + (b4 * 2 ^ 88 + (b5 * 2 ^ 80 + (b6 * 2 ^ 72 + (b7 * 2 ^ 64 + (b8 * 2 ^ 56 + (b9 * 2 ^ 48 + (b10 * 2 ^ 40 + (b11 * 2 ^ 32 + (b12 * 2 ^ 24 + (b13 * 2 ^ 16 + (b14 * 2 ^ 8 + (b15)))))))))))))))
  rw [Nat.shiftLeft_zero, Nat.zero_or]
  rw [Nat.lor_comm (b15) (b14 <<< 8),
    shiftLeft_lor_eq_add b14 (b15) 8 (by omega)]
  rw [Nat.lor_comm (b14 * 2 ^ 8 + (b15)) (b13 <<< 16),
    shiftLeft_lor_eq_add b13 (b14 * 2 ^ 8 + (b15)) 16 (by omega)]
  rw [Nat.lor_comm (b13 * 2 ^ 16 + (b14 * 2 ^ 8 + (b15))) (b12 <<< 24),
    shiftLeft_lor_eq_add b12 (b13 * 2 ^ 16 + (b14 * 2 ^ 8 + (b15))) 24 (by omega)]
  rw [Nat.lor_comm (b12 * 2 ^ 24 + (b13 * 2 ^ 16 + (b14 * 2 ^ 8 + (b15)))) (b11 <<< 32),
    shiftLeft_lor_eq_add b11 (b12 * 2 ^ 24 + (b13 * 2 ^ 16 + (b14 * 2 ^ 8 + (b15)))) 32 (by omega)]
  rw [Nat.lor_comm (b11 * 2 ^ 32 + (b12 * 2 ^ 24 + (b13 * 2 ^ 16 + (b14 * 2 ^ 8 + (b15))))) (b10 <<< 40),
    shiftLeft_lor_eq_add b10 (b11 * 2 ^ 32 + (b12 * 2 ^ 24 + (b13 * 2 ^ 16 + (b14 * 2 ^ 8 + (b15))))) 40 (by omega)]
  rw [Nat.lor_comm (b10 * 2 ^ 40 + (b11 * 2 ^ 32 + (b12 * 2 ^ 24 + (b13 * 2 ^ 16 + (b14 * 2 ^ 8 + (b15)))))) (b9 <<< 48),
    shiftLeft_lor_eq_add b9 (b10 * 2 ^ 40 + (b11 * 2 ^ 32 + (b12 * 2 ^ 24 + (b13 * 2 ^ 16 + (b14 * 2 ^ 8 + (b15)))))) 48 (by omega)]
  rw [Nat.lor_comm (b9 * 2 ^ 48 + (b10 * 2 ^ 40 + (b11 * 2 ^ 32 + (b12 * 2 ^ 24 + (b13 * 2 ^ 16 + (b14 * 2 ^ 8 + (b15))))))) (b8 <<< 56),
    shiftLeft_lor_eq_add b8 (b9 * 2 ^ 48 + (b10 * 2 ^ 40 + (b11 * 2 ^ 32 + (b12 * 2 ^ 24 + (b13 * 2 ^ 16 + (b14 * 2 ^ 8 + (b15))))))) 56 (by omega)]
  rw [Nat.lor_comm (b8 * 2 ^ 56 + (b9 * 2 ^ 48 + (b10 * 2 ^ 40 + (b11 * 2 ^ 32 + (b12 * 2 ^ 24 + (b13 * 2 ^ 16 + (b14 * 2 ^ 8 + (b15)))))))) (b7 <<< 64),
    shiftLeft_lor_eq_add b7 (b8 * 2 ^ 56 + (b9 * 2 ^ 48 + (b10 * 2 ^ 40 + (b11 * 2 ^ 32 + (b12 * 2 ^ 24 + (b13 * 2 ^ 16 + (b14 * 2 ^ 8 + (b15)))))))) 64 (by omega)]
  rw [Nat.lor_comm (b7 * 2 ^ 64 + (b8 * 2 ^ 56 + (b9 * 2 ^ 48 + (b10 * 2 ^ 40 + (b11 * 2 ^ 32 + (b12 * 2 ^ 24 + (b13 * 2 ^ 16 + (b14 * 2 ^ 8 + (b15))))))))) (b6 <<< 72),
    shiftLeft_lor_eq_add b6 (b7 * 2 ^ 64 + (b8 * 2 ^ 56 + (b9 * 2 ^ 48 + (b10 * 2 ^ 40 + (b11 * 2 ^ 32 + (b12 * 2 ^ 24 + (b13 * 2 ^ 16 + (b14 * 2 ^ 8 + (b15))))))))) 72 (by omega)]
  rw [Nat.lor_comm (b6 * 2 ^ 72 + (b7 * 2 ^ 64 + (b8 * 2 ^ 56 + (b9 * 2 ^ 48 + (b10 * 2 ^ 40 + (b11 * 2 ^ 32 + (b12 * 2 ^ 24 + (b13 * 2 ^ 16 + (b14 * 2 ^ 8 + (b15)))))))))) (b5 <<< 80),
    shiftLeft_lor_eq_add b5 (b6 * 2 ^ 72 + (b7 * 2 ^ 64 + (b8 * 2 ^ 56 + (b9 * 2 ^ 48 + (b10 * 2 ^ 40 + (b11 * 2 ^ 32 + (b12 * 2 ^ 24 + (b13 * 2 ^ 16 + (b14 * 2 ^ 8 + (b15)))))))))) 80 (by omega)]
  rw [Nat.lor_comm (b5 * 2 ^ 80 + (b6 * 2 ^ 72 + (b7 * 2 ^ 64 + (b8 * 2 ^ 56 + (b9 * 2 ^ 48 + (b10 * 2 ^ 40 + (b11 * 2 ^ 32 + (b12 * 2 ^ 24 + (b13 * 2 ^ 16 + (b14 * 2 ^ 8 + (b15))))))))))) (b4 <<< 88),
    shiftLeft_lor_eq_add b4 (b5 * 2 ^ 80 + (b6 * 2 ^ 72 + (b7 * 2 ^ 64 + (b8 * 2 ^ 56 + (b9 * 2 ^ 48 + (b10 * 2 ^ 40 + (b11 * 2 ^ 32 + (b12 * 2 ^ 24 + (b13 * 2 ^ 16 + (b14 * 2 ^ 8 + (b15))))))))))) 88 (by omega)]
  rw [Nat.lor_comm (b4 * 2 ^ 88 + (b5 * 2 ^ 80 + (b6 * 2 ^ 72 + (b7 * 2 ^ 64 + (b8 * 2 ^ 56 + (b9 * 2 ^ 48 + (b10 * 2 ^ 40 + (b11 * 2 ^ 32 + (b12 * 2 ^ 24 + (b13 * 2 ^ 16 + (b14 * 2 ^ 8 + (b15)))))))))))) (b3 <<< 96),
    shiftLeft_lor_eq_add b3 (b4 * 2 ^ 88 + (b5 * 2 ^ 80 + (b6 * 2 ^ 72 + (b7 * 2 ^ 64 + (b8 * 2 ^ 56 + (b9 * 2 ^ 48 + (b10 * 2 ^ 40 + (b11 * 2 ^ 32 + (b12 * 2 ^ 24 + (b13 * 2 ^ 16 + (b14 * 2 ^ 8 + (b15)))))))))))) 96 (by omega)]
  rw [Nat.lor_comm (b3 * 2 ^ 96 + (b4 * 2 ^ 88 + (b5 * 2 ^ 80 + (b6 * 2 ^ 72 + (b7 * 2 ^ 64 + (b8 * 2 ^ 56 + (b9 * 2 ^ 48 + (b10 * 2 ^ 40 + (b11 * 2 ^ 32 + (b12 * 2 ^ 24 + (b13 * 2 ^ 16 + (b14 * 2 ^ 8 + (b15))))))))))))) (b2 <<< 104),
    shiftLeft_lor_eq_add b2 (b3 * 2 ^ 96 + (b4 * 2 ^ 88 + (b5 * 2 ^ 80 + (b6 * 2 ^ 72 + (b7 * 2 ^ 64 + (b8 * 2 ^ 56 + (b9 * 2 ^ 48 + (b10 * 2 ^ 40 + (b11 * 2 ^ 32 + (b12 * 2 ^ 24 + (b13 * 2 ^ 16 + (b14 * 2 ^ 8 + (b15))))))))))))) 104 (by omega)]
  rw [Nat.lor_comm (b2 * 2 ^ 104 + (b3 * 2 ^ 96 + (b4 * 2 ^ 88 + (b5 * 2 ^ 80 + (b6 * 2 ^ 72 + (b7 * 2 ^ 64 + (b8 * 2 ^ 56 + (b9 * 2 ^ 48 + (b10 * 2 ^ 40 + (b11 * 2 ^ 32 + (b12 * 2 ^ 24 + (b13 * 2 ^ 16 + (b14 * 2 ^ 8 + (b15)))))))))))))) (b1 <<< 112),
    shiftLeft_lor_eq_add b1 (b2 * 2 ^ 104 + (b3 * 2 ^ 96 + (b4 * 2 ^ 88 + (b5 * 2 ^ 80 + (b6 * 2 ^ 72 + (b7 * 2 ^ 64 + (b8 * 2 ^ 56 + (b9 * 2 ^ 48 + (b10 * 2 ^ 40 + (b11 * 2 ^ 32 + (b12 * 2 ^ 24 + (b13 * 2 ^ 16 + (b14 * 2 ^ 8 + (b15)))))))))))))) 112 (by omega)]
  rw [Nat.lor_comm (b1 * 2 ^ 112 + (b2 * 2 ^ 104 + (b3 * 2 ^ 96 + (b4 * 2 ^ 88 + (b5 * 2 ^ 80 + (b6 * 2 ^ 72 + (b7 * 2 ^ 64 + (b8 * 2 ^ 56 + (b9 * 2 ^ 48 + (b10 * 2 ^ 40 + (b11 * 2 ^ 32 + (b12 * 2 ^ 24 + (b13 * 2 ^ 16 + (b14 * 2 ^ 8 + (b15))))))))))))))) (b0 <<< 120),
    shiftLeft_lor_eq_add b0 (b1 * 2 ^ 112 + (b2 * 2 ^ 104 + (b3 * 2 ^ 96 + (b4 * 2 ^ 88 + (b5 * 2 ^ 80 + (b6 * 2 ^ 72 + (b7 * 2 ^ 64 + (b8 * 2 ^ 56 + (b9 * 2 ^ 48 + (b10 * 2 ^ 40 + (b11 * 2 ^ 32 + (b12 * 2 ^ 24 + (b13 * 2 ^ 16 + (b14 * 2 ^ 8 + (b15))))))))))))))) 120 (by omega)]

theorem joinBlocks16 (b0 b1 b2 b3 b4 b5 b6 b7 b8 b9 b10 b11 b12 b13 b14 b15 : Nat)
    (h1 : b1 < 2 ^ 8)
    (h2 : b2 < 2 ^ 8)
    (h3 : b3 < 2 ^ 8)
    (h4 : b4 < 2 ^ 8)
    (h5 : b5 < 2 ^ 8)
    (h6 : b6 < 2 ^ 8)
    (h7 : b7 < 2 ^ 8)
    (h8 : b8 < 2 ^ 8)
    (h9 : b9 < 2 ^ 8)
    (h10 : b10 < 2 ^ 8)
    (h11 : b11 < 2 ^ 8)
    (h12 : b12 < 2 ^ 8)
    (h13 : b13 < 2 ^ 8)
    (h14 : b14 < 2 ^ 8)
    (h15 : b15 < 2 ^ 8) :
    joinBlocks [b0, b1, b2, b3, b4, b5, b6, b7, b8, b9, b10, b11, b12, b13, b14, b15] 8 = (((((((((((((((b0) * 2 ^ 8 + b1) * 2 ^ 8 + b2) * 2 ^ 8 + b3) * 2 ^ 8 + b4) * 2 ^ 8 + b5) * 2 ^ 8 + b6) * 2 ^ 8 + b7) * 2 ^ 8 + b8) * 2 ^ 8 + b9) * 2 ^ 8 + b10) * 2 ^ 8 + b11) * 2 ^ 8 + b12) * 2 ^ 8 + b13) * 2 ^ 8 + b14) * 2 ^ 8 + b15 := by
  show (((((((((((((((0 <<< 8 ||| b0) <<< 8 ||| b1) <<< 8 ||| b2) <<< 8 ||| b3) <<< 8 ||| b4) <<< 8 ||| b5) <<< 8 ||| b6) <<< 8 ||| b7) <<< 8 ||| b8) <<< 8 ||| b9) <<< 8 ||| b10) <<< 8 ||| b11) <<< 8 ||| b12) <<< 8 ||| b13) <<< 8 ||| b14) <<< 8 ||| b15 = (((((((((((((((b0) * 2 ^ 8 + b1) * 2 ^ 8 + b2) * 2 ^ 8 + b3) * 2 ^ 8 + b4) * 2 ^ 8 + b5) * 2 ^ 8 + b6) * 2 ^ 8 + b7) * 2 ^ 8 + b8) * 2 ^ 8 + b9) * 2 ^ 8 + b10) * 2 ^ 8 + b11) * 2 ^ 8 + b12) * 2 ^ 8 + b13) * 2 ^ 8 + b14) * 2 ^ 8 + b15
  rw [Nat.zero_shiftLeft, Nat.zero_or]
  rw [shiftLeft_lor_eq_add (b0) b1 8 h1]
  rw [shiftLeft_lor_eq_add ((b0) * 2 ^ 8 + b1) b2 8 h2]
  rw [shiftLeft_lor_eq_add (((b0) * 2 ^ 8 + b1) * 2 ^ 8 + b2) b3 8 h3]
  rw [shiftLeft_lor_eq_add ((((b0) * 2 ^ 8 + b1) * 2 ^ 8 + b2) * 2 ^ 8 + b3) b4 8 h4]
  rw [shiftLeft_lor_eq_add (((((b0) * 2 ^ 8 + b1) * 2 ^ 8 + b2) * 2 ^ 8 + b3) * 2 ^ 8 + b4) b5 8 h5]
  rw [shiftLeft_lor_eq_add ((((((b0) * 2 ^ 8 + b1) * 2 ^ 8 + b2) * 2 ^ 8 + b3) * 2 ^ 8 + b4) * 2 ^ 8 + b5) b6 8 h6]
  rw [shiftLeft_lor_eq_add (((((((b0) * 2 ^ 8 + b1) * 2 ^ 8 + b2) * 2 ^ 8 + b3) * 2 ^ 8 + b4) * 2 ^ 8 + b5) * 2 ^ 8 + b6) b7 8 h7]
  rw [shiftLeft_lor_eq_add ((((((((b0) * 2 ^ 8 + b1) * 2 ^ 8 + b2) * 2 ^ 8 + b3) * 2 ^ 8 + b4) * 2 ^ 8 + b5) * 2 ^ 8 + b6) * 2 ^ 8 + b7) b8 8 h8]
  rw [shiftLeft_lor_eq_add (((((((((b0) * 2 ^ 8 + b1) * 2 ^ 8 + b2) * 2 ^ 8 + b3) * 2 ^ 8 + b4) * 2 ^ 8 + b5) * 2 ^ 8 + b6) * 2 ^ 8 + b7) * 2 ^ 8 + b8) b9 8 h9]
  rw [shiftLeft_lor_eq_add ((((((((((b0) * 2 ^ 8 + b1) * 2 ^ 8 + b2) * 2 ^ 8 + b3) * 2 ^ 8 + b4) * 2 ^ 8 + b5) * 2 ^ 8 + b6) * 2 ^ 8 + b7) * 2 ^ 8 + b8) * 2 ^ 8 + b9) b10 8 h10]
  rw [shiftLeft_lor_eq_add (((((((((((b0) * 2 ^ 8 + b1) * 2 ^ 8 + b2) * 2 ^ 8 + b3) * 2 ^ 8 + b4) * 2 ^ 8 + b5) * 2 ^ 8 + b6) * 2 ^ 8 + b7) * 2 ^ 8 + b8) * 2 ^ 8 + b9) * 2 ^ 8 + b10) b11 8 h11]
  rw [shiftLeft_lor_eq_add ((((((((((((b0) * 2 ^ 8 + b1) * 2 ^ 8 + b2) * 2 ^ 8 + b3) * 2 ^ 8 + b4) * 2 ^ 8 + b5) * 2 ^ 8 + b6) * 2 ^ 8 + b7) * 2 ^ 8 + b8) * 2 ^ 8 + b9) * 2 ^ 8 + b10) * 2 ^ 8 + b11) b12 8 h12]
  rw [shiftLeft_lor_eq_add (((((((((((((b0) * 2 ^ 8 + b1) * 2 ^ 8 + b2) * 2 ^ 8 + b3) * 2 ^ 8 + b4) * 2 ^ 8 + b5) * 2 ^ 8 + b6) * 2 ^ 8 + b7) * 2 ^ 8 + b8) * 2 ^ 8 + b9) * 2 ^ 8 + b10) * 2 ^ 8 + b11) * 2 ^ 8 + b12) b13 8 h13]
  rw [shiftLeft_lor_eq_add ((((((((((((((b0) * 2 ^ 8 + b1) * 2 ^ 8 + b2) * 2 ^ 8 + b3) * 2 ^ 8 + b4) * 2 ^ 8 + b5) * 2 ^ 8 + b6) * 2 ^ 8 + b7) * 2 ^ 8 + b8) * 2 ^ 8 + b9) * 2 ^ 8 + b10) * 2 ^ 8 + b11) * 2 ^ 8 + b12) * 2 ^ 8 + b13) b14 8 h14]
  rw [shiftLeft_lor_eq_add (((((((((((((((b0) * 2 ^ 8 + b1) * 2 ^ 8 + b2) * 2 ^ 8 + b3) * 2 ^ 8 + b4) * 2 ^ 8 + b5) * 2 ^ 8 + b6) * 2 ^ 8 + b7) * 2 ^ 8 + b8) * 2 ^ 8 + b9) * 2 ^ 8 + b10) * 2 ^ 8 + b11) * 2 ^ 8 + b12) * 2 ^ 8 + b13) * 2 ^ 8 + b14) b15 8 h15]

theorem lconv_list16 (b0 b1 b2 b3 b4 b5 b6 b7 b8 b9 b10 b11 b12 b13 b14 b15 : Nat) :
    littleEndianConversion [b0, b1, b2, b3, b4, b5, b6, b7, b8, b9, b10, b11, b12, b13, b14, b15]
      = [b0 ||| (b1 <<< 8) ||| (b2 <<< 16) ||| (b3 <<< 24),
         b4 ||| (b5 <<< 8) ||| (b6 <<< 16) ||| (b7 <<< 24),
         b8 ||| (b9 <<< 8) ||| (b10 <<< 16) ||| (b11 <<< 24),
         b12 ||| (b13 <<< 8) ||| (b14 <<< 16) ||| (b15 <<< 24)] := rfl

theorem invlconv_list4 (w0 w1 w2 w3 : Nat) :
    inverseLittleEndianConversion [w0, w1, w2, w3]
      = [w0 >>> 0 &&& 0xFF, w0 >>> 8 &&& 0xFF, w0 >>> 16 &&& 0xFF, w0 >>> 24 &&& 0xFF, w1 >>> 0 &&& 0xFF, w1 >>> 8 &&& 0xFF, w1 >>> 16 &&& 0xFF, w1 >>> 24 &&& 0xFF,
         w2 >>> 0 &&& 0xFF, w2 >>> 8 &&& 0xFF, w2 >>> 16 &&& 0xFF, w2 >>> 24 &&& 0xFF, w3 >>> 0 &&& 0xFF, w3 >>> 8 &&& 0xFF, w3 >>> 16 &&& 0xFF, w3 >>> 24 &&& 0xFF] := rfl

theorem lePack_eq (b0 b1 b2 b3 : Nat) (h0 : b0 < 2 ^ 8) (h1 : b1 < 2 ^ 8)
    (h2 : b2 < 2 ^ 8) :
    b0 ||| (b1 <<< 8) ||| (b2 <<< 16) ||| (b3 <<< 24)
      = ((b3 * 2 ^ 8 + b2) * 2 ^ 8 + b1) * 2 ^ 8 + b0 := by
  rw [Nat.lor_comm _ (b3 <<< 24), Nat.lor_comm _ (b2 <<< 16),
    Nat.lor_comm b0 (b1 <<< 8), shiftLeft_lor_eq_add b1 b0 8 h0,
    shiftLeft_lor_eq_add b2 _ 16 (by omega),
    shiftLeft_lor_eq_add b3 _ 24 (by omega)]
  ring

theorem byte_and_lt (x : Nat) : x &&& 0xFF < 2 ^ 8 := by
  rw [and_mask_ff]
  exact Nat.mod_lt _ (two_pow_pos 8)

theorem extract_join (l : List Nat) (hlen : l.length = 16)
    (hbnd : ∀ x ∈ l, x < 2 ^ 8) :
    extractBytesC (joinBlocks l 8) 16 = l := by
  have hlt : joinBlocks l 8 < 2 ^ 128 := by
    have h := joinBlocks_lt 8 (by norm_num) l hbnd
    rw [hlen] at h
    rw [show (2 : Nat) ^ 128 = 2 ^ (8 * 16) from by norm_num]
    exact h
  rw [extractBytesC_eq_digits8 _ hlt, ← hlen, digits8_joinBlocks l hbnd]

theorem packOutput_lconv (l : List Nat) (hlen : l.length = 16)
    (hbnd : ∀ x ∈ l, x < 2 ^ 8) :
    packOutput (littleEndianConversion l) = joinBlocks l 8 := by
  rcases l with _ | ⟨b0, l⟩
  · simp only [List.length_nil] at hlen
    omega
  rcases l with _ | ⟨b1, l⟩
  · simp only [List.length_cons, List.length_nil] at hlen
    omega
  rcases l with _ | ⟨b2, l⟩
  · simp only [List.length_cons, List.length_nil] at hlen
    omega
  rcases l with _ | ⟨b3, l⟩
  · simp only [List.length_cons, List.length_nil] at hlen
    omega
  rcases l with _ | ⟨b4, l⟩
  · simp only [List.length_cons, List.length_nil] at hlen
    omega
  rcases l with _ | ⟨b5, l⟩
  · simp only [List.length_cons, List.length_nil] at hlen
    omega
  rcases l with _ | ⟨b6, l⟩
  · simp only [List.length_cons, List.length_nil] at hlen
    omega
  rcases l with _ | ⟨b7, l⟩
  · simp only [List.length_cons, List.length_nil] at hlen
    omega
  rcases l with _ | ⟨b8, l⟩
  · simp only [List.length_cons, List.length_nil] at hlen
    omega
  rcases l with _ | ⟨b9, l⟩
  · simp only [List.length_cons, List.length_nil] at hlen
    omega
  rcases l with _ | ⟨b10, l⟩
  · simp only [List.length_cons, List.length_nil] at hlen
    omega
  rcases l with _ | ⟨b11, l⟩
  · simp only [List.length_cons, List.length_nil] at hlen
    omega
  rcases l with _ | ⟨b12, l⟩
  · simp only [List.length_cons, List.length_nil] at hlen
    omega
  rcases l with _ | ⟨b13, l⟩
  · simp only [List.length_cons, List.length_nil] at hlen
    omega
  rcases l with _ | ⟨b14, l⟩
  · simp only [List.length_cons, List.length_nil] at hlen
    omega
  rcases l with _ | ⟨b15, l⟩
  · simp only [List.length_cons, List.length_nil] at hlen
    omega
  have hl0 : l.length = 0 := by
    simp only [List.length_cons, List.length_nil] at hlen
    omega
  obtain rfl : l = [] := List.length_eq_zero.mp hl0
  have hb0 : b0 < 2 ^ 8 := hbnd b0 (by simp)
  have hb1 : b1 < 2 ^ 8 := hbnd b1 (by simp)
  have hb2 : b2 < 2 ^ 8 := hbnd b2 (by simp)
  have hb3 : b3 < 2 ^ 8 := hbnd b3 (by simp)
  have hb4 : b4 < 2 ^ 8 := hbnd b4 (by simp)
  have hb5 : b5 < 2 ^ 8 := hbnd b5 (by simp)
  have hb6 : b6 < 2 ^ 8 := hbnd b6 (by simp)
  have hb7 : b7 < 2 ^ 8 := hbnd b7 (by simp)
  have hb8 : b8 < 2 ^ 8 := hbnd b8 (by simp)
  have hb9 : b9 < 2 ^ 8 := hbnd b9 (by simp)
  have hb10 : b10 < 2 ^ 8 := hbnd b10 (by simp)
  have hb11 : b11 < 2 ^ 8 := hbnd b11 (by simp)
  have hb12 : b12 < 2 ^ 8 := hbnd b12 (by simp)
  have hb13 : b13 < 2 ^ 8 := hbnd b13 (by simp)
  have hb14 : b14 < 2 ^ 8 := hbnd b14 (by simp)
  have hb15 : b15 < 2 ^ 8 := hbnd b15 (by simp)
  rw [lconv_list16,
    lePack_eq b0 b1 b2 b3 hb0 hb1 hb2,
    lePack_eq b4 b5 b6 b7 hb4 hb5 hb6,
    lePack_eq b8 b9 b10 b11 hb8 hb9 hb10,
    lePack_eq b12 b13 b14 b15 hb12 hb13 hb14]
  simp only [packOutput]
  rw [invlconv_list4]
  have e0 : (((b3 * 2 ^ 8 + b2) * 2 ^ 8 + b1) * 2 ^ 8 + b0) >>> 0 &&& 0xFF = b0 := by
    rw [Nat.shiftRight_eq_div_pow, and_mask_ff]
    omega
  have e1 : (((b3 * 2 ^ 8 + b2) * 2 ^ 8 + b1) * 2 ^ 8 + b0) >>> 8 &&& 0xFF = b1 := by
    rw [Nat.shiftRight_eq_div_pow, and_mask_ff]
    omega
  have e2 : (((b3 * 2 ^ 8 + b2) * 2 ^ 8 + b1) * 2 ^ 8 + b0) >>> 16 &&& 0xFF = b2 := by
    rw [Nat.shiftRight_eq_div_pow, and_mask_ff]
    omega
  have e3 : (((b3 * 2 ^ 8 + b2) * 2 ^ 8 + b1) * 2 ^ 8 + b0) >>> 24 &&& 0xFF = b3 := by
    rw [Nat.shiftRight_eq_div_pow, and_mask_ff]
    omega
  have e4 : (((b7 * 2 ^ 8 + b6) * 2 ^ 8 + b5) * 2 ^ 8 + b4) >>> 0 &&& 0xFF = b4 := by
    rw [Nat.shiftRight_eq_div_pow, and_mask_ff]
    omega
  have e5 : (((b7 * 2 ^ 8 + b6) * 2 ^ 8 + b5) * 2 ^ 8 + b4) >>> 8 &&& 0xFF = b5 := by
    rw [Nat.shiftRight_eq_div_pow, and_mask_ff]
    omega
  have e6 : (((b7 * 2 ^ 8 + b6) * 2 ^ 8 + b5) * 2 ^ 8 + b4) >>> 16 &&& 0xFF = b6 := by
    rw [Nat.shiftRight_eq_div_pow, and_mask_ff]
    omega
  have e7 : (((b7 * 2 ^ 8 + b6) * 2 ^ 8 + b5) * 2 ^ 8 + b4) >>> 24 &&& 0xFF = b7 := by
    rw [Nat.shiftRight_eq_div_pow, and_mask_ff]
    omega
  have e8 : (((b11 * 2 ^ 8 + b10) * 2 ^ 8 + b9) * 2 ^ 8 + b8) >>> 0 &&& 0xFF = b8 := by
    rw [Nat.shiftRight_eq_div_pow, and_mask_ff]
    omega
  have e9 : (((b11 * 2 ^ 8 + b10) * 2 ^ 8 + b9) * 2 ^ 8 + b8) >>> 8 &&& 0xFF = b9 := by
    rw [Nat.shiftRight_eq_div_pow, and_mask_ff]
    omega
  have e10 : (((b11 * 2 ^ 8 + b10) * 2 ^ 8 + b9) * 2 ^ 8 + b8) >>> 16 &&& 0xFF = b10 := by
    rw [Nat.shiftRight_eq_div_pow, and_mask_ff]
    omega
  have e11 : (((b11 * 2 ^ 8 + b10) * 2 ^ 8 + b9) * 2 ^ 8 + b8) >>> 24 &&& 0xFF = b11 := by
    rw [Nat.shiftRight_eq_div_pow, and_mask_ff]
    omega
  have e12 : (((b15 * 2 ^ 8 + b14) * 2 ^ 8 + b13) * 2 ^ 8 + b12) >>> 0 &&& 0xFF = b12 := by
    rw [Nat.shiftRight_eq_div_pow, and_mask_ff]
    omega
  have e13 : (((b15 * 2 ^ 8 + b14) * 2 ^ 8 + b13) * 2 ^ 8 + b12) >>> 8 &&& 0xFF = b13 := by
    rw [Nat.shiftRight_eq_div_pow, and_mask_ff]
    omega
  have e14 : (((b15 * 2 ^ 8 + b14) * 2 ^ 8 + b13) * 2 ^ 8 + b12) >>> 16 &&& 0xFF = b14 := by
    rw [Nat.shiftRight_eq_div_pow, and_mask_ff]
    omega
  have e15 : (((b15 * 2 ^ 8 + b14) * 2 ^ 8 + b13) * 2 ^ 8 + b12) >>> 24 &&& 0xFF = b15 := by
    rw [Nat.shiftRight_eq_div_pow, and_mask_ff]
    omega
  rw [e0, e1, e2, e3, e4, e5, e6, e7, e8, e9, e10, e11, e12, e13, e14, e15]
  rw [fold16_or b0 b1 b2 b3 b4 b5 b6 b7 b8 b9 b10 b11 b12 b13 b14 b15
      hb0 hb1 hb2 hb3 hb4 hb5 hb6 hb7 hb8 hb9 hb10 hb11 hb12 hb13 hb14 hb15,
    joinBlocks16 b0 b1 b2 b3 b4 b5 b6 b7 b8 b9 b10 b11 b12 b13 b14 b15
      hb1 hb2 hb3 hb4 hb5 hb6 hb7 hb8 hb9 hb10 hb11 hb12 hb13 hb14 hb15]
  omega

theorem lconv_invlconv (w0 w1 w2 w3 : Nat) (h0 : w0 < 2 ^ 32) (h1 : w1 < 2 ^ 32)
    (h2 : w2 < 2 ^ 32) (h3 : w3 < 2 ^ 32) :
    littleEndianConversion (inverseLittleEndianConversion [w0, w1, w2, w3])
      = [w0, w1, w2, w3] := by
  rw [invlconv_list4, lconv_list16]
  have c0 : w0 >>> 0 &&& 0xFF ||| ((w0 >>> 8 &&& 0xFF) <<< 8)
      ||| ((w0 >>> 16 &&& 0xFF) <<< 16) ||| ((w0 >>> 24 &&& 0xFF) <<< 24) = w0 := by
    rw [lePack_eq _ _ _ _ (byte_and_lt _) (byte_and_lt _) (byte_and_lt _),
      Nat.shiftRight_eq_div_pow, Nat.shiftRight_eq_div_pow,
      Nat.shiftRight_eq_div_pow, Nat.shiftRight_eq_div_pow,
      and_mask_ff, and_mask_ff, and_mask_ff, and_mask_ff]
    omega
  have c1 : w1 >>> 0 &&& 0xFF ||| ((w1 >>> 8 &&& 0xFF) <<< 8)
      ||| ((w1 >>> 16 &&& 0xFF) <<< 16) ||| ((w1 >>> 24 &&& 0xFF) <<< 24) = w1 := by
    rw [lePack_eq _ _ _ _ (byte_and_lt _) (byte_and_lt _) (byte_and_lt _),
      Nat.shiftRight_eq_div_pow, Nat.shiftRight_eq_div_pow,
      Nat.shiftRight_eq_div_pow, Nat.shiftRight_eq_div_pow,
      and_mask_ff, and_mask_ff, and_mask_ff, and_mask_ff]
    omega
  have c2 : w2 >>> 0 &&& 0xFF ||| ((w2 >>> 8 &&& 0xFF) <<< 8)
      ||| ((w2 >>> 16 &&& 0xFF) <<< 16) ||| ((w2 >>> 24 &&& 0xFF) <<< 24) = w2 := by
    rw [lePack_eq _ _ _ _ (byte_and_lt _) (byte_and_lt _) (byte_and_lt _),
      Nat.shiftRight_eq_div_pow, Nat.shiftRight_eq_div_pow,
      Nat.shiftRight_eq_div_pow, Nat.shiftRight_eq_div_pow,
      and_mask_ff, and_mask_ff, and_mask_ff, and_mask_ff]
    omega
  have c3 : w3 >>> 0 &&& 0xFF ||| ((w3 >>> 8 &&& 0xFF) <<< 8)
      ||| ((w3 >>> 16 &&& 0xFF) <<< 16) ||| ((w3 >>> 24 &&& 0xFF) <<< 24) = w3 := by
    rw [lePack_eq _ _ _ _ (byte_and_lt _) (byte_and_lt _) (byte_and_lt _),
      Nat.shiftRight_eq_div_pow, Nat.shiftRight_eq_div_pow,
      Nat.shiftRight_eq_div_pow, Nat.shiftRight_eq_div_pow,
      and_mask_ff, and_mask_ff, and_mask_ff, and_mask_ff]
    omega
  rw [c0, c1, c2, c3]

theorem extract_packOutput (w0 w1 w2 w3 : Nat) :
    extractBytesC (packOutput [w0, w1, w2, w3]) 16
      = inverseLittleEndianConversion [w0, w1, w2, w3] := by
  have hpack : packOutput [w0, w1, w2, w3]
      = joinBlocks (inverseLittleEndianConversion [w0, w1, w2, w3]) 8 := by
    simp only [packOutput]
    rw [invlconv_list4]
    rw [fold16_or _ _ _ _ _ _ _ _ _ _ _ _ _ _ _ _
        (byte_and_lt _) (byte_and_lt _) (byte_and_lt _) (byte_and_lt _)
        (byte_and_lt _) (byte_and_lt _) (byte_and_lt _) (byte_and_lt _)
        (byte_and_lt _) (byte_and_lt _) (byte_and_lt _) (byte_and_lt _)
        (byte_and_lt _) (byte_and_lt _) (byte_and_lt _) (byte_and_lt _),
      joinBlocks16 _ _ _ _ _ _ _ _ _ _ _ _ _ _ _ _
        (byte_and_lt _) (byte_and_lt _) (byte_and_lt _)
        (byte_and_lt _) (byte_and_lt _) (byte_and_lt _) (byte_and_lt _)
        (byte_and_lt _) (byte_and_lt _) (byte_and_lt _) (byte_and_lt _)
        (byte_and_lt _) (byte_and_lt _) (byte_and_lt _) (byte_and_lt _)]
    omega
  rw [hpack, invlconv_list4]
  refine extract_join _ ?_ ?_
  · rfl
  intro x hx
  simp only [List.mem_cons, List.not_mem_nil, or_false] at hx
  rcases hx with h | h | h | h | h | h | h | h | h | h | h | h | h | h | h | h
  · rw [h]
    exact byte_and_lt _
  · rw [h]
    exact byte_and_lt _
  · rw [h]
    exact byte_and_lt _
  · rw [h]
    exact byte_and_lt _
  · rw [h]
    exact byte_and_lt _
  · rw [h]
    exact byte_and_lt _
  · rw [h]
    exact byte_and_lt _
  · rw [h]
    exact byte_and_lt _
  · rw [h]
    exact byte_and_lt _
  · rw [h]
    exact byte_and_lt _
  · rw [h]
    exact byte_and_lt _
  · rw [h]
    exact byte_and_lt _
  · rw [h]
    exact byte_and_lt _
  · rw [h]
    exact byte_and_lt _
  · rw [h]
    exact byte_and_lt _
  · rw [h]
    exact byte_and_lt _

/-! ### Round cancellation and the block round trip -/

def swapS (s : State4) : State4 := (s.2.2.1, s.2.2.2, s.1, s.2.1)

def WS (s : State4) : Prop :=
  s.1 < 2 ^ 32 ∧ s.2.1 < 2 ^ 32 ∧ s.2.2.1 < 2 ^ 32 ∧ s.2.2.2 < 2 ^ 32

theorem step_cancel (ks : KeySchedule) (r : Nat) (s : State4) (hs : WS s) :
    decRoundStep ks (swapS (encRoundStep ks s r)) r = swapS s := by
  obtain ⟨a, b, c, d⟩ := s
  obtain ⟨ha, hb, hc, hd⟩ :
      a < 2 ^ 32 ∧ b < 2 ^ 32 ∧ c < 2 ^ 32 ∧ d < 2 ^ 32 := hs
  show (ROTL (ROTR (c ^^^ (F a b r ks).1) 1) 1 ^^^ (F a b r ks).1,
        ROTR ((ROTL d 1 ^^^ (F a b r ks).2) ^^^ (F a b r ks).2) 1, a, b)
      = (c, d, a, b)
  rw [IDEA.xor_cancel_right (ROTL d 1) (F a b r ks).2, ROTR_ROTL d hd,
    ROTL_ROTR (c ^^^ (F a b r ks).1)
      (Nat.xor_lt_two_pow hc (lt_trans (F_fst_lt a b r ks) (by norm_num))),
    IDEA.xor_cancel_right c (F a b r ks).1]

theorem encRoundStep_WS (ks : KeySchedule) (r : Nat) (s : State4) (hs : WS s) :
    WS (encRoundStep ks s r) := by
  obtain ⟨a, b, c, d⟩ := s
  obtain ⟨ha, hb, hc, hd⟩ :
      a < 2 ^ 32 ∧ b < 2 ^ 32 ∧ c < 2 ^ 32 ∧ d < 2 ^ 32 := hs
  exact ⟨ROTR_lt _ _,
    Nat.xor_lt_two_pow (ROTL_lt _ _) (lt_trans (F_snd_lt a b r ks) (by norm_num)),
    ha, hb⟩

theorem encFold_WS (ks : KeySchedule) :
    ∀ (L : List Nat) (s : State4), WS s → WS (L.foldl (encRoundStep ks) s) := by
  intro L
  induction L with
  | nil => intro s hs; exact hs
  | cons r L ih =>
    intro s hs
    exact ih _ (encRoundStep_WS ks r s hs)

theorem fold_cancel (ks : KeySchedule) :
    ∀ (L : List Nat) (s : State4), WS s →
      (L.reverse).foldl (decRoundStep ks) (swapS (L.foldl (encRoundStep ks) s))
        = swapS s := by
  intro L
  induction L using List.reverseRecOn with
  | nil =>
    intro s hs
    rfl
  | append_singleton L r ih =>
    intro s hs
    rw [List.foldl_append, List.foldl_cons, List.foldl_nil, List.reverse_append,
      List.reverse_singleton, List.singleton_append, List.foldl_cons,
      step_cancel ks r _ (encFold_WS ks L s hs)]
    exact ih s hs

theorem dec_fold_eq (ks : KeySchedule) (t : State4) :
    (List.range 16).foldl (fun s rr => decRoundStep ks s (15 - rr)) t
      = ((List.range 16).reverse).foldl (decRoundStep ks) t := by
  have h1 : (List.range 16).map (fun rr => 15 - rr) = (List.range 16).reverse := rfl
  calc (List.range 16).foldl (fun s rr => decRoundStep ks s (15 - rr)) t
      = ((List.range 16).map (fun rr => 15 - rr)).foldl (decRoundStep ks) t := by
        rw [List.foldl_map]
    _ = ((List.range 16).reverse).foldl (decRoundStep ks) t := by rw [h1]

theorem inputWhiten_list (p0 p1 p2 p3 : Nat) (ks : KeySchedule) :
    inputWhiten [p0, p1, p2, p3] ks
      = [p0 ^^^ ks.1.getD 0 0, p1 ^^^ ks.1.getD 1 0, p2 ^^^ ks.1.getD 2 0,
         p3 ^^^ ks.1.getD 3 0] := rfl

theorem outputWhiten_list (p0 p1 p2 p3 : Nat) (ks : KeySchedule) :
    outputWhiten [p0, p1, p2, p3] ks
      = [p0 ^^^ ks.1.getD 4 0, p1 ^^^ ks.1.getD 5 0, p2 ^^^ ks.1.getD 6 0,
         p3 ^^^ ks.1.getD 7 0] := rfl

theorem lconv_charG (p : List Nat) :
    littleEndianConversion p
      = [p.getD 0 0 ||| (p.getD 1 0 <<< 8) ||| (p.getD 2 0 <<< 16) ||| (p.getD 3 0 <<< 24),
         p.getD 4 0 ||| (p.getD 5 0 <<< 8) ||| (p.getD 6 0 <<< 16) ||| (p.getD 7 0 <<< 24),
         p.getD 8 0 ||| (p.getD 9 0 <<< 8) ||| (p.getD 10 0 <<< 16) ||| (p.getD 11 0 <<< 24),
         p.getD 12 0 ||| (p.getD 13 0 <<< 8) ||| (p.getD 14 0 <<< 16) ||| (p.getD 15 0 <<< 24)]
      := rfl

theorem invlconv_charG (C : List Nat) :
    inverseLittleEndianConversion C
      = [C.getD 0 0 >>> 0 &&& 0xFF, C.getD 0 0 >>> 8 &&& 0xFF,
         C.getD 0 0 >>> 16 &&& 0xFF, C.getD 0 0 >>> 24 &&& 0xFF,
         C.getD 1 0 >>> 0 &&& 0xFF, C.getD 1 0 >>> 8 &&& 0xFF,
         C.getD 1 0 >>> 16 &&& 0xFF, C.getD 1 0 >>> 24 &&& 0xFF,
         C.getD 2 0 >>> 0 &&& 0xFF, C.getD 2 0 >>> 8 &&& 0xFF,
         C.getD 2 0 >>> 16 &&& 0xFF, C.getD 2 0 >>> 24 &&& 0xFF,
         C.getD 3 0 >>> 0 &&& 0xFF, C.getD 3 0 >>> 8 &&& 0xFF,
         C.getD 3 0 >>> 16 &&& 0xFF, C.getD 3 0 >>> 24 &&& 0xFF] := rfl

theorem packOutput_lt (ws : List Nat) : packOutput ws < 2 ^ 128 := by
  simp only [packOutput]
  rw [invlconv_charG ws,
    fold16_or _ _ _ _ _ _ _ _ _ _ _ _ _ _ _ _
      (byte_and_lt _) (byte_and_lt _) (byte_and_lt _) (byte_and_lt _)
      (byte_and_lt _) (byte_and_lt _) (byte_and_lt _) (byte_and_lt _)
      (byte_and_lt _) (byte_and_lt _) (byte_and_lt _) (byte_and_lt _)
      (byte_and_lt _) (byte_and_lt _) (byte_and_lt _) (byte_and_lt _)]
  have b0 := byte_and_lt (ws.getD 0 0 >>> 0)
  have b1 := byte_and_lt (ws.getD 0 0 >>> 8)
  have b2 := byte_and_lt (ws.getD 0 0 >>> 16)
  have b3 := byte_and_lt (ws.getD 0 0 >>> 24)
  have b4 := byte_and_lt (ws.getD 1 0 >>> 0)
  have b5 := byte_and_lt (ws.getD 1 0 >>> 8)
  have b6 := byte_and_lt (ws.getD 1 0 >>> 16)
  have b7 := byte_and_lt (ws.getD 1 0 >>> 24)
  have b8 := byte_and_lt (ws.getD 2 0 >>> 0)
  have b9 := byte_and_lt (ws.getD 2 0 >>> 8)
  have b10 := byte_and_lt (ws.getD 2 0 >>> 16)
  have b11 := byte_and_lt (ws.getD 2 0 >>> 24)
  have b12 := byte_and_lt (ws.getD 3 0 >>> 0)
  have b13 := byte_and_lt (ws.getD 3 0 >>> 8)
  have b14 := byte_and_lt (ws.getD 3 0 >>> 16)
  have b15 := byte_and_lt (ws.getD 3 0 >>> 24)
  omega

theorem encryptBlock_lt (b : Nat) (ks : KeySchedule) : encryptBlock b ks < 2 ^ 128 := by
  simp only [encryptBlock]
  exact packOutput_lt _

theorem tupleOfList4 (x0 x1 x2 x3 : Nat) :
    ((([x0, x1, x2, x3] : List Nat).getD 0 0, ([x0, x1, x2, x3] : List Nat).getD 1 0,
      ([x0, x1, x2, x3] : List Nat).getD 2 0, ([x0, x1, x2, x3] : List Nat).getD 3 0)
      : State4)
      = (x0, x1, x2, x3) := rfl

theorem getD8_lt (l : List Nat) (hbnd : ∀ x ∈ l, x < 2 ^ 8) (i : Nat) :
    l.getD i 0 < 2 ^ 8 := by
  by_cases hi : i < l.length
  · rw [List.getD_eq_getElem _ 0 hi]
    exact hbnd _ (List.getElem_mem hi)
  · rw [List.getD_eq_default _ 0 (by omega)]
    exact two_pow_pos 8

/-- Block-level TwoFish inverse: for every key, decryption of an encrypted
128-bit block under the schedule generated from that key restores the
block. -/
theorem twofish_block_roundtrip (key v : Nat) (hv : v < 2 ^ 128) :
    decryptBlock (encryptBlock v (generateKeySchedule key))
      (generateKeySchedule key) = v := by
  set ks := generateKeySchedule key with hks
  have hK : ∀ i, ks.1.getD i 0 < 2 ^ 32 := fun i => K_getD_lt key i
  have hlen : (extractBytesC v 16).length = 16 := extractBytesC_length v hv
  have hbnd : ∀ x ∈ extractBytesC v 16, x < 2 ^ 8 := extractBytesC_mem_lt v
  have hg : ∀ i, (extractBytesC v 16).getD i 0 < 2 ^ 8 := getD8_lt _ hbnd
  have hP := lconv_charG (extractBytesC v 16)
  set p0 := (extractBytesC v 16).getD 0 0 ||| ((extractBytesC v 16).getD 1 0 <<< 8)
    ||| ((extractBytesC v 16).getD 2 0 <<< 16) ||| ((extractBytesC v 16).getD 3 0 <<< 24)
    with hp0
  set p1 := (extractBytesC v 16).getD 4 0 ||| ((extractBytesC v 16).getD 5 0 <<< 8)
    ||| ((extractBytesC v 16).getD 6 0 <<< 16) ||| ((extractBytesC v 16).getD 7 0 <<< 24)
    with hp1
  set p2 := (extractBytesC v 16).getD 8 0 ||| ((extractBytesC v 16).getD 9 0 <<< 8)
    ||| ((extractBytesC v 16).getD 10 0 <<< 16) ||| ((extractBytesC v 16).getD 11 0 <<< 24)
    with hp2
  set p3 := (extractBytesC v 16).getD 12 0 ||| ((extractBytesC v 16).getD 13 0 <<< 8)
    ||| ((extractBytesC v 16).getD 14 0 <<< 16) ||| ((extractBytesC v 16).getD 15 0 <<< 24)
    with hp3
  have h0 : p0 < 2 ^ 32 := by
    rw [hp0, lePack_eq _ _ _ _ (hg 0) (hg 1) (hg 2)]
    have e0 := hg 0
    have e1 := hg 1
    have e2 := hg 2
    have e3 := hg 3
    omega
  have h1 : p1 < 2 ^ 32 := by
    rw [hp1, lePack_eq _ _ _ _ (hg 4) (hg 5) (hg 6)]
    have e0 := hg 4
    have e1 := hg 5
    have e2 := hg 6
    have e3 := hg 7
    omega
  have h2 : p2 < 2 ^ 32 := by
    rw [hp2, lePack_eq _ _ _ _ (hg 8) (hg 9) (hg 10)]
    have e0 := hg 8
    have e1 := hg 9
    have e2 := hg 10
    have e3 := hg 11
    omega
  have h3 : p3 < 2 ^ 32 := by
    rw [hp3, lePack_eq _ _ _ _ (hg 12) (hg 13) (hg 14)]
    have e0 := hg 12
    have e1 := hg 13
    have e2 := hg 14
    have e3 := hg 15
    omega
  simp only [encryptBlock, decryptBlock]
  rw [hP, inputWhiten_list p0 p1 p2 p3 ks, tupleOfList4]
  set s0 : State4 := (p0 ^^^ ks.1.getD 0 0, p1 ^^^ ks.1.getD 1 0,
    p2 ^^^ ks.1.getD 2 0, p3 ^^^ ks.1.getD 3 0) with hs0def
  have hs0 : WS s0 := by
    rw [hs0def]
    exact ⟨Nat.xor_lt_two_pow h0 (hK 0), Nat.xor_lt_two_pow h1 (hK 1),
      Nat.xor_lt_two_pow h2 (hK 2), Nat.xor_lt_two_pow h3 (hK 3)⟩
  set T := (List.range 16).foldl (encRoundStep ks) s0 with hT
  have hTW : WS T := by
    rw [hT]
    exact encFold_WS ks _ s0 hs0
  obtain ⟨hT1, hT2, hT3, hT4⟩ :
      T.1 < 2 ^ 32 ∧ T.2.1 < 2 ^ 32 ∧ T.2.2.1 < 2 ^ 32 ∧ T.2.2.2 < 2 ^ 32 := hTW
  rw [outputWhiten_list, extract_packOutput,
    lconv_invlconv _ _ _ _ (Nat.xor_lt_two_pow hT3 (hK 4))
      (Nat.xor_lt_two_pow hT4 (hK 5)) (Nat.xor_lt_two_pow hT1 (hK 6))
      (Nat.xor_lt_two_pow hT2 (hK 7)),
    outputWhiten_list,
    IDEA.xor_cancel_right T.2.2.1 (ks.1.getD 4 0),
    IDEA.xor_cancel_right T.2.2.2 (ks.1.getD 5 0),
    IDEA.xor_cancel_right T.1 (ks.1.getD 6 0),
    IDEA.xor_cancel_right T.2.1 (ks.1.getD 7 0),
    tupleOfList4,
    show ((T.2.2.1, T.2.2.2, T.1, T.2.1) : State4) = swapS T from rfl,
    dec_fold_eq ks (swapS T), hT, fold_cancel ks (List.range 16) s0 hs0,
    inputWhiten_list, hs0def]
  show packOutput [(p0 ^^^ ks.1.getD 0 0) ^^^ ks.1.getD 0 0,
    (p1 ^^^ ks.1.getD 1 0) ^^^ ks.1.getD 1 0,
    (p2 ^^^ ks.1.getD 2 0) ^^^ ks.1.getD 2 0,
    (p3 ^^^ ks.1.getD 3 0) ^^^ ks.1.getD 3 0] = v
  rw [IDEA.xor_cancel_right, IDEA.xor_cancel_right, IDEA.xor_cancel_right,
    IDEA.xor_cancel_right, ← hP, packOutput_lconv _ hlen hbnd,
    joinBlocks_extractBytesC v]

/-- Conditional TwoFish pipeline round trip: holds whenever the leading
ciphertext block is nonzero (the short-block quirk of the splitter). -/
theorem twofish_pipeline_roundtrip (blob hk : Nat)
    (hhead : (((splitIntoBlocks blob 128).map
        (fun b => encryptBlock b (generateKeySchedule (hk &&& BIT128)))).headD 1)
      ≠ 0) :
    twofishDecrypt (twofishEncrypt blob hk) hk = blob := by
  set ks := generateKeySchedule (hk &&& BIT128) with hksdef
  set bs := splitIntoBlocks blob 128 with hbs
  set cs := bs.map (fun b => encryptBlock b ks) with hcs
  have hbs_lt : ∀ b ∈ bs, b < 2 ^ 128 := splitIntoBlocks_lt blob 128 (by norm_num)
  have hcs_lt : ∀ c ∈ cs, c < 2 ^ 128 := by
    intro c hcm
    rw [hcs] at hcm
    obtain ⟨b, _, rfl⟩ := List.mem_map.mp hcm
    exact encryptBlock_lt b ks
  show joinBlocks ((splitIntoBlocks (joinBlocks cs 128) 128).map
    (fun b => decryptBlock b ks)) 128 = blob
  rw [splitIntoBlocks_joinBlocks cs 128 (by norm_num) hcs_lt hhead, hcs, List.map_map]
  have hmap : bs.map ((fun b => decryptBlock b ks) ∘ (fun b => encryptBlock b ks))
      = bs.map id := by
    refine List.map_congr_left (fun b hbm => ?_)
    rw [hksdef]
    exact twofish_block_roundtrip (hk &&& BIT128) b (hbs_lt b hbm)
  rw [hmap, List.map_id, hbs, joinBlocks_splitIntoBlocks blob 128 (by norm_num)]

end TwoFish

/-! ## The claims -/

/-- C1 (counterexample): decrypt after encrypt is NOT the identity for every
input and key: the blob representation drops leading zero bytes of the
ciphertext, desynchronising the keystream on decryption.  Concretely, for
ChaCha20 with hashed key bytes 0 and nonce 0, the input 0x9f01 comes back
as 0x99. -/
theorem C1_leading_zero_counterexample :
    ChaCha20.decrypt (ChaCha20.encrypt 0x9f01 0 0) 0 0 ≠ 0x9f01 := by decide

/-- C1 (corrected): for each of the four ciphers, decrypting the encryption
restores the input under the side conditions the blob representation forces:
the leading ciphertext block must be nonzero (a leading zero block is
dropped by `splitIntoBlocks`), for DES every non-leading block must be full
width (the byte length is re-derived per block on assembly), for IDEA the
masked hashed key must be nonzero (a zero key register would loop the
subkey generator), and for ChaCha20 the generator must supply one keystream
byte per input byte (its per-word emission can run short). -/
theorem C1_roundtrips :
    (∀ text hashedKey : Nat,
      (∀ b ∈ (splitIntoBlocks text 64).drop 1, 2 ^ 56 ≤ b) →
      (∀ c ∈ ((splitIntoBlocks text 64).map
          (fun b => DES.encryptBlock b (DES.createKeySchedule hashedKey))).drop 1,
        2 ^ 56 ≤ c) →
      ((splitIntoBlocks text 64).map
          (fun b => DES.encryptBlock b (DES.createKeySchedule hashedKey))).headD 1 ≠ 0 →
      DES.desDecryptBlob (DES.desEncryptBlob text hashedKey) hashedKey = text) ∧
    (∀ blob hk : Nat, hk &&& IDEA.BIT128 ≠ 0 →
      (((splitIntoBlocks blob 64).map
          (fun b => IDEA.processBlock b
            (IDEA.encGroups (IDEA.subkeysOf (hk &&& IDEA.BIT128))))).headD 1) ≠ 0 →
      IDEA.ideaDecrypt (IDEA.ideaEncrypt blob hk) hk = blob) ∧
    (∀ blob hk : Nat,
      (((splitIntoBlocks blob 128).map
          (fun b => TwoFish.encryptBlock b
            (TwoFish.generateKeySchedule (hk &&& TwoFish.BIT128)))).headD 1) ≠ 0 →
      TwoFish.twofishDecrypt (TwoFish.twofishEncrypt blob hk) hk = blob) ∧
    (∀ blob keyBytes nonce : Nat,
      (splitIntoBlocks blob 8).length
        ≤ (ChaCha20.keyStreamBytes keyBytes nonce (splitIntoBlocks blob 8).length).length →
      (ChaCha20.xorKeyStream (splitIntoBlocks blob 8) keyBytes nonce).headD 1 ≠ 0 →
      ChaCha20.decrypt (ChaCha20.encrypt blob keyBytes nonce) keyBytes nonce = blob) :=
  ⟨fun text hashedKey hb hc hhead =>
      DES.des_pipeline_roundtrip text hashedKey hb hc hhead,
   fun blob hk hkey hhead => IDEA.idea_pipeline_roundtrip blob hk hkey hhead,
   fun blob hk hhead => TwoFish.twofish_pipeline_roundtrip blob hk hhead,
   fun blob keyBytes nonce hlen hhead =>
      ChaCha20.chacha_roundtrip blob keyBytes nonce hlen hhead⟩

theorem C1_roundtrips_witness :
    DES.desDecryptBlob (DES.desEncryptBlob 0x0123456789ABCDEF 0x133457799BBCDFF1)
        0x133457799BBCDFF1 = 0x0123456789ABCDEF ∧
    IDEA.ideaDecrypt (IDEA.ideaEncrypt 0x0123456789ABCDEF 7) 7 = 0x0123456789ABCDEF ∧
    TwoFish.twofishDecrypt (TwoFish.twofishEncrypt 1 5) 5 = 1 ∧
    ChaCha20.decrypt (ChaCha20.encrypt 0x0102 0 0) 0 0 = 0x0102 :=
  ⟨C1_roundtrips.1 0x0123456789ABCDEF 0x133457799BBCDFF1
      (by decide) (by decide) (by decide),
   C1_roundtrips.2.1 0x0123456789ABCDEF 7 (by decide) (by decide),
   C1_roundtrips.2.2.1 1 5 (by decide),
   C1_roundtrips.2.2.2 0x0102 0 0 (by decide) (by decide)⟩

/-- C2: joining the blocks of `splitIntoBlocks x n` with `joinBlocks`
restores `x`, for every non-negative `x` and every positive block width
`n` (64 bits for DES/IDEA, 128 for TwoFish, 8 for ChaCha20's byte
stream). -/
theorem C2_join_split (x n : Nat) (hn : 0 < n) :
    joinBlocks (splitIntoBlocks x n) n = x :=
  joinBlocks_splitIntoBlocks x n hn

theorem C2_join_split_witness :
    0 < 64 ∧
    joinBlocks (splitIntoBlocks 0x123456789ABCDEF0123 64) 64 = 0x123456789ABCDEF0123 :=
  ⟨by decide, C2_join_split 0x123456789ABCDEF0123 64 (by decide)⟩

/-- C3: the published DES test vector FAILS on this implementation: with the
raw key 0x133457799BBCDFF1, the plaintext block 0x0123456789ABCDEF encrypts
to 0x11B43AB13F6F857B, not the expected 0x85E813540F0AB405. -/
theorem C3_test_vector_fails :
    DES.encryptBlock 0x0123456789ABCDEF (DES.createKeySchedule 0x133457799BBCDFF1)
        = 0x11B43AB13F6F857B ∧
    DES.encryptBlock 0x0123456789ABCDEF (DES.createKeySchedule 0x133457799BBCDFF1)
        ≠ 0x85E813540F0AB405 :=
  ⟨by decide, by decide⟩

/-- C4: the ChaCha20 block with all-zero key, all-zero nonce and counter 1
serialises, under the generator's own byte emission, exactly to the
RFC 8439 test-vector keystream block, and the spec-side four-bytes-per-word
little-endian serialisation agrees on this block. -/
theorem C4_rfc8439_block :
    ChaCha20.blockEmit (ChaCha20.chaChaBlock 0 0 1) =
      [159, 7, 231, 190, 85, 81, 56, 122, 152, 186, 151, 124, 115, 45, 8, 13,
       203, 15, 41, 160, 72, 227, 101, 105, 18, 198, 83, 62, 50, 238, 122, 237,
       41, 183, 33, 118, 156, 230, 78, 67, 213, 113, 51, 176, 116, 216, 57, 213,
       49, 237, 31, 40, 81, 10, 251, 69, 172, 225, 10, 31, 75, 121, 77, 111] ∧
    ChaCha20.specSerialize (ChaCha20.chaChaBlock 0 0 1) =
      ChaCha20.blockEmit (ChaCha20.chaChaBlock 0 0 1) :=
  ⟨by rfl, by rfl⟩

/-- C5: the generator does NOT always contribute four bytes per 32-bit word:
its `while (byte > 0)` loop stops once the remaining value is zero, dropping
high zero bytes.  For key 0 and nonce 0, word 12 of output block 13 is
0x1A2A38, which emits only three bytes; the 63-byte emission diverges from
the four-bytes-per-word little-endian serialisation the spec describes. -/
theorem C5_serialization_gap :
    (ChaCha20.chaChaBlock 0 0 13).getD 12 0 = 0x1A2A38 ∧
    (ChaCha20.blockEmit (ChaCha20.chaChaBlock 0 0 13)).length = 63 ∧
    (ChaCha20.specSerialize (ChaCha20.chaChaBlock 0 0 13)).length = 64 ∧
    ChaCha20.blockEmit (ChaCha20.chaChaBlock 0 0 13)
      ≠ ChaCha20.specSerialize (ChaCha20.chaChaBlock 0 0 13) :=
  ⟨by rfl, by rfl, by rfl, by decide⟩

/-- C6: when the passphrase is omitted, ChaCha20 `encrypt` returns the
freshly generated key but derives the keystream from the digest of the
ORIGINAL (absent) argument, so a later `decrypt` with the returned key does
not restore the blob.  For any digest mapping the absent key to key bytes 0
and the generated key to key bytes 1: the resolved key handed back is the
generated one, decrypting with it fails, while decrypting with the key
STILL omitted (reproducing the digest of the absent argument) succeeds —
the returned key is not the key material actually used. -/
theorem C6_returned_key_unusable (hash : Option String → Nat) (randomKey : String)
    (h0 : hash none = 0) (h1 : hash (some randomKey) = 1) :
    (ChaCha20.encryptResolved hash randomKey 2 none 0).2 = randomKey ∧
    (ChaCha20.decryptResolved hash randomKey
        (ChaCha20.encryptResolved hash randomKey 2 none 0).1 (some randomKey) 0).1 ≠ 2 ∧
    (ChaCha20.decryptResolved hash randomKey
        (ChaCha20.encryptResolved hash randomKey 2 none 0).1 none 0).1 = 2 := by
  refine ⟨rfl, ?_, ?_⟩
  · simp only [ChaCha20.decryptResolved, ChaCha20.encryptResolved, h0, h1]
    decide
  · simp only [ChaCha20.decryptResolved, ChaCha20.encryptResolved, h0]
    decide

theorem C6_returned_key_unusable_witness :
    (ChaCha20.decryptResolved
        (fun k => match k with | none => 0 | some _ => 1) "generated"
        (ChaCha20.encryptResolved
          (fun k => match k with | none => 0 | some _ => 1) "generated" 2 none 0).1
        (some "generated") 0).1 ≠ 2 :=
  (C6_returned_key_unusable
    (fun k => match k with | none => 0 | some _ => 1) "generated" rfl rfl).2.1

/-- C7 (counterexample): one encryption round followed by the corresponding
decryption round is NOT the identity: for key 7, the decryption-schedule
group 7 round applied after the encryption-schedule group 1 round maps
(1, 2, 3, 4) to (51205, 51199, 14335, 14333).  The implementation's
decryption groups keep the two MA-layer subkeys uninverted (they are taken
from the neighbouring group instead), so the inversion only holds for the
whole block function, not round by round. -/
theorem C7_one_round_counterexample :
    IDEA.ideaRound ((IDEA.invGroups (IDEA.subkeysOf 7)).getD 7 [])
        (IDEA.ideaRound ((IDEA.encGroups (IDEA.subkeysOf 7)).getD 1 []) (1, 2, 3, 4))
      ≠ (1, 2, 3, 4) := by decide

/-- C7 (corrected): the decryption schedule reverses the nine groups and
inverts ONLY the four keyed-layer slots (multiplicative inverses in slots 0
and 3, additive inverses in slots 1 and 2); the two MA-layer slots are
copied uninverted from the neighbouring encryption group.  The schedules
are inverse at the level of the full 8.5-round block function: for every
52-entry 16-bit subkey list, `processBlock` under `invGroups` inverts
`processBlock` under `encGroups` on every 64-bit block. -/
theorem C7_schedule_and_block_inverse (S : List Nat) (hlen : S.length = 52)
    (hbnd : ∀ x ∈ S, x < 2 ^ 16) :
    (∀ j : Nat, j ≤ 7 → (IDEA.invGroups S).getD j [] =
      [IDEA.mulInv (S.getD (48 - 6*j) 0), IDEA.additiveInverse (S.getD (49 - 6*j) 0),
       IDEA.additiveInverse (S.getD (50 - 6*j) 0), IDEA.mulInv (S.getD (51 - 6*j) 0),
       S.getD (46 - 6*j) 0, S.getD (47 - 6*j) 0]) ∧
    ((IDEA.invGroups S).getD 8 [] =
      [IDEA.mulInv (S.getD 0 0), IDEA.additiveInverse (S.getD 1 0),
       IDEA.additiveInverse (S.getD 2 0), IDEA.mulInv (S.getD 3 0)]) ∧
    (∀ v : Nat, v < 2 ^ 64 →
      IDEA.processBlock (IDEA.processBlock v (IDEA.encGroups S)) (IDEA.invGroups S) = v) :=
  ⟨fun j hj => IDEA.invGroup_slots S hlen j hj,
   IDEA.invGroup8 S hlen,
   fun v hv => IDEA.processBlock_roundtrip S hlen hbnd v hv⟩

theorem C7_schedule_and_block_inverse_witness :
    IDEA.processBlock (IDEA.processBlock 0x0123456789ABCDEF
        (IDEA.encGroups (IDEA.subkeysOf 7))) (IDEA.invGroups (IDEA.subkeysOf 7))
      = 0x0123456789ABCDEF :=
  (C7_schedule_and_block_inverse (IDEA.subkeysOf 7) (by decide) (by decide)).2.2
    0x0123456789ABCDEF (by decide)

/-- C8: the three branches of IDEA `multiply` on 16-bit operands: a nonzero
plain product is reduced mod 2^16+1 (then masked to 16 bits); a zero
product with not both operands zero gives (2^16+1 - a - b) mod 2^16+1; two
zero operands give 1.  Under the zero-stands-for-2^16 reading `toZ`, the
operation is exactly multiplication in Z/(2^16+1). -/
theorem C8_multiply_branches (a b : Nat) (ha : a < 2 ^ 16) (hb : b < 2 ^ 16) :
    (a * b ≠ 0 → IDEA.multiply a b = a * b % 65537 % 2 ^ 16) ∧
    (a * b = 0 → (a ≠ 0 ∨ b ≠ 0) → IDEA.multiply a b = (65537 - a - b) % 65537 % 2 ^ 16) ∧
    (a = 0 → b = 0 → IDEA.multiply a b = 1) ∧
    IDEA.toZ (IDEA.multiply a b) = IDEA.toZ a * IDEA.toZ b := by
  refine ⟨?_, ?_, ?_, IDEA.toZ_multiply a b ha hb⟩
  · intro h
    rw [IDEA.multiply]
    simp only [if_pos h]
    rw [and_mask_ffff]
  · intro h h2
    rw [IDEA.multiply]
    simp only [h]
    rw [if_neg (by simp), if_pos h2, and_mask_ffff]
  · intro h1 h2
    subst h1
    subst h2
    decide

theorem C8_multiply_branches_witness :
    (0 : Nat) * 5 = 0 ∧ IDEA.multiply 0 5 = (65537 - 0 - 5) % 65537 % 2 ^ 16 :=
  ⟨by decide,
   (C8_multiply_branches 0 5 (by decide) (by decide)).2.1 (by decide)
     (Or.inr (by decide))⟩

/-- C9: for every key and every 128-bit block, TwoFish `decryptBlock`
inverts `encryptBlock` under the schedule generated from that key — even
though input whitening composed with output whitening under one schedule is
not the identity (they XOR the different subkey slices K[0..3] and
K[4..7]): for the schedule of key 5 the composite moves [1, 2, 3, 4]. -/
theorem C9_twofish_roundtrip_whitening :
    (∀ key v : Nat, v < 2 ^ 128 →
      TwoFish.decryptBlock (TwoFish.encryptBlock v (TwoFish.generateKeySchedule key))
        (TwoFish.generateKeySchedule key) = v) ∧
    TwoFish.inputWhiten
        (TwoFish.outputWhiten [1, 2, 3, 4] (TwoFish.generateKeySchedule 5))
        (TwoFish.generateKeySchedule 5) ≠ [1, 2, 3, 4] :=
  ⟨fun key v hv => TwoFish.twofish_block_roundtrip key v hv, by decide⟩

theorem C9_twofish_roundtrip_whitening_witness :
    TwoFish.decryptBlock (TwoFish.encryptBlock 9 (TwoFish.generateKeySchedule 3))
        (TwoFish.generateKeySchedule 3) = 9 :=
  C9_twofish_roundtrip_whitening.1 3 9 (by decide)

/-- C10: the multiplicative-inverse computation of the decryption
key-schedule inversion fails exactly on the non-invertible input: the plain
variant returns `none` (the thrown error) for the value 0, and for every
subkey value 1 ≤ v ≤ 2^16 it succeeds with the exact inverse mod
2^16+1. -/
theorem C10_inverse_error_iff (v : Nat) (h1 : 1 ≤ v) (h2 : v ≤ 65536) :
    IDEA.multiplicativeInversePlain 0 = none ∧
    ∃ n0 : Nat, IDEA.multiplicativeInversePlain v = some n0 ∧ 1 ≤ n0 ∧ n0 ≤ 65536 ∧
      (n0 * v) % 65537 = 1 :=
  ⟨by decide, IDEA.multiplicativeInversePlain_spec v h1 h2⟩

theorem C10_inverse_error_iff_witness :
    IDEA.multiplicativeInversePlain 0 = none ∧
    ∃ n0 : Nat, IDEA.multiplicativeInversePlain 2 = some n0 ∧ 1 ≤ n0 ∧ n0 ≤ 65536 ∧
      (n0 * 2) % 65537 = 1 :=
  C10_inverse_error_iff 2 (by decide) (by decide)

end DataEncryption
